import Mathlib

/-!
Verification development for the campus-assistant query-understanding and
retrieval engine.  The Python sources under `src/campus_assistant` are shallowly
embedded as executable Lean definitions:

* strings are Lean `String`s processed as `List Char`;
* Python regular-expression scans are embedded as explicit character scanners
  with the same left-to-right, word-boundary semantics (ASCII scope: the model
  treats the ASCII letters, digits and `_` as word characters and space, tab,
  CR, LF as whitespace, matching CPython behaviour on ASCII inputs);
* floating-point similarity scores are abstracted as rational score vectors;
* external collaborators (the spell-checking model, the fuzzy-ratio function,
  the dense embedding model, the OpenAI generator) are passed as explicit
  parameters, with their documented contracts as hypotheses where needed.
-/

namespace Campus

/-! ## Character utilities (models of Python `str` primitives, ASCII scope) -/

/-- Model of Python `str.lower` on one character (ASCII). -/
def lowerC (c : Char) : Char :=
  if 'A' ≤ c ∧ c ≤ 'Z' then Char.ofNat (c.toNat + 32) else c

/-- Model of Python `str.upper` on one character (ASCII). -/
def upperC (c : Char) : Char :=
  if 'a' ≤ c ∧ c ≤ 'z' then Char.ofNat (c.toNat - 32) else c

/-- ASCII letter. -/
def isAlphaC (c : Char) : Bool := ('A' ≤ c ∧ c ≤ 'Z') ∨ ('a' ≤ c ∧ c ≤ 'z')

/-- ASCII digit. -/
def isDigitC (c : Char) : Bool := '0' ≤ c ∧ c ≤ '9'

/-- Regex `\w` (word character), ASCII scope. -/
def isWordC (c : Char) : Bool := isAlphaC c || isDigitC c || c = '_'

/-- Regex `\s` / `str.split()` whitespace, ASCII scope. -/
def isWsC (c : Char) : Bool := c = ' ' || c = '\t' || c = '\n' || c = '\r'

def lowerL (s : List Char) : List Char := s.map lowerC

def upperL (s : List Char) : List Char := s.map upperC

def lowerS (s : String) : String := ⟨lowerL s.data⟩

def upperS (s : String) : String := ⟨upperL s.data⟩

/-- `str.split()` with no argument: split on whitespace runs, dropping empties.
`cur` accumulates the current word in reverse. -/
def splitWSGo (cur : List Char) : List Char → List (List Char)
  | [] => if cur = [] then [] else [cur.reverse]
  | c :: rest =>
    if isWsC c then
      if cur = [] then splitWSGo [] rest else cur.reverse :: splitWSGo [] rest
    else splitWSGo (c :: cur) rest

def splitWS (s : List Char) : List (List Char) := splitWSGo [] s

/-- `" ".join(xs)` -/
def joinSpace : List (List Char) → List Char
  | [] => []
  | [x] => x
  | x :: y :: rest => x ++ ' ' :: joinSpace (y :: rest)

/-- `" ".join(s.split())`: whitespace collapse used by `normalize`. -/
def collapseWS (s : List Char) : List Char := joinSpace (splitWS s)

/-- First index of `pat` in `hay` (model of Python `str.find`, as `Option`). -/
def findSubGo (pat : List Char) : List Char → Nat → Option Nat
  | s, i =>
    if pat.isPrefixOf s then some i
    else
      match s with
      | [] => none
      | _ :: rest => findSubGo pat rest (i + 1)

def findSub (hay pat : List Char) : Option Nat := findSubGo pat hay 0

/-- Substring containment (Python `in` on strings). -/
def containsSub (hay pat : List Char) : Bool := (findSub hay pat).isSome

/-! ## Term key algebra (src/campus_assistant/db/multi_db.py) -/

/-- Case-insensitive literal match: consumes `lit` (given lowercase) from the
front of `s`, comparing lowered characters; returns the rest on success. -/
def matchCI (lit : List Char) (s : List Char) : Option (List Char) :=
  match lit, s with
  | [], rest => some rest
  | _ :: _, [] => none
  | l :: ls, c :: cs => if lowerC c = l then matchCI ls cs else none

/-- Try the season alternation `(spring|summer|fall|winter)` of `TERM_PATTERN`
at the head of `s`, in Python alternation order; returns the `SEASON_ORDER`
rank and the rest. -/
def trySeason (s : List Char) : Option (Nat × List Char) :=
  match matchCI "spring".data s with
  | some rest => some (2, rest)
  | none =>
    match matchCI "summer".data s with
    | some rest => some (3, rest)
    | none =>
      match matchCI "fall".data s with
      | some rest => some (4, rest)
      | none =>
        match matchCI "winter".data s with
        | some rest => some (1, rest)
        | none => none

/-- After the season word: `\s+(20\d{2})\b`.  Returns the year group text. -/
def matchYearTail (s : List Char) : Option (List Char) :=
  match s with
  | c :: rest =>
    if isWsC c then
      let rest2 := rest.dropWhile isWsC
      match rest2 with
      | '2' :: '0' :: d1 :: d2 :: rest3 =>
        if isDigitC d1 ∧ isDigitC d2 ∧ (rest3 = [] ∨ ¬ isWordC rest3.head!) then
          some ['2', '0', d1, d2]
        else none
      | _ => none
    else none
  | [] => none

/-- `TERM_PATTERN.search`: first match of
`\b(spring|summer|fall|winter)\s+(20\d{2})\b` (IGNORECASE); returns
(season rank, year group text).  `prev` is the character before the scan
position, for the `\b` check. -/
def termSearch : Option Char → List Char → Option (Nat × List Char)
  | _, [] => none
  | prev, c :: rest =>
    let boundary := match prev with
      | none => true
      | some p => !isWordC p
    let tryHere :=
      if boundary then
        match trySeason (c :: rest) with
        | some (rank, rest2) =>
          match matchYearTail rest2 with
          | some ychars => some (rank, ychars)
          | none => none
        | none => none
      else none
    match tryHere with
    | some r => some r
    | none => termSearch (some c) rest

/-- `int(match.group(2))` for the matched year `20\d{2}`. -/
def yearOfChars : List Char → Nat
  | ['2', '0', d1, d2] => 2000 + 10 * (d1.toNat - 48) + (d2.toNat - 48)
  | _ => 0

/-- `_term_sort_key` (multi_db.py:558): `year*10 + season_rank`, or
`10_000_000` when `TERM_PATTERN` does not match. -/
def termSortKey (term : String) : Nat :=
  match termSearch none term.data with
  | some (rank, ychars) => yearOfChars ychars * 10 + rank
  | none => 10000000

/-- `_current_term_key` (multi_db.py:568) with the wall-clock date made an
explicit `(year, month)` input: Jan=winter, Feb-May=spring, Jun-Aug=summer,
Sep-Dec=fall (the source's `else` branch). -/
def currentTermKey (year month : Nat) : Nat :=
  year * 10 +
    (if month = 1 then 1
     else if month = 2 ∨ month = 3 ∨ month = 4 ∨ month = 5 then 2
     else if month = 6 ∨ month = 7 ∨ month = 8 then 3
     else 4)

/-- Python `min(a :: l, key=f)`: first element attaining the minimum key. -/
def minByKey (f : α → Nat) : α → List α → α
  | a, [] => a
  | a, b :: rest => if f b < f a then minByKey f b rest else minByKey f a rest

/-- `fetch_upcoming_term` (multi_db.py:329) over an explicit list of known
terms (the output of `fetch_distinct_terms`) and an explicit current key. -/
def fetchUpcomingTermFrom (terms : List String) (currentKey : Nat) : Option String :=
  match terms with
  | [] => none
  | _ :: _ =>
    let keys := terms.map (fun t => (t, termSortKey t))
    match keys.filter (fun p => currentKey < p.2) with
    | f :: fs => some (minByKey (fun p => p.2) f fs).1
    | [] =>
      match keys.filter (fun p => currentKey ≤ p.2) with
      | c :: cs => some (minByKey (fun p => p.2) c cs).1
      | [] =>
        match keys with
        | k :: ks => some (minByKey (fun p => p.2) k ks).1
        | [] => none

/-! ### Lemmas about `minByKey` -/

theorem minByKey_mem (f : α → Nat) (a : α) (l : List α) :
    minByKey f a l ∈ a :: l := by
  induction l generalizing a with
  | nil => simp [minByKey]
  | cons b rest ih =>
    simp only [minByKey]
    by_cases h : f b < f a
    · simp only [h, if_pos]
      have := ih b
      simp only [List.mem_cons] at this ⊢
      tauto
    · simp only [h, if_neg, not_false_iff]
      have := ih a
      simp only [List.mem_cons] at this ⊢
      tauto

theorem minByKey_le_self (f : α → Nat) (a : α) (l : List α) :
    f (minByKey f a l) ≤ f a := by
  induction l generalizing a with
  | nil => simp [minByKey]
  | cons b rest ih =>
    simp only [minByKey]
    by_cases h : f b < f a
    · simp only [h, if_pos]
      exact le_trans (ih b) (le_of_lt h)
    · simp only [h, if_neg, not_false_iff]
      exact ih a

theorem minByKey_le (f : α → Nat) (a : α) (l : List α) :
    ∀ x ∈ a :: l, f (minByKey f a l) ≤ f x := by
  induction l generalizing a with
  | nil =>
    intro x hx
    simp only [List.mem_cons, List.not_mem_nil, or_false] at hx
    subst hx; simp [minByKey]
  | cons b rest ih =>
    intro x hx
    simp only [List.mem_cons] at hx
    simp only [minByKey]
    by_cases h : f b < f a
    · simp only [h, if_pos]
      rcases hx with hxa | hxb | hxr
      · exact le_trans (le_trans (minByKey_le_self f b rest) (le_of_lt h)) (le_of_eq (by rw [hxa]))
      · exact ih b x (by simp [hxb])
      · exact ih b x (by simp [hxr])
    · simp only [h, if_neg, not_false_iff]
      rcases hx with hxa | hxb | hxr
      · exact le_trans (minByKey_le_self f a rest) (le_of_eq (by rw [hxa]))
      · exact le_trans (le_trans (minByKey_le_self f a rest) (le_of_not_lt h)) (le_of_eq (by rw [hxb]))
      · exact ih a x (by simp [hxr])

theorem mem_keyPairs {terms : List String} {p : String × Nat}
    (hp : p ∈ terms.map (fun t => (t, termSortKey t))) :
    p.1 ∈ terms ∧ p.2 = termSortKey p.1 := by
  rcases List.mem_map.mp hp with ⟨t, ht, rfl⟩
  exact ⟨ht, rfl⟩

theorem keyPairs_mem {terms : List String} {t : String} (ht : t ∈ terms) :
    (t, termSortKey t) ∈ terms.map (fun t => (t, termSortKey t)) :=
  List.mem_map.mpr ⟨t, ht, rfl⟩

/-- C1: for every non-empty list of known terms and every current-term key,
`fetch_upcoming_term` returns a known term whose key is minimal among keys
strictly greater than the current key when such a term exists; otherwise
minimal among keys `≥` the current key when such a term exists; otherwise
minimal overall — in particular the result is always a single term. -/
theorem fetch_upcoming_term_correct (terms : List String) (ck : Nat)
    (h : terms ≠ []) :
    ∃ t, fetchUpcomingTermFrom terms ck = some t ∧ t ∈ terms ∧
      ((∃ u ∈ terms, ck < termSortKey u) →
        ck < termSortKey t ∧
          ∀ u ∈ terms, ck < termSortKey u → termSortKey t ≤ termSortKey u) ∧
      ((¬ ∃ u ∈ terms, ck < termSortKey u) → (∃ u ∈ terms, ck ≤ termSortKey u) →
        ck ≤ termSortKey t ∧
          ∀ u ∈ terms, ck ≤ termSortKey u → termSortKey t ≤ termSortKey u) ∧
      ((¬ ∃ u ∈ terms, ck ≤ termSortKey u) →
        ∀ u ∈ terms, termSortKey t ≤ termSortKey u) := by
  obtain ⟨a, rest, rfl⟩ : ∃ a rest, terms = a :: rest := by
    cases terms with
    | nil => exact absurd rfl h
    | cons a rest => exact ⟨a, rest, rfl⟩
  set terms := a :: rest with hterms
  set keys := terms.map (fun t => (t, termSortKey t)) with hkeys
  rcases hfut : keys.filter (fun p => decide (ck < p.2)) with _ | ⟨f, fs⟩
  · -- no strictly-future term
    have hnofut : ∀ u ∈ terms, ¬ ck < termSortKey u := by
      intro u hu hlt
      have : (u, termSortKey u) ∈ keys.filter (fun p => decide (ck < p.2)) :=
        List.mem_filter.mpr ⟨keyPairs_mem hu, by simpa using hlt⟩
      rw [hfut] at this
      exact absurd this (List.not_mem_nil _)
    rcases hcur : keys.filter (fun p => decide (ck ≤ p.2)) with _ | ⟨c, cs⟩
    · -- all terms strictly in the past
      have hnocur : ∀ u ∈ terms, ¬ ck ≤ termSortKey u := by
        intro u hu hle
        have : (u, termSortKey u) ∈ keys.filter (fun p => decide (ck ≤ p.2)) :=
          List.mem_filter.mpr ⟨keyPairs_mem hu, by simpa using hle⟩
        rw [hcur] at this
        exact absurd this (List.not_mem_nil _)
      have hkeyscons : keys = (a, termSortKey a) :: rest.map (fun t => (t, termSortKey t)) := by
        simp [hkeys, hterms]
      set m := minByKey (fun p : String × Nat => p.2) (a, termSortKey a)
        (rest.map (fun t => (t, termSortKey t))) with hm
      have hmmem : m ∈ keys := by rw [hkeyscons]; exact minByKey_mem _ _ _
      obtain ⟨hm1, hm2⟩ := mem_keyPairs hmmem
      refine ⟨m.1, ?_, hm1, ?_, ?_, ?_⟩
      · simp only [fetchUpcomingTermFrom]
        rw [← hkeys, hfut, hcur, hkeyscons]
      · intro ⟨u, hu, hlt⟩; exact absurd hlt (hnofut u hu)
      · intro _ ⟨u, hu, hle⟩; exact absurd hle (hnocur u hu)
      · intro _ u hu
        rw [← hm2]
        have : (u, termSortKey u) ∈ keys := keyPairs_mem hu
        rw [hkeyscons] at this
        exact minByKey_le _ _ _ _ this
    · -- a current-or-future term exists, none strictly future
      set m := minByKey (fun p : String × Nat => p.2) c cs with hm
      have hmmem' : m ∈ c :: cs := minByKey_mem _ _ _
      have hmfil : m ∈ keys.filter (fun p => decide (ck ≤ p.2)) := by rw [hcur]; exact hmmem'
      obtain ⟨hmk, hmp⟩ := List.mem_filter.mp hmfil
      obtain ⟨hm1, hm2⟩ := mem_keyPairs hmk
      have hmle : ck ≤ m.2 := by simpa using hmp
      refine ⟨m.1, ?_, hm1, ?_, ?_, ?_⟩
      · simp only [fetchUpcomingTermFrom]
        rw [← hkeys, hfut, hcur]
      · intro ⟨u, hu, hlt⟩; exact absurd hlt (hnofut u hu)
      · intro _ _
        refine ⟨by rw [← hm2]; exact hmle, ?_⟩
        intro u hu hle
        rw [← hm2]
        have : (u, termSortKey u) ∈ keys.filter (fun p => decide (ck ≤ p.2)) :=
          List.mem_filter.mpr ⟨keyPairs_mem hu, by simpa using hle⟩
        rw [hcur] at this
        exact minByKey_le _ _ _ _ this
      · intro hno
        exact absurd ⟨m.1, hm1, by rw [← hm2]; exact hmle⟩ hno
  · -- a strictly-future term exists
    set m := minByKey (fun p : String × Nat => p.2) f fs with hm
    have hmmem' : m ∈ f :: fs := minByKey_mem _ _ _
    have hmfil : m ∈ keys.filter (fun p => decide (ck < p.2)) := by rw [hfut]; exact hmmem'
    obtain ⟨hmk, hmp⟩ := List.mem_filter.mp hmfil
    obtain ⟨hm1, hm2⟩ := mem_keyPairs hmk
    have hmlt : ck < m.2 := by simpa using hmp
    refine ⟨m.1, ?_, hm1, ?_, ?_, ?_⟩
    · simp only [fetchUpcomingTermFrom]
      rw [← hkeys, hfut]
    · intro _
      refine ⟨by rw [← hm2]; exact hmlt, ?_⟩
      intro u hu hlt
      rw [← hm2]
      have : (u, termSortKey u) ∈ keys.filter (fun p => decide (ck < p.2)) :=
        List.mem_filter.mpr ⟨keyPairs_mem hu, by simpa using hlt⟩
      rw [hfut] at this
      exact minByKey_le _ _ _ _ this
    · intro hno
      exact absurd ⟨m.1, hm1, by rw [← hm2]; exact hmlt⟩ hno
    · intro hno
      exact absurd ⟨m.1, hm1, by rw [← hm2]; exact le_of_lt hmlt⟩ hno

/-- Witness for C1 at a concrete input: two known terms with "now" between
their keys. -/
theorem fetch_upcoming_term_correct_witness :
    ∃ t, fetchUpcomingTermFrom ["Spring 2026", "Fall 2026"] 20263 = some t ∧
      t ∈ ["Spring 2026", "Fall 2026"] ∧
      ((∃ u ∈ ["Spring 2026", "Fall 2026"], 20263 < termSortKey u) →
        20263 < termSortKey t ∧
          ∀ u ∈ ["Spring 2026", "Fall 2026"], 20263 < termSortKey u →
            termSortKey t ≤ termSortKey u) ∧
      ((¬ ∃ u ∈ ["Spring 2026", "Fall 2026"], 20263 < termSortKey u) →
        (∃ u ∈ ["Spring 2026", "Fall 2026"], 20263 ≤ termSortKey u) →
        20263 ≤ termSortKey t ∧
          ∀ u ∈ ["Spring 2026", "Fall 2026"], 20263 ≤ termSortKey u →
            termSortKey t ≤ termSortKey u) ∧
      ((¬ ∃ u ∈ ["Spring 2026", "Fall 2026"], 20263 ≤ termSortKey u) →
        ∀ u ∈ ["Spring 2026", "Fall 2026"], termSortKey t ≤ termSortKey u) :=
  fetch_upcoming_term_correct ["Spring 2026", "Fall 2026"] 20263 (by decide)

/-! ## Similarity index (src/campus_assistant/retrieval/vector_index.py)

The numeric similarity scores (cosine similarity / normalized dot product,
computed in floating point by numpy) are abstracted as a rational score
vector aligned with the document list; `np.argsort` is modelled as a stable
ascending sort on indices (numpy's insertion sort behaviour on small arrays),
and `np.argsort(scores)[::-1]` as its reversal, exactly as in `search`. -/

structure Document where
  doc_id : String
  source_type : String
  title : String
  text : String
deriving DecidableEq, Inhabited

def scoreAt (scores : List ℚ) (i : Nat) : ℚ := scores.getD i 0

/-- Insert index `i` into an ascending (stable) list of indices. -/
def insertIdx (scores : List ℚ) (i : Nat) : List Nat → List Nat
  | [] => [i]
  | j :: rest =>
    if scoreAt scores i < scoreAt scores j then i :: j :: rest
    else j :: insertIdx scores i rest

/-- Stable ascending argsort of the score vector (model of `np.argsort`). -/
def argsortAsc (scores : List ℚ) : List Nat :=
  (List.range scores.length).foldl (fun acc i => insertIdx scores i acc) []

/-- The ranked candidate order of `search`: `np.argsort(scores)[::-1]`. -/
def rankedIndices (scores : List ℚ) : List Nat := (argsortAsc scores).reverse

/-- The result-collection loop of `VectorIndex.search` (vector_index.py:65-74):
walk the ranked indices, skip documents excluded by a non-empty allowlist
(Python truthiness: an empty set disables the filter), append `(idx, score)`,
and stop once the accumulated length reaches `top_k`.  `resLen` is the number
of results collected so far. -/
def searchSkip (docs : List Document) (srcTypes : Option (List String))
    (idx : Nat) : Bool :=
  match srcTypes with
  | some l => decide (l ≠ []) && !(l.contains (docs.getD idx default).source_type)
  | none => false

def searchGo (docs : List Document) (scores : List ℚ)
    (srcTypes : Option (List String)) (topK : Nat) :
    List Nat → Nat → List (Nat × ℚ)
  | [], _ => []
  | idx :: rest, resLen =>
    if searchSkip docs srcTypes idx then searchGo docs scores srcTypes topK rest resLen
    else
      (idx, scoreAt scores idx) ::
        (if topK ≤ resLen + 1 then []
         else searchGo docs scores srcTypes topK rest (resLen + 1))

/-- `VectorIndex.search` reduced to index/score pairs (the guard
`if not self.documents: return []` included). -/
def searchIdx (docs : List Document) (scores : List ℚ) (topK : Nat)
    (srcTypes : Option (List String)) : List (Nat × ℚ) :=
  if docs = [] then []
  else searchGo docs scores srcTypes topK (rankedIndices scores) 0

/-- `VectorIndex.search`: the returned `(document, score)` pairs. -/
def search (docs : List Document) (scores : List ℚ) (topK : Nat)
    (srcTypes : Option (List String)) : List (Document × ℚ) :=
  (searchIdx docs scores topK srcTypes).map (fun p => (docs.getD p.1 default, p.2))

/-! ### Ranking lemmas -/

/-- Strict order on indices: smaller score first, ties by original position. -/
def idxRel (scores : List ℚ) (i j : Nat) : Prop :=
  scoreAt scores i < scoreAt scores j ∨ (scoreAt scores i = scoreAt scores j ∧ i < j)

theorem insertIdx_mem {scores : List ℚ} {i j : Nat} {acc : List Nat} :
    j ∈ insertIdx scores i acc ↔ j = i ∨ j ∈ acc := by
  induction acc with
  | nil => simp [insertIdx]
  | cons k rest ih =>
    simp only [insertIdx]
    by_cases h : scoreAt scores i < scoreAt scores k
    · simp only [h, if_pos, List.mem_cons]
    · simp only [h, if_neg, not_false_iff, List.mem_cons, ih]
      tauto

theorem insertIdx_pairwise {scores : List ℚ} {i : Nat} {acc : List Nat}
    (hp : acc.Pairwise (idxRel scores)) (hlt : ∀ j ∈ acc, j < i) :
    (insertIdx scores i acc).Pairwise (idxRel scores) := by
  induction acc with
  | nil => simp [insertIdx, List.pairwise_singleton]
  | cons k rest ih =>
    rcases List.pairwise_cons.mp hp with ⟨hk, hrest⟩
    simp only [insertIdx]
    by_cases h : scoreAt scores i < scoreAt scores k
    · simp only [h, if_pos]
      refine List.pairwise_cons.mpr ⟨?_, hp⟩
      intro j hj
      simp only [List.mem_cons] at hj
      rcases hj with rfl | hj
      · exact Or.inl h
      · have := hk j hj
        rcases this with hlt' | ⟨heq, _⟩
        · exact Or.inl (lt_trans h hlt')
        · exact Or.inl (heq ▸ h)
    · simp only [h, if_neg, not_false_iff]
      refine List.pairwise_cons.mpr ⟨?_, ih hrest (fun j hj => hlt j (by simp [hj]))⟩
      intro j hj
      rcases insertIdx_mem.mp hj with rfl | hj
      · rcases lt_or_eq_of_le (le_of_not_lt h) with hlt' | heq
        · exact Or.inl hlt'
        · exact Or.inr ⟨heq, hlt k (by simp)⟩
      · exact hk j hj

theorem foldl_insertIdx_pairwise {scores : List ℚ} :
    ∀ (idxs : List Nat) (acc : List Nat),
      acc.Pairwise (idxRel scores) →
      (∀ j ∈ acc, ∀ i ∈ idxs, j < i) →
      idxs.Pairwise (· < ·) →
      (idxs.foldl (fun acc i => insertIdx scores i acc) acc).Pairwise (idxRel scores) := by
  intro idxs
  induction idxs with
  | nil => intro acc hp _ _; simpa using hp
  | cons i rest ih =>
    intro acc hp hlt hinc
    rcases List.pairwise_cons.mp hinc with ⟨hi, hrest⟩
    simp only [List.foldl_cons]
    refine ih _ (insertIdx_pairwise hp (fun j hj => hlt j hj i (by simp))) ?_ hrest
    intro j hj i' hi'
    rcases insertIdx_mem.mp hj with rfl | hj
    · exact hi i' hi'
    · exact hlt j hj i' (by simp [hi'])

theorem argsortAsc_pairwise (scores : List ℚ) :
    (argsortAsc scores).Pairwise (idxRel scores) := by
  refine foldl_insertIdx_pairwise _ _ (by simp) (by simp) ?_
  exact List.pairwise_lt_range _

theorem rankedIndices_pairwise (scores : List ℚ) :
    (rankedIndices scores).Pairwise (fun i j => idxRel scores j i) := by
  rw [rankedIndices, List.pairwise_reverse]
  exact argsortAsc_pairwise scores

theorem searchGo_sublist (docs : List Document) (scores : List ℚ)
    (st : Option (List String)) (topK : Nat) :
    ∀ (ranked : List Nat) (resLen : Nat),
      List.Sublist (searchGo docs scores st topK ranked resLen)
        (ranked.map (fun i => (i, scoreAt scores i))) := by
  intro ranked
  induction ranked with
  | nil => intro _; simp [searchGo]
  | cons idx rest ih =>
    intro resLen
    simp only [searchGo, List.map_cons]
    cases h : searchSkip docs st idx with
    | true =>
      simp only [if_true]
      exact (ih resLen).cons _
    | false =>
      simp only [Bool.false_eq_true, if_false]
      by_cases h2 : topK ≤ resLen + 1
      · simp only [h2, if_pos]
        exact (List.nil_sublist _).cons₂ _
      · simp only [h2, if_neg, not_false_iff]
        exact (ih (resLen + 1)).cons₂ _

/-- C3 (amended): the results of `search` are ordered by non-increasing score
and, on exactly equal scores, by strictly *descending* original corpus
position — the reversed stable argsort puts the later document first.  Result
entries are reported as (corpus index, score) pairs. -/
theorem search_order_desc (docs : List Document) (scores : List ℚ) (topK : Nat)
    (st : Option (List String)) :
    (searchIdx docs scores topK st).Pairwise
      (fun a b => b.2 < a.2 ∨ (a.2 = b.2 ∧ b.1 < a.1)) := by
  rw [searchIdx]
  by_cases h : docs = []
  · simp [h]
  · simp only [h, if_neg, not_false_iff]
    have hsub := searchGo_sublist docs scores st topK (rankedIndices scores) 0
    refine List.Pairwise.sublist hsub ?_
    have hpr := rankedIndices_pairwise scores
    rw [List.pairwise_map]
    refine hpr.imp ?_
    intro i j hij
    rcases hij with hlt | ⟨heq, hlt⟩
    · exact Or.inl hlt
    · exact Or.inr ⟨heq.symm, hlt⟩

/-- C3 counterexample to the claim as stated: two documents with exactly equal
scores; the stable-argsort model of `np.argsort(scores)[::-1]` returns the
*later* corpus document first, not the earlier one. -/
theorem search_stable_tiebreak_cex :
    scoreAt [1, 1] 0 = scoreAt [1, 1] 1 ∧
    search [⟨"d0", "event", "t0", "x0"⟩, ⟨"d1", "event", "t1", "x1"⟩]
        [1, 1] 5 none =
      [(⟨"d1", "event", "t1", "x1"⟩, 1), (⟨"d0", "event", "t0", "x0"⟩, 1)] := by
  constructor
  · rfl
  · rfl

theorem searchGo_length (docs : List Document) (scores : List ℚ)
    (st : Option (List String)) (topK : Nat) :
    ∀ (ranked : List Nat) (resLen : Nat), resLen < topK →
      (searchGo docs scores st topK ranked resLen).length + resLen ≤ topK := by
  intro ranked
  induction ranked with
  | nil => intro resLen h; simpa [searchGo] using le_of_lt h
  | cons idx rest ih =>
    intro resLen h
    simp only [searchGo]
    cases hsk : searchSkip docs st idx with
    | true =>
      simp only [if_true]
      exact ih resLen h
    | false =>
      simp only [Bool.false_eq_true, if_false]
      by_cases h2 : topK ≤ resLen + 1
      · simp only [h2, if_pos, List.length_cons, List.length_nil]
        omega
      · simp only [h2, if_neg, not_false_iff, List.length_cons]
        have := ih (resLen + 1) (by omega)
        omega

theorem searchGo_allowlist (docs : List Document) (scores : List ℚ)
    (topK : Nat) (l : List String) (hl : l ≠ []) :
    ∀ (ranked : List Nat) (resLen : Nat),
      ∀ p ∈ searchGo docs scores (some l) topK ranked resLen,
        (docs.getD p.1 default).source_type ∈ l := by
  intro ranked
  induction ranked with
  | nil => intro resLen p hp; simp [searchGo] at hp
  | cons idx rest ih =>
    intro resLen p hp
    simp only [searchGo] at hp
    cases hsk : searchSkip docs (some l) idx with
    | true =>
      rw [hsk, if_pos rfl] at hp
      exact ih resLen p hp
    | false =>
      rw [hsk] at hp
      simp only [Bool.false_eq_true, if_false, List.mem_cons] at hp
      rcases hp with rfl | hp
      · simp only [searchSkip, Bool.and_eq_false_iff, decide_eq_false_iff_not,
          Bool.not_eq_false, ne_eq, not_not] at hsk
        rcases hsk with h1 | h2
        · exact absurd h1 hl
        · have h3 : l.contains (docs.getD idx default).source_type = true := by
            simpa using h2
          simpa using h3
      · by_cases h2 : topK ≤ resLen + 1
        · rw [if_pos h2] at hp
          simp at hp
        · rw [if_neg h2] at hp
          exact ih (resLen + 1) p hp

/-- C2 (amended): `search` on an empty corpus returns `[]`; for every
`top_k ≥ 1` it returns at most `top_k` results; and when a *non-empty*
allowlist is provided, every returned document's source type belongs to it.
(The amendments required by the counterexample: `top_k = 0` still yields one
result, and an empty allowlist disables filtering by Python truthiness.) -/
theorem search_safety (docs : List Document) (scores : List ℚ) (topK : Nat)
    (st : Option (List String)) :
    (docs = [] → search docs scores topK st = []) ∧
    (1 ≤ topK → (search docs scores topK st).length ≤ topK) ∧
    (∀ l, st = some l → l ≠ [] →
      ∀ p ∈ search docs scores topK st, p.1.source_type ∈ l) := by
  refine ⟨?_, ?_, ?_⟩
  · intro h
    simp [search, searchIdx, h]
  · intro h
    simp only [search, List.length_map, searchIdx]
    by_cases hd : docs = []
    · simp [hd]
    · simp only [hd, if_neg, not_false_iff]
      have := searchGo_length docs scores st topK (rankedIndices scores) 0 (by omega)
      omega
  · intro l hst hl p hp
    subst hst
    simp only [search, List.mem_map] at hp
    rcases hp with ⟨q, hq, rfl⟩
    simp only [searchIdx] at hq
    by_cases hd : docs = []
    · simp [hd] at hq
    · rw [if_neg hd] at hq
      exact searchGo_allowlist docs scores topK l hl (rankedIndices scores) 0 q hq

/-- C2 counterexample to the claim as stated: one document, `top_k = 0` and a
provided-but-empty allowlist.  The result has one element (more than
`top_k`), and its document's source type is not in the allowlist. -/
theorem search_safety_cex :
    (search [⟨"d", "event", "t", "x"⟩] [1] 0 (some [])).length = 1 ∧
    ¬ ((search [⟨"d", "event", "t", "x"⟩] [1] 0 (some [])).length ≤ 0) ∧
    ∃ p ∈ search [⟨"d", "event", "t", "x"⟩] [1] 0 (some []),
      p.1.source_type ∉ ([] : List String) := by
  refine ⟨rfl, by decide, ⟨(⟨"d", "event", "t", "x"⟩, 1), ?_, by simp⟩⟩
  simp [search, searchIdx, searchGo, searchSkip, rankedIndices, argsortAsc,
    insertIdx, scoreAt, List.range]

/-- Witness for C2 (amended) at concrete inputs. -/
theorem search_safety_witness :
    (search ([] : List Document) [] 5 none = []) ∧
    ((search [⟨"d", "event", "t", "x"⟩] [1] 1 none).length ≤ 1) ∧
    (∀ p ∈ search [⟨"d", "event", "t", "x"⟩] [1] 1 (some ["event"]),
      p.1.source_type ∈ ["event"]) :=
  ⟨(search_safety [] [] 5 none).1 rfl,
   (search_safety [⟨"d", "event", "t", "x"⟩] [1] 1 none).2.1 (by decide),
   (search_safety [⟨"d", "event", "t", "x"⟩] [1] 1 (some ["event"])).2.2
     ["event"] rfl (by decide)⟩

/-! ### Backend state and persistence (`__init__`/`build`/`save`/`load`)

The presence of the un-picklable runtime objects is tracked by Booleans:
`tfidf_vec`/`tfidf_mat` model `tfidf_vectorizer is not None` /
`tfidf_matrix is not None`, `dense_model`/`dense_matrix` likewise.  Whether
`SentenceTransformer` can be constructed is the explicit flag `denseOk`
(build time) / `denseLoadOk` (load time). -/

structure VIState where
  embedding_backend : String
  backend_name : String
  documents : List Document
  tfidf_vec : Bool
  tfidf_mat : Bool
  dense_model : Bool
  dense_matrix : Bool
deriving DecidableEq

/-- `VectorIndex.__init__` (vector_index.py:18): `embedding_backend or
SETTINGS.embedding_backend` with Python falsiness on `None`/empty string. -/
def VIState.init (ebArg : Option String) (settingsBackend : String) : VIState :=
  { embedding_backend :=
      match ebArg with
      | none => settingsBackend
      | some s => if s = "" then settingsBackend else s,
    backend_name := "tfidf", documents := [],
    tfidf_vec := false, tfidf_mat := false,
    dense_model := false, dense_matrix := false }

/-- `VectorIndex.build` (vector_index.py:29): empty corpus sets an (unfitted)
vectorizer and an empty matrix and returns; otherwise a dense build is
attempted when the configured backend is `auto` or `dense`, and on success
the TF-IDF artifacts are *not* fitted; otherwise TF-IDF is fitted. -/
def VIState.build (st : VIState) (documents : List Document) (denseOk : Bool) : VIState :=
  let st1 := { st with documents := documents }
  if documents = [] then { st1 with tfidf_vec := true, tfidf_mat := true }
  else if (st.embedding_backend = "auto" ∨ st.embedding_backend = "dense") ∧ denseOk then
    { st1 with dense_model := true, dense_matrix := true, backend_name := "dense" }
  else { st1 with tfidf_vec := true, tfidf_mat := true, backend_name := "tfidf" }

/-- The pickled payload written by `VectorIndex.save` (vector_index.py:76). -/
structure VIPayload where
  backend_name : String
  documents : List Document
  tfidf_vec : Bool
  tfidf_mat : Bool
  dense_matrix : Bool
  embedding_backend : String
  dense_model_name : String
deriving DecidableEq

def VIState.save (st : VIState) (settingsModel : String) : VIPayload :=
  { backend_name := st.backend_name, documents := st.documents,
    tfidf_vec := st.tfidf_vec, tfidf_mat := st.tfidf_mat,
    dense_matrix := st.dense_matrix,
    embedding_backend := st.embedding_backend,
    dense_model_name := settingsModel }

/-- `VectorIndex.load` (vector_index.py:90): restore all payload fields; for a
dense snapshot, try to reconstruct the embedding model, and on failure log a
warning and set `backend_name = "tfidf"` (no exception escapes). -/
def VIState.load (p : VIPayload) (denseLoadOk : Bool) : VIState :=
  let idx : VIState :=
    { embedding_backend := p.embedding_backend,
      backend_name := p.backend_name,
      documents := p.documents,
      tfidf_vec := p.tfidf_vec, tfidf_mat := p.tfidf_mat,
      dense_model := false, dense_matrix := p.dense_matrix }
  if p.backend_name = "dense" then
    if denseLoadOk then { idx with dense_model := true }
    else { idx with backend_name := "tfidf" }
  else idx

/-- `VectorIndex.search` with its backend dispatch (vector_index.py:47-63):
dense scoring when the dense backend is fully available, TF-IDF scoring when
the vectorizer and matrix are present, otherwise an empty result. -/
def searchState (st : VIState) (scoresDense scoresTfidf : List ℚ) (topK : Nat)
    (srcTypes : Option (List String)) : List (Document × ℚ) :=
  if st.documents = [] then []
  else if st.backend_name = "dense" ∧ st.dense_model ∧ st.dense_matrix then
    search st.documents scoresDense topK srcTypes
  else if st.tfidf_vec ∧ st.tfidf_mat then
    search st.documents scoresTfidf topK srcTypes
  else []

/-- C4 (code bug): an index built on a non-empty corpus with a successful
dense backend never fits or saves TF-IDF artifacts; loading its snapshot when
the dense model cannot be reconstructed therefore sets `backend_name` to
`"tfidf"` (and does not raise) but every subsequent search hits the final
`return []` branch — it does not perform lexical TF-IDF search as the code's
own fallback log message promises. -/
theorem load_dense_unavailable_returns_empty (d : Document)
    (modelName : String) (scoresDense scoresTfidf : List ℚ) (topK : Nat)
    (srcTypes : Option (List String)) :
    (VIState.load (VIState.save (VIState.build (VIState.init none "auto") [d] true) modelName)
        false).backend_name = "tfidf" ∧
    searchState
      (VIState.load (VIState.save (VIState.build (VIState.init none "auto") [d] true) modelName)
        false)
      scoresDense scoresTfidf topK srcTypes = [] := by
  constructor
  · rfl
  · rfl

/-! ## Intent classifier (src/campus_assistant/nlp/intent.py)

Every pattern in `INTENT_PATTERNS` has one of three shapes, embedded as an
explicit AST: a literal with word boundaries (`\bword\b`, including the
two-word literal `\bfree food\b`), a literal with an optional trailing `s`
(`\bdirections?\b`, `\bevents?\b`), and a literal followed by `\s*\d+\b`
(`\bcmsc\s*\d+\b`, `\bdata\s*\d+\b`). -/

inductive IntentPat where
  | word (w : String)
  | wordOptS (w : String)
  | prefixDigits (w : String)
deriving DecidableEq

/-- Exact literal match at the head; returns the rest on success. -/
def matchLit (lit s : List Char) : Option (List Char) :=
  match lit, s with
  | [], rest => some rest
  | _ :: _, [] => none
  | l :: ls, c :: cs => if c = l then matchLit ls cs else none

/-- `\b` after a match: end of text or a non-word character. -/
def boundaryAfter (rest : List Char) : Bool :=
  match rest with
  | [] => true
  | c :: _ => !isWordC c

/-- Match one intent pattern at the current position.  All pattern literals
start with a word character, so the leading `\b` holds iff the previous
character is absent or non-word. -/
def patMatchAt (p : IntentPat) (prev : Option Char) (s : List Char) : Bool :=
  (match prev with
   | none => true
   | some c => !isWordC c) &&
  (match p with
   | .word w =>
     match matchLit w.data s with
     | some rest => boundaryAfter rest
     | none => false
   | .wordOptS w =>
     match matchLit w.data s with
     | some rest =>
       match rest with
       | 's' :: rest2 => boundaryAfter rest2
       | _ => boundaryAfter rest
     | none => false
   | .prefixDigits w =>
     match matchLit w.data s with
     | some rest =>
       let rest2 := rest.dropWhile isWsC
       decide (rest2.takeWhile isDigitC ≠ []) &&
         boundaryAfter (rest2.dropWhile isDigitC)
     | none => false)

/-- `re.search` for one intent pattern: try every position left to right. -/
def patSearchGo (p : IntentPat) : Option Char → List Char → Bool
  | _, [] => false
  | prev, c :: rest => patMatchAt p prev (c :: rest) || patSearchGo p (some c) rest

def patSearch (p : IntentPat) (text : List Char) : Bool := patSearchGo p none text

/-- `IntentClassifier.INTENT_PATTERNS` in source (dict insertion) order. -/
def INTENT_PATTERNS : List (String × List IntentPat) :=
  [("location",
    [.word "where", .word "locate", .wordOptS "direction", .word "building",
     .word "room", .word "map"]),
   ("time",
    [.word "when", .word "time", .word "today", .word "tomorrow",
     .word "deadline", .word "hours"]),
   ("event",
    [.wordOptS "event", .word "workshop", .word "seminar", .word "talk",
     .word "free food", .word "club"]),
   ("class_schedule",
    [.word "class", .word "course", .word "section", .word "instructor",
     .word "syllabus", .word "register", .prefixDigits "cmsc",
     .prefixDigits "data"]),
   ("facility_hours",
    [.word "library", .word "dining", .word "gym", .word "commons",
     .word "open", .word "close"])]

structure IntentPrediction where
  label : String
  confidence : ℚ
deriving DecidableEq

/-- Per-intent match counts (each pattern contributes at most 1), intents with
zero matches excluded — the `scores` dict of `predict` (intent.py:67-75). -/
def intentScores (text : List Char) : List (String × Nat) :=
  (INTENT_PATTERNS.map
      (fun ip => (ip.1, (ip.2.filter (fun p => patSearch p text)).length))).filter
    (fun x => 0 < x.2)

/-- The mixed-intent boost (intent.py:78-79): if `event` scored and an
`events?` token is present, add one to its score in place. -/
def boostEvent (scores : List (String × Nat)) (text : List Char) :
    List (String × Nat) :=
  if (scores.any (fun x => x.1 = "event")) ∧ patSearch (.wordOptS "event") text then
    scores.map (fun x => if x.1 = "event" then (x.1, x.2 + 1) else x)
  else scores

/-- Python `max(items, key=...)`: first element attaining the maximum. -/
def maxBySnd : (String × Nat) → List (String × Nat) → (String × Nat)
  | a, [] => a
  | a, b :: rest => if a.2 < b.2 then maxBySnd b rest else maxBySnd a rest

/-- `round(x, 3)` on the score ratio.  The source computes this on Python
floats; the model rounds the exact rational to 3 decimal places. -/
def round3 (q : ℚ) : ℚ := (round (1000 * q) : ℤ) / 1000

/-- `IntentClassifier.predict` (intent.py:65). -/
def predict (query : String) : IntentPrediction :=
  let text := lowerL query.data
  match boostEvent (intentScores text) text with
  | [] => ⟨"general", 35 / 100⟩
  | s :: rest =>
    let best := maxBySnd s rest
    let total : Nat := (s :: rest).foldl (fun acc x => acc + x.2) 0
    ⟨best.1, round3 ((best.2 : ℚ) / (total : ℚ))⟩

/-- C8: whenever no intent pattern matches the lowercased query, `predict`
returns the label "general" with confidence exactly 0.35. -/
theorem predict_default (q : String)
    (h : ∀ ip ∈ INTENT_PATTERNS, ∀ p ∈ ip.2, patSearch p (lowerL q.data) = false) :
    predict q = ⟨"general", 35 / 100⟩ := by
  have hsc : intentScores (lowerL q.data) = [] := by
    rw [intentScores, List.filter_eq_nil_iff]
    intro x hx
    rcases List.mem_map.mp hx with ⟨ip, hip, rfl⟩
    have hf : ip.2.filter (fun p => patSearch p (lowerL q.data)) = [] := by
      rw [List.filter_eq_nil_iff]
      intro p hp
      simp [h ip hip p hp]
    simp [hf]
  simp only [predict, hsc]
  rfl

/-- Witness for C8 at the concrete query "zzz qqq", which no pattern matches. -/
theorem predict_default_witness : predict "zzz qqq" = ⟨"general", 35 / 100⟩ :=
  predict_default "zzz qqq" (by decide)

/-! ## Entity extractor (src/campus_assistant/nlp/entity_extractor.py) -/

/-- `ExtractedEntity`; the Python field `end` is named `stop` (Lean keyword). -/
structure ExtractedEntity where
  text : String
  label : String
  start : Nat
  stop : Nat
  confidence : ℚ
deriving DecidableEq

def BUILDINGS : List String :=
  ["Engineering", "ITE", "Sherman Hall", "University Center",
   "Mathematics/Psychology", "Public Policy", "Sondheim Hall", "Library"]

def SERVICES : List String :=
  ["financial aid", "registrar", "library", "career center", "dining",
   "transit", "commons"]

def COURSE_DEPARTMENTS : List String :=
  ["AFST", "ANTH", "ART", "BIOL", "CHEM", "CMSC", "DATA", "ECON", "EDUC",
   "ENGL", "GWST", "HIST", "IS", "MATH", "ME", "PHYS", "POLI", "PSYC",
   "SOCY", "STAT"]

def isUpperA (c : Char) : Bool := 'A' ≤ c ∧ c ≤ 'Z'

/-- `query[a:b]` character slice. -/
def sliceL (s : List Char) (a b : Nat) : List Char := (s.drop a).take (b - a)

/-- `\d{3}[A-Z]?\b` after the course prefix: exactly three digits, an optional
upper-case letter, then a word boundary.  Returns the number of consumed
characters. -/
def courseDigitTail : List Char → Option Nat
  | d1 :: d2 :: d3 :: rest =>
    if isDigitC d1 && isDigitC d2 && isDigitC d3 then
      match rest with
      | [] => some 3
      | c :: rest2 =>
        if isUpperA c then (if boundaryAfter rest2 then some 4 else none)
        else if isWordC c then none
        else some 3
    else none
  | _ => none

/-- One attempt of `COURSE_PATTERN` = `\b([A-Z]{2,5})\s?(\d{3}[A-Z]?)\b` at the
current position of the upper-cased query; returns (group 1, match length). -/
def tryCourseAt (prev : Option Char) (s : List Char) : Option (List Char × Nat) :=
  let boundary := match prev with
    | none => true
    | some p => !isWordC p
  if !boundary then none
  else
    let letters := s.takeWhile isUpperA
    let k := letters.length
    if 2 ≤ k ∧ k ≤ 5 then
      let s1 := s.drop k
      match s1 with
      | c :: r =>
        if isWsC c then
          match courseDigitTail r with
          | some dl => some (letters, k + 1 + dl)
          | none => none
        else
          match courseDigitTail s1 with
          | some dl => some (letters, k + dl)
          | none => none
      | [] => none
    else none

/-- `COURSE_PATTERN.finditer` over the upper-cased query: all non-overlapping
matches, leftmost first; yields (group 1, start, end).  After a match of
length `len`, the next `len - 1` positions are inside the consumed match and
are skipped (`skipN` counts them), so scanning resumes at the match end. -/
def courseFindsGo (skipN : Nat) (prev : Option Char) (s : List Char) (pos : Nat) :
    List (List Char × Nat × Nat) :=
  match s with
  | [] => []
  | c :: rest =>
    match skipN with
    | n + 1 => courseFindsGo n (some c) rest (pos + 1)
    | 0 =>
      match tryCourseAt prev (c :: rest) with
      | some (dept, len) =>
        (dept, pos, pos + len) :: courseFindsGo (len - 1) (some c) rest (pos + 1)
      | none => courseFindsGo 0 (some c) rest (pos + 1)

def courseFinds (s : List Char) : List (List Char × Nat × Nat) :=
  courseFindsGo 0 none s 0

/-- The room-number group `[A-Z]?\d{2,4}` (IGNORECASE: any ASCII letter) with
the closing `\b`: returns the group length. -/
def roomGroupTail (s : List Char) : Option Nat :=
  let (hasLetter, t) :=
    match s with
    | c :: r => if isAlphaC c then (true, r) else (false, s)
    | [] => (false, s)
  let digits := t.takeWhile isDigitC
  let r := digits.length
  if 2 ≤ r ∧ r ≤ 4 ∧ boundaryAfter (t.drop r) then
    some ((if hasLetter then 1 else 0) + r)
  else none

/-- One attempt of `ROOM_PATTERN` = `\b(?:room|rm)\s*([A-Z]?\d{2,4})\b`
(IGNORECASE) at the current position; returns
(whole-match length, group start offset, group length). -/
def tryRoomAt (prev : Option Char) (s : List Char) : Option (Nat × Nat × Nat) :=
  let boundary := match prev with
    | none => true
    | some p => !isWordC p
  if !boundary then none
  else
    let kw : Option Nat :=
      match matchCI "room".data s with
      | some _ => some 4
      | none =>
        match matchCI "rm".data s with
        | some _ => some 2
        | none => none
    match kw with
    | none => none
    | some kl =>
      let afterKw := s.drop kl
      let ws := afterKw.takeWhile isWsC
      let t := afterKw.drop ws.length
      match roomGroupTail t with
      | some gl => some (kl + ws.length + gl, kl + ws.length, gl)
      | none => none

/-- `ROOM_PATTERN.finditer`: all non-overlapping matches; yields
(group start, group end) absolute positions; `skipN` as in `courseFindsGo`. -/
def roomFindsGo (skipN : Nat) (prev : Option Char) (s : List Char) (pos : Nat) :
    List (Nat × Nat) :=
  match s with
  | [] => []
  | c :: rest =>
    match skipN with
    | n + 1 => roomFindsGo n (some c) rest (pos + 1)
    | 0 =>
      match tryRoomAt prev (c :: rest) with
      | some (len, goff, glen) =>
        (pos + goff, pos + goff + glen) :: roomFindsGo (len - 1) (some c) rest (pos + 1)
      | none => roomFindsGo 0 (some c) rest (pos + 1)

def roomFinds (s : List Char) : List (Nat × Nat) :=
  roomFindsGo 0 none s 0

def entityKey (e : ExtractedEntity) : Nat × Nat × String := (e.start, e.stop, e.label)

/-- The entities appended by the four scanners of `extract`, in source order,
before deduplication (entity_extractor.py:66-122). -/
def preEntities (query : String) : List ExtractedEntity :=
  let q := query.data
  let lowered := lowerL q
  let bldg := BUILDINGS.filterMap (fun b =>
    match findSub lowered (lowerL b.data) with
    | some idx =>
      some ⟨⟨sliceL q idx (idx + b.length)⟩, "BUILDING", idx, idx + b.length, 95 / 100⟩
    | none => none)
  let svc := SERVICES.filterMap (fun sv =>
    match findSub lowered (lowerL sv.data) with
    | some idx =>
      some ⟨⟨sliceL q idx (idx + sv.length)⟩, "SERVICE", idx, idx + sv.length, 9 / 10⟩
    | none => none)
  let course := (courseFinds (upperL q)).filterMap (fun m =>
    if COURSE_DEPARTMENTS.contains ⟨m.1⟩ then
      some ⟨⟨sliceL (upperL q) m.2.1 m.2.2⟩, "COURSE_CODE", m.2.1, m.2.2, 98 / 100⟩
    else none)
  let room := (roomFinds q).filterMap (fun m =>
    if 3 ≤ m.2 - m.1 then
      some ⟨⟨sliceL q m.1 m.2⟩, "ROOM", m.1, m.2, 82 / 100⟩
    else none)
  bldg ++ svc ++ course ++ room

/-- The `unique` dict of `extract` (entity_extractor.py:125-129): keyed by
(start, end, label), first-insertion position, last-writer value. -/
def dedupGo : List ((Nat × Nat × String) × ExtractedEntity) → List ExtractedEntity →
    List ((Nat × Nat × String) × ExtractedEntity)
  | acc, [] => acc
  | acc, e :: rest =>
    if (acc.map (fun kv => kv.1)).contains (entityKey e) then
      dedupGo (acc.map (fun kv => if kv.1 = entityKey e then (kv.1, e) else kv)) rest
    else dedupGo (acc ++ [(entityKey e, e)]) rest

/-- `CampusEntityExtractor.extract`. -/
def extract (query : String) : List ExtractedEntity :=
  (dedupGo [] (preEntities query)).map (fun kv => kv.2)

/-! ### Deduplication lemmas -/

theorem dedupGo_forall (P : ((Nat × Nat × String) × ExtractedEntity) → Prop) :
    ∀ (l : List ExtractedEntity) (acc : List ((Nat × Nat × String) × ExtractedEntity)),
      (∀ kv ∈ acc, P kv) → (∀ e ∈ l, P (entityKey e, e)) →
      ∀ kv ∈ dedupGo acc l, P kv := by
  intro l
  induction l with
  | nil => intro acc ha _ kv hkv; exact ha kv hkv
  | cons e rest ih =>
    intro acc ha hl kv hkv
    simp only [dedupGo] at hkv
    by_cases hc : ((acc.map (fun kv => kv.1)).contains (entityKey e)) = true
    · rw [if_pos hc] at hkv
      refine ih _ ?_ (fun x hx => hl x (by simp [hx])) kv hkv
      intro kv' hkv'
      rcases List.mem_map.mp hkv' with ⟨kv0, hkv0, rfl⟩
      by_cases he : kv0.1 = entityKey e
      · simp only [he, if_pos]
        exact he ▸ hl e (by simp)
      · simp only [he, if_neg, not_false_iff]
        exact ha kv0 hkv0
    · rw [if_neg hc] at hkv
      refine ih _ ?_ (fun x hx => hl x (by simp [hx])) kv hkv
      intro kv' hkv'
      rcases List.mem_append.mp hkv' with h1 | h2
      · exact ha kv' h1
      · simp only [List.mem_singleton] at h2
        subst h2
        exact hl e (by simp)

theorem dedupGo_keys_sub :
    ∀ (l : List ExtractedEntity) (acc : List ((Nat × Nat × String) × ExtractedEntity))
      (kv : (Nat × Nat × String) × ExtractedEntity), kv ∈ acc →
      ∃ kv' ∈ dedupGo acc l, kv'.1 = kv.1 := by
  intro l
  induction l with
  | nil => intro acc kv hkv; exact ⟨kv, by simp [dedupGo, hkv]⟩
  | cons e rest ih =>
    intro acc kv hkv
    simp only [dedupGo]
    by_cases hc : ((acc.map (fun kv => kv.1)).contains (entityKey e)) = true
    · rw [if_pos hc]
      have hmem : (if kv.1 = entityKey e then (kv.1, e) else kv) ∈
          acc.map (fun kv => if kv.1 = entityKey e then (kv.1, e) else kv) :=
        List.mem_map_of_mem _ hkv
      rcases ih _ _ hmem with ⟨kv', hkv', hkey⟩
      refine ⟨kv', hkv', ?_⟩
      rw [hkey]
      by_cases he : kv.1 = entityKey e
      · simp [he]
      · simp [he]
    · rw [if_neg hc]
      exact ih _ kv (by simp [hkv])

theorem dedupGo_key_covers :
    ∀ (l : List ExtractedEntity) (acc : List ((Nat × Nat × String) × ExtractedEntity))
      (e : ExtractedEntity), e ∈ l →
      ∃ kv' ∈ dedupGo acc l, kv'.1 = entityKey e := by
  intro l
  induction l with
  | nil => intro _ _ h; simp at h
  | cons f rest ih =>
    intro acc e he
    rcases List.mem_cons.mp he with rfl | he
    · simp only [dedupGo]
      by_cases hc : ((acc.map (fun kv => kv.1)).contains (entityKey e)) = true
      · rw [if_pos hc]
        have hex : ∃ x, (entityKey e, x) ∈ acc := by simpa using hc
        rcases hex with ⟨v0, hkv0⟩
        have hmem : ((entityKey e, e) : (Nat × Nat × String) × ExtractedEntity) ∈
            acc.map (fun kv => if kv.1 = entityKey e then (kv.1, e) else kv) := by
          refine List.mem_map.mpr ⟨(entityKey e, v0), hkv0, ?_⟩
          simp
        rcases dedupGo_keys_sub rest _ _ hmem with ⟨kv', hkv', hk⟩
        exact ⟨kv', hkv', by rw [hk]⟩
      · rw [if_neg hc]
        exact dedupGo_keys_sub rest _ (entityKey e, e) (by simp)
    · simp only [dedupGo]
      by_cases hc : ((acc.map (fun kv => kv.1)).contains (entityKey f)) = true
      · rw [if_pos hc]; exact ih _ e he
      · rw [if_neg hc]; exact ih _ e he

theorem dedupGo_nodup_keys :
    ∀ (l : List ExtractedEntity) (acc : List ((Nat × Nat × String) × ExtractedEntity)),
      ((acc.map (fun kv => kv.1)).Nodup) →
      ((dedupGo acc l).map (fun kv => kv.1)).Nodup := by
  intro l
  induction l with
  | nil => intro acc h; simpa [dedupGo] using h
  | cons e rest ih =>
    intro acc h
    simp only [dedupGo]
    by_cases hc : ((acc.map (fun kv => kv.1)).contains (entityKey e)) = true
    · rw [if_pos hc]
      refine ih _ ?_
      have : (acc.map (fun kv => if kv.1 = entityKey e then (kv.1, e) else kv)).map
          (fun kv => kv.1) = acc.map (fun kv => kv.1) := by
        rw [List.map_map]
        refine List.map_congr_left ?_
        intro kv _
        by_cases hk : kv.1 = entityKey e
        · simp [hk]
        · simp [hk]
      rw [this]
      exact h
    · rw [if_neg hc]
      refine ih _ ?_
      rw [List.map_append]
      simp only [List.map_cons, List.map_nil]
      rw [List.nodup_append]
      refine ⟨h, List.nodup_singleton _, ?_⟩
      intro k hk
      simp only [List.mem_singleton]
      intro heq
      subst heq
      exact absurd (by simpa using hk) (by simpa using hc)

theorem extract_mem_pre (q : String) : ∀ e ∈ extract q, e ∈ preEntities q := by
  intro e he
  rcases List.mem_map.mp he with ⟨kv, hkv, rfl⟩
  exact dedupGo_forall (fun kv => kv.2 ∈ preEntities q) (preEntities q) []
    (by simp) (fun x hx => hx) kv hkv

theorem extract_key_distinct (q : String) :
    (extract q).Pairwise (fun e1 e2 => entityKey e1 ≠ entityKey e2) := by
  have hnd := dedupGo_nodup_keys (preEntities q) [] (by simp)
  have hcoh : ∀ kv ∈ dedupGo [] (preEntities q), kv.1 = entityKey kv.2 :=
    dedupGo_forall (fun kv => kv.1 = entityKey kv.2) (preEntities q) []
      (by simp) (fun e _ => rfl)
  have hmapeq : (dedupGo [] (preEntities q)).map (fun kv => kv.1) =
      (dedupGo [] (preEntities q)).map (fun kv => entityKey kv.2) :=
    List.map_congr_left hcoh
  rw [hmapeq] at hnd
  rw [List.Nodup, List.pairwise_map] at hnd
  rw [extract, List.pairwise_map]
  exact hnd

/-- Every pre-dedup entity arises from exactly one of the four scanners, with
its span determined by the scanner. -/
theorem mem_preEntities (q : String) (e : ExtractedEntity) (he : e ∈ preEntities q) :
    (∃ b ∈ BUILDINGS, findSub (lowerL q.data) (lowerL b.data) = some e.start ∧
        e.stop = e.start + b.length ∧ e.label = "BUILDING") ∨
    (∃ sv ∈ SERVICES, findSub (lowerL q.data) (lowerL sv.data) = some e.start ∧
        e.stop = e.start + sv.length ∧ e.label = "SERVICE") ∨
    (∃ m ∈ courseFinds (upperL q.data), COURSE_DEPARTMENTS.contains ⟨m.1⟩ = true ∧
        e.start = m.2.1 ∧ e.stop = m.2.2 ∧ e.label = "COURSE_CODE") ∨
    (∃ m ∈ roomFinds q.data, 3 ≤ m.2 - m.1 ∧
        e.start = m.1 ∧ e.stop = m.2 ∧ e.label = "ROOM") := by
  simp only [preEntities] at he
  rcases List.mem_append.mp he with h123 | h4
  swap
  · rcases List.mem_filterMap.mp h4 with ⟨m, hm, hfm⟩
    by_cases hc : 3 ≤ m.2 - m.1
    · rw [if_pos hc] at hfm
      have he2 := Option.some.inj hfm
      subst he2
      exact Or.inr (Or.inr (Or.inr ⟨m, hm, hc, rfl, rfl, rfl⟩))
    · rw [if_neg hc] at hfm
      simp at hfm
  rcases List.mem_append.mp h123 with h12 | h3
  swap
  · rcases List.mem_filterMap.mp h3 with ⟨m, hm, hfm⟩
    by_cases hc : COURSE_DEPARTMENTS.contains (⟨m.1⟩ : String) = true
    · rw [if_pos hc] at hfm
      have he2 := Option.some.inj hfm
      subst he2
      exact Or.inr (Or.inr (Or.inl ⟨m, hm, hc, rfl, rfl, rfl⟩))
    · rw [if_neg hc] at hfm
      simp at hfm
  rcases List.mem_append.mp h12 with h1 | h2
  · rcases List.mem_filterMap.mp h1 with ⟨b, hb, hfb⟩
    cases hidx : findSub (lowerL q.data) (lowerL b.data) with
    | none => rw [hidx] at hfb; simp at hfb
    | some idx =>
      rw [hidx] at hfb
      have he2 := Option.some.inj hfb
      subst he2
      exact Or.inl ⟨b, hb, hidx, rfl, rfl⟩
  · rcases List.mem_filterMap.mp h2 with ⟨sv, hsv, hfs⟩
    cases hidx : findSub (lowerL q.data) (lowerL sv.data) with
    | none => rw [hidx] at hfs; simp at hfs
    | some idx =>
      rw [hidx] at hfs
      have he2 := Option.some.inj hfs
      subst he2
      exact Or.inr (Or.inl ⟨sv, hsv, hidx, rfl, rfl⟩)

theorem pairwise_countP_le_one {α : Type _} (l : List α) (p : α → Bool)
    (h : l.Pairwise (fun a b => ¬(p a = true ∧ p b = true))) :
    l.countP p ≤ 1 := by
  induction l with
  | nil => simp
  | cons a rest ih =>
    rcases List.pairwise_cons.mp h with ⟨ha, hrest⟩
    rw [List.countP_cons]
    by_cases hp : p a = true
    · have hz : rest.countP p = 0 := by
        rw [List.countP_eq_zero]
        intro x hx hpx
        exact ha x hx ⟨hp, hpx⟩
      simp [hz, hp]
    · simp only [hp, if_neg, not_false_iff]
      simpa using ih hrest

theorem dedup_key_coherent (q : String) :
    ∀ kv ∈ dedupGo [] (preEntities q), kv.1 = entityKey kv.2 :=
  dedupGo_forall (fun kv => kv.1 = entityKey kv.2) (preEntities q) []
    (by simp) (fun e _ => rfl)

/-- C10: each building/service lexicon entry contributes at most one entity,
anchored at the *first* lowercase occurrence of the entry in the query (later
occurrences yield nothing); every (start, end, label) triple occurs at most
once in the output; and the course-code and room scanners contribute one
entity per (whitelisted / length-filtered) regex match. -/
theorem extract_lexicon_first (q : String) :
    (∀ e ∈ extract q, e.label = "BUILDING" →
      ∃ b ∈ BUILDINGS, findSub (lowerL q.data) (lowerL b.data) = some e.start ∧
        e.stop = e.start + b.length) ∧
    (∀ e ∈ extract q, e.label = "SERVICE" →
      ∃ sv ∈ SERVICES, findSub (lowerL q.data) (lowerL sv.data) = some e.start ∧
        e.stop = e.start + sv.length) ∧
    (∀ k : Nat × Nat × String,
      (extract q).countP (fun e => decide (entityKey e = k)) ≤ 1) ∧
    (∀ m ∈ courseFinds (upperL q.data),
      COURSE_DEPARTMENTS.contains (⟨m.1⟩ : String) = true →
      ∃ e ∈ extract q, entityKey e = (m.2.1, m.2.2, "COURSE_CODE")) ∧
    (∀ m ∈ roomFinds q.data, 3 ≤ m.2 - m.1 →
      ∃ e ∈ extract q, entityKey e = (m.1, m.2, "ROOM")) := by
  refine ⟨?_, ?_, ?_, ?_, ?_⟩
  · intro e he hlab
    rcases mem_preEntities q e (extract_mem_pre q e he) with
      ⟨b, hb, hf, hs, _⟩ | ⟨sv, _, _, _, hl⟩ | ⟨m, _, _, _, _, hl⟩ | ⟨m, _, _, _, _, hl⟩
    · exact ⟨b, hb, hf, hs⟩
    · rw [hlab] at hl; simp at hl
    · rw [hlab] at hl; simp at hl
    · rw [hlab] at hl; simp at hl
  · intro e he hlab
    rcases mem_preEntities q e (extract_mem_pre q e he) with
      ⟨b, _, _, _, hl⟩ | ⟨sv, hsv, hf, hs, _⟩ | ⟨m, _, _, _, _, hl⟩ | ⟨m, _, _, _, _, hl⟩
    · rw [hlab] at hl; simp at hl
    · exact ⟨sv, hsv, hf, hs⟩
    · rw [hlab] at hl; simp at hl
    · rw [hlab] at hl; simp at hl
  · intro k
    refine pairwise_countP_le_one _ _ ?_
    refine (extract_key_distinct q).imp ?_
    intro a b hab ⟨ha, hb⟩
    simp only [decide_eq_true_eq] at ha hb
    exact hab (ha.trans hb.symm)
  · intro m hm hc
    have hpre : (⟨⟨sliceL (upperL q.data) m.2.1 m.2.2⟩, "COURSE_CODE", m.2.1, m.2.2,
        98 / 100⟩ : ExtractedEntity) ∈ preEntities q := by
      simp only [preEntities]
      refine List.mem_append.mpr (Or.inl (List.mem_append.mpr (Or.inr ?_)))
      exact List.mem_filterMap.mpr ⟨m, hm, by rw [if_pos hc]⟩
    rcases dedupGo_key_covers (preEntities q) [] _ hpre with ⟨kv, hkv, hk⟩
    refine ⟨kv.2, List.mem_map_of_mem _ hkv, ?_⟩
    rw [← dedup_key_coherent q kv hkv, hk]
    rfl
  · intro m hm hlen
    have hpre : (⟨⟨sliceL q.data m.1 m.2⟩, "ROOM", m.1, m.2,
        82 / 100⟩ : ExtractedEntity) ∈ preEntities q := by
      simp only [preEntities]
      refine List.mem_append.mpr (Or.inr ?_)
      exact List.mem_filterMap.mpr ⟨m, hm, by rw [if_pos hlen]⟩
    rcases dedupGo_key_covers (preEntities q) [] _ hpre with ⟨kv, hkv, hk⟩
    refine ⟨kv.2, List.mem_map_of_mem _ hkv, ?_⟩
    rw [← dedup_key_coherent q kv hkv, hk]
    rfl

/-- Witness for C10 on the spec's fixture query: the whitelisted course-code
match at span (9, 17) yields an output entity with exactly that span. -/
theorem extract_lexicon_first_witness :
    ∃ e ∈ extract "Where is CMSC 601 in Sherman Hall room 204?",
      entityKey e = (9, 17, "COURSE_CODE") :=
  (extract_lexicon_first "Where is CMSC 601 in Sherman Hall room 204?").2.2.2.1
    ("CMSC".data, 9, 17) (by decide) (by decide)

/-! ## Catalog query resolver (src/campus_assistant/db/multi_db.py)

The SQLite `classes` table is modelled as an explicit list of rows; SQL text
comparison is binary code-point order; `date.today()` enters only through the
explicit current-term key `nowKey`. -/

/-- One row of the `classes` table; the Python `section` column is named
`sect` (`section` is a Lean keyword). -/
structure ClassRow where
  class_id : String
  term : String
  department : String
  course_code : String
  course_title : String
  sect : String
  instructor : String
  meeting_days : String
  start_time : String
  end_time : String
  building : String
  room : String
  modality : String
  is_synthetic : Bool
  source : String
deriving DecidableEq

/-- SQLite BINARY (code-point) strict order on TEXT. -/
def strLtL : List Char → List Char → Bool
  | [], [] => false
  | [], _ :: _ => true
  | _ :: _, [] => false
  | a :: as, b :: bs =>
    if a.toNat < b.toNat then true
    else if b.toNat < a.toNat then false
    else strLtL as bs

/-- Strict order of `ORDER BY term ASC, course_code ASC, section ASC`. -/
def rowLt (r1 r2 : ClassRow) : Bool :=
  if strLtL r1.term.data r2.term.data then true
  else if strLtL r2.term.data r1.term.data then false
  else if strLtL r1.course_code.data r2.course_code.data then true
  else if strLtL r2.course_code.data r1.course_code.data then false
  else strLtL r1.sect.data r2.sect.data

def insertRowSorted (r : ClassRow) : List ClassRow → List ClassRow
  | [] => [r]
  | x :: xs => if rowLt r x then r :: x :: xs else x :: insertRowSorted r xs

def sortRows (l : List ClassRow) : List ClassRow :=
  l.foldl (fun acc r => insertRowSorted r acc) []

/-- `fetch_class_records` (multi_db.py:231): optional department filter
(upper-cased, Python-falsy empty string disables it), optional
case-insensitive term filter, `ORDER BY term, course_code, section`, `LIMIT`. -/
def fetchClassRecords (db : List ClassRow) (department : Option String)
    (term : Option String) (limit : Nat) : List ClassRow :=
  let rows := db.filter (fun r =>
    (match department with
     | some d => if d = "" then true else decide (r.department = upperS d)
     | none => true) &&
    (match term with
     | some t => if t = "" then true else decide (lowerS r.term = lowerS t)
     | none => true))
  (sortRows rows).take limit

/-- Keep the first occurrence of each string (models SQL `DISTINCT` with a
deterministic first-seen order). -/
def dedupFirstGo (seen : List String) : List String → List String
  | [] => []
  | x :: xs =>
    if seen.contains x then dedupFirstGo seen xs
    else x :: dedupFirstGo (x :: seen) xs

/-- Python `sorted(l, key=f)`: stable insertion sort by a `Nat` key. -/
def insertByKey (f : α → Nat) (a : α) : List α → List α
  | [] => [a]
  | x :: xs => if f a < f x then a :: x :: xs else x :: insertByKey f a xs

def sortByKey (f : α → Nat) (l : List α) : List α :=
  l.foldl (fun acc a => insertByKey f a acc) []

/-- `fetch_distinct_terms` (multi_db.py:322): distinct non-empty terms sorted
by `_term_sort_key`. -/
def fetchDistinctTerms (db : List ClassRow) : List String :=
  sortByKey termSortKey (dedupFirstGo [] ((db.filter (fun r => r.term ≠ "")).map (fun r => r.term)))

/-- `fetch_upcoming_term` (multi_db.py:329) over the modelled database. -/
def fetchUpcomingTerm (db : List ClassRow) (nowKey : Nat) : Option String :=
  fetchUpcomingTermFrom (fetchDistinctTerms db) nowKey

/-- `_find_current_term_from_db` (multi_db.py:512): known term closest to
"now" by absolute key distance. -/
def findCurrentTermFromDb (db : List ClassRow) (nowKey : Nat) : Option String :=
  match fetchDistinctTerms db with
  | [] => none
  | t :: ts =>
    let ranked := (t :: ts).map (fun u => (u, termSortKey u))
    match ranked with
    | [] => none
    | r :: rs =>
      some (minByKey (fun p => ((p.2 : Int) - (nowKey : Int)).natAbs) r rs).1

/-- `_best_term_for_rows` (multi_db.py:523). -/
def bestTermForRows (db : List ClassRow) (nowKey : Nat) (rows : List ClassRow) :
    Option String :=
  let terms := sortByKey termSortKey
    (dedupFirstGo [] ((rows.filter (fun r => r.term ≠ "")).map (fun r => r.term)))
  match terms with
  | [] => none
  | t0 :: _ =>
    match fetchUpcomingTerm db nowKey with
    | some u => if terms.contains u then some u else some t0
    | none => some t0

/-- `DEPARTMENT_ALIASES` in dict insertion order. -/
def DEPARTMENT_ALIASES : List (String × String) :=
  [("data", "DATA"), ("data stream", "DATA"), ("data science", "DATA"),
   ("computer science", "CMSC"), ("information systems", "IS"),
   ("math", "MATH"), ("mathematics", "MATH"), ("statistics", "STAT"),
   ("econ", "ECON"), ("economics", "ECON")]

/-- `_infer_department` (multi_db.py:541): `^\s*([A-Za-z]{2,5})\s*\d` then
`^\s*([A-Za-z]{2,5})\b`, upper-cased group, else empty. -/
def inferDepartment (cc : List Char) : String :=
  let t := cc.dropWhile isWsC
  let run := t.takeWhile isAlphaC
  let r := run.length
  if 2 ≤ r ∧ r ≤ 5 then
    let after := t.drop r
    let afterWs := after.dropWhile isWsC
    if (match afterWs with | c :: _ => isDigitC c | [] => false) then ⟨upperL run⟩
    else if (match after with | c :: _ => !isWordC c | [] => true) then ⟨upperL run⟩
    else ""
  else ""

/-- `SEASON.title()` for the four fixed season words. -/
def seasonTitle (rank : Nat) : List Char :=
  if rank = 2 then "Spring".data
  else if rank = 3 then "Summer".data
  else if rank = 4 then "Fall".data
  else "Winter".data

def UPCOMING_TOKENS : List String :=
  ["upcoming semester", "next semester", "next term", "upcoming term"]

def CURRENT_TOKENS : List String :=
  ["current semester", "this semester", "current term", "this term"]

/-- `parse_semester_from_query` (multi_db.py:345). -/
def parseSemesterFromQuery (db : List ClassRow) (nowKey : Nat) (query : String) :
    Option String × Option String :=
  let lowered := lowerL query.data
  let department : Option String :=
    match DEPARTMENT_ALIASES.find? (fun al => containsSub lowered al.1.data) with
    | some al => some al.2
    | none =>
      match courseFinds (upperL query.data) with
      | m :: _ =>
        some (inferDepartment (sliceL (upperL query.data) m.2.1 m.2.2))
      | [] => none
  match termSearch none query.data with
  | some (rank, ychars) =>
    (department, some ⟨seasonTitle rank ++ ' ' :: ychars⟩)
  | none =>
    if UPCOMING_TOKENS.any (fun t => containsSub lowered t.data) then
      (department, fetchUpcomingTerm db nowKey)
    else if CURRENT_TOKENS.any (fun t => containsSub lowered t.data) then
      (department,
        match findCurrentTermFromDb db nowKey with
        | some t => some t
        | none => fetchUpcomingTerm db nowKey)
    else (department, none)

def joinSep (sep : List Char) : List (List Char) → List Char
  | [] => []
  | [x] => x
  | x :: y :: rest => x ++ sep ++ joinSep sep (y :: rest)

def stripWS (s : List Char) : List Char :=
  ((s.dropWhile isWsC).reverse.dropWhile isWsC).reverse

/-- `_time_range` (multi_db.py:533). -/
def timeRange (row : ClassRow) : List Char :=
  let start := stripWS row.start_time.data
  let stop := stripWS row.end_time.data
  if start ≠ [] ∧ stop ≠ [] then start ++ '-' :: stop
  else if start ≠ [] then start
  else stop

def natDigitsGo : Nat → Nat → List Char
  | 0, _ => []
  | fuel + 1, n =>
    if n < 10 then [Char.ofNat (48 + n)]
    else natDigitsGo fuel (n / 10) ++ [Char.ofNat (48 + n % 10)]

/-- Decimal rendering of a natural number (f-string `{idx}`). -/
def natToChars (n : Nat) : List Char := natDigitsGo (n + 1) n

/-- One numbered line of the catalog answer (multi_db.py:404-417). -/
def answerLine (idx : Nat) (row : ClassRow) : List Char :=
  let meeting := stripWS (joinSep " ".data
    (([row.meeting_days.data, timeRange row]).filter (fun p => p ≠ [])))
  let location := stripWS (joinSep " ".data
    (([row.building.data, row.room.data]).filter (fun p => p ≠ [])))
  let details0 := ["Section ".data ++ row.sect.data]
  let details1 := if row.instructor.data ≠ [] then details0 ++ [row.instructor.data] else details0
  let details2 := if meeting ≠ [] then details1 ++ [meeting] else details1
  let details3 := if location ≠ [] then details2 ++ [location] else details2
  natToChars idx ++ ". ".data ++ row.course_code.data ++ " - ".data ++
    row.course_title.data ++ " (".data ++ joinSep " | ".data details3 ++ ")".data

def answerLinesGo (idx : Nat) : List ClassRow → List (List Char)
  | [] => []
  | r :: rest => answerLine idx r :: answerLinesGo (idx + 1) rest

/-- One structured source record (multi_db.py:419-440); the Python metadata
dict is flattened into `metadata_*` fields. -/
structure CatalogSource where
  doc_id : String
  title : String
  source_type : String
  score : ℚ
  metadata_term : String
  metadata_department : String
  metadata_sect : String
  metadata_instructor : String
  metadata_meeting_days : String
  metadata_start_time : String
  metadata_end_time : String
  metadata_building : String
  metadata_room : String
  metadata_is_synthetic : Bool
  metadata_source : String
deriving DecidableEq

def rowSource (row : ClassRow) : CatalogSource :=
  { doc_id := ⟨"classdb-".data ++ row.term.data ++ "-".data ++
      row.course_code.data ++ "-".data ++ row.sect.data⟩,
    title := ⟨row.course_code.data ++ " - ".data ++ row.course_title.data⟩,
    source_type := "class_database",
    score := 1,
    metadata_term := row.term,
    metadata_department := row.department,
    metadata_sect := row.sect,
    metadata_instructor := row.instructor,
    metadata_meeting_days := row.meeting_days,
    metadata_start_time := row.start_time,
    metadata_end_time := row.end_time,
    metadata_building := row.building,
    metadata_room := row.room,
    metadata_is_synthetic := row.is_synthetic,
    metadata_source := row.source }

/-- The meta dict; `count` is present only on the success path. -/
structure CatalogMeta where
  department : Option String
  term : Option String
  count : Option Nat
deriving DecidableEq

/-- `build_class_catalog_answer` after `parse_semester_from_query`
(multi_db.py:377-448), with the parsed (department, term) explicit. -/
def buildCatalogCore (db : List ClassRow) (nowKey : Nat)
    (department term : Option String) (limit : Nat) :
    String × List CatalogSource × CatalogMeta :=
  let rows0 := fetchClassRecords db department term limit
  let rows1 :=
    if decide (rows0 = []) && (match term with | some t => decide (t ≠ "") | none => false) then
      fetchClassRecords db department none limit
    else rows0
  if rows1 = [] then
    ("I could not find class catalog records yet. Ask the database admin to upload class data, or run ingestion first.",
     [], ⟨department, term, none⟩)
  else
    let effectiveTerm :=
      match term with
      | some t => if t = "" then bestTermForRows db nowKey rows1 else some t
      | none => bestTermForRows db nowKey rows1
    let rows2 :=
      match effectiveTerm with
      | some et =>
        if et = "" then rows1
        else
          match rows1.filter (fun (r : ClassRow) => decide (lowerL r.term.data = lowerL et.data)) with
          | [] => rows1
          | f :: fs => f :: fs
      | none => rows1
    let titleBits :=
      match department with
      | some d => if d = "" then ["courses".data] else [d.data ++ " courses".data]
      | none => ["courses".data]
    let titleBits2 :=
      match effectiveTerm with
      | some et => if et = "" then titleBits else titleBits ++ ["for ".data ++ et.data]
      | none => titleBits
    let header := "Here are the ".data ++ joinSep ", ".data titleBits2 ++ ":".data
    let answer := joinSep "\n".data (header :: answerLinesGo 1 (rows2.take 25))
    (⟨answer⟩, (rows2.take 25).map rowSource, ⟨department, effectiveTerm, some rows2.length⟩)

/-- `build_class_catalog_answer` (multi_db.py:374). -/
def buildClassCatalogAnswer (db : List ClassRow) (nowKey : Nat) (query : String)
    (limit : Nat) : String × List CatalogSource × CatalogMeta :=
  let dt := parseSemesterFromQuery db nowKey query
  buildCatalogCore db nowKey dt.1 dt.2 limit

/-- The upcoming term is always one of the known terms (helper for C6). -/
theorem fetchUpcomingTermFrom_mem (terms : List String) (ck : Nat)
    (h : terms ≠ []) : ∃ t ∈ terms, fetchUpcomingTermFrom terms ck = some t := by
  obtain ⟨a, rest, rfl⟩ : ∃ a rest, terms = a :: rest := by
    cases terms with
    | nil => exact absurd rfl h
    | cons a rest => exact ⟨a, rest, rfl⟩
  set keys := (a :: rest).map (fun t => (t, termSortKey t)) with hkeys
  rcases hfut : keys.filter (fun p => decide (ck < p.2)) with _ | ⟨f, fs⟩
  · rcases hcur : keys.filter (fun p => decide (ck ≤ p.2)) with _ | ⟨c, cs⟩
    · have hkc : keys = (a, termSortKey a) :: rest.map (fun t => (t, termSortKey t)) := by
        simp [hkeys]
      have hmem := minByKey_mem (fun p : String × Nat => p.2) (a, termSortKey a)
        (rest.map (fun t => (t, termSortKey t)))
      rw [← hkc] at hmem
      refine ⟨(minByKey (fun p : String × Nat => p.2) (a, termSortKey a)
        (rest.map (fun t => (t, termSortKey t)))).1, ?_, ?_⟩
      · exact (mem_keyPairs hmem).1
      · simp only [fetchUpcomingTermFrom]
        rw [← hkeys, hfut, hcur, hkc]
    · have hmem : minByKey (fun p : String × Nat => p.2) c cs ∈ keys.filter (fun p => decide (ck ≤ p.2)) := by
        rw [hcur]; exact minByKey_mem _ _ _
      have hink := (List.mem_filter.mp hmem).1
      refine ⟨(minByKey (fun p : String × Nat => p.2) c cs).1, (mem_keyPairs hink).1, ?_⟩
      simp only [fetchUpcomingTermFrom]
      rw [← hkeys, hfut, hcur]
  · have hmem : minByKey (fun p : String × Nat => p.2) f fs ∈ keys.filter (fun p => decide (ck < p.2)) := by
      rw [hfut]; exact minByKey_mem _ _ _
    have hink := (List.mem_filter.mp hmem).1
    refine ⟨(minByKey (fun p : String × Nat => p.2) f fs).1, (mem_keyPairs hink).1, ?_⟩
    simp only [fetchUpcomingTermFrom]
    rw [← hkeys, hfut]

/-- The three catalog rows of claim C6: `Fall 2026` has `DATA 601` and
`DATA 610`, `Spring 2026` has `CMSC 601`; field values as produced by
`upsert_class_rows` on the repository's fixture
(tests/test_multi_db_class_query.py). -/
def c6db : List ClassRow :=
  [⟨"x1", "Fall 2026", "DATA", "DATA 601", "Statistical Learning", "01",
    "A. Johnson", "MW", "10:00", "11:15", "Engineering", "204", "In Person",
    false, "umbc_class_schedule"⟩,
   ⟨"x2", "Fall 2026", "DATA", "DATA 610", "Data Engineering", "02",
    "R. Chen", "TR", "13:00", "14:15", "ITE", "301", "In Person",
    false, "umbc_class_schedule"⟩,
   ⟨"x3", "Spring 2026", "CMSC", "CMSC 601", "Advanced Algorithms", "01",
    "", "", "", "", "", "", "", false, "umbc_class_schedule"⟩]

/-- C6: on the claim's catalog rows, for every current-date key, the query
"classes for upcoming semester in Data stream" resolves department `DATA`,
selects an effective term that occurs in the stored rows, lists `DATA 601`
and `DATA 610` in the answer text, and does not mention `CMSC 601`. -/
theorem build_class_catalog_c6 (nowKey : Nat) :
    (buildClassCatalogAnswer c6db nowKey
      "classes for upcoming semester in Data stream" 60).2.2.department = some "DATA" ∧
    (∃ t, (buildClassCatalogAnswer c6db nowKey
        "classes for upcoming semester in Data stream" 60).2.2.term = some t ∧
      t ∈ c6db.map (fun row => row.term)) ∧
    containsSub (buildClassCatalogAnswer c6db nowKey
      "classes for upcoming semester in Data stream" 60).1.data "DATA 601".data = true ∧
    containsSub (buildClassCatalogAnswer c6db nowKey
      "classes for upcoming semester in Data stream" 60).1.data "DATA 610".data = true ∧
    containsSub (buildClassCatalogAnswer c6db nowKey
      "classes for upcoming semester in Data stream" 60).1.data "CMSC 601".data = false := by
  have hpar : buildClassCatalogAnswer c6db nowKey
      "classes for upcoming semester in Data stream" 60 =
      buildCatalogCore c6db nowKey (some "DATA")
        (fetchUpcomingTermFrom ["Spring 2026", "Fall 2026"] nowKey) 60 := rfl
  obtain ⟨t, ht, hft⟩ :=
    fetchUpcomingTermFrom_mem ["Spring 2026", "Fall 2026"] nowKey (by decide)
  rw [hpar, hft]
  have ht2 : t = "Spring 2026" ∨ t = "Fall 2026" := by simpa using ht
  rcases ht2 with rfl | rfl
  · exact ⟨rfl, ⟨"Spring 2026", rfl, by decide⟩, rfl, rfl, rfl⟩
  · exact ⟨rfl, ⟨"Fall 2026", rfl, by decide⟩, rfl, rfl, rfl⟩

/-! ## Query normalizer (src/campus_assistant/nlp/query_normalizer.py)

The external `SpellChecker` and `rapidfuzz.fuzz.ratio` collaborators are
explicit parameters (`Speller`, `ratio`); the corpus-bootstrapped vocabulary
is the abstract predicate `extraKnown`.  Hypotheses on them (stated on the
theorems that need them) are the library contracts: a returned correction is
a lower-case word known to the spelling model. -/

def COURSE_PREFIXES : List String :=
  ["AFST", "ANTH", "ART", "BIOL", "CHEM", "CMSC", "DATA", "ECON", "EDUC",
   "ENGL", "GWST", "HIST", "IS", "MATH", "ME", "PHYS", "POLI", "PSYC",
   "SOCY", "STAT"]

def SHORTCUTS : List (String × String) :=
  [("whr", "where"), ("wen", "when"), ("wut", "what"), ("plz", "please"),
   ("tmrw", "tomorrow"), ("dept", "department"), ("prof", "professor"),
   ("sched", "schedule"), ("calender", "calendar"), ("dline", "deadline"),
   ("reg", "registration")]

def DOMAIN_TERMS : List String :=
  ["umbc", "sondheim", "sherman", "ite", "retriever", "registrar", "campus",
   "academic", "calendar", "deadlines", "deadline", "commons", "library",
   "engineering", "university", "center", "event", "events", "semester",
   "undergraduate", "graduate", "spring", "summer", "fall", "winter", "room",
   "building", "transit", "dining", "facilities", "schedule", "schedules",
   "class", "classes", "course", "courses", "section", "sections"]

structure Speller where
  known : String → Bool
  correction : String → Option String

structure NormState where
  sp : Speller
  ratio : String → String → ℚ
  extraKnown : String → Bool

/-- `known_terms` after `__init__` plus any bootstrapped vocabulary. -/
def knownTerms (st : NormState) (w : String) : Bool :=
  DOMAIN_TERMS.contains w || COURSE_PREFIXES.any (fun p => lowerS p = w) ||
    st.extraKnown w

def isLowerA (c : Char) : Bool := 'a' ≤ c ∧ c ≤ 'z'

/-- Python `str.isupper` (ASCII): at least one letter, no lower-case letter. -/
def isupperPy (s : List Char) : Bool :=
  s.any isAlphaC && s.all (fun c => !isAlphaC c || isUpperA c)

def istitleGo (prevCased : Bool) (seen : Bool) : List Char → Bool
  | [] => seen
  | c :: r =>
    if isUpperA c then (if prevCased then false else istitleGo true true r)
    else if isLowerA c then (if prevCased then istitleGo true true r else false)
    else istitleGo false seen r

/-- Python `str.istitle` (ASCII). -/
def istitlePy (s : List Char) : Bool := istitleGo false false s

def titleGo (prevAlpha : Bool) : List Char → List Char
  | [] => []
  | c :: r =>
    (if isAlphaC c then (if prevAlpha then lowerC c else upperC c) else c) ::
      titleGo (isAlphaC c) r

/-- Python `str.title` (ASCII). -/
def titlePy (s : List Char) : List Char := titleGo false s

/-- `_match_case` (query_normalizer.py:212). -/
def matchCase (source replacement : List Char) : List Char :=
  if isupperPy source then upperL replacement
  else if istitlePy source then titlePy replacement
  else replacement

/-- `_ALPHA_RE` full match: `^[A-Za-z]+(?:'[A-Za-z]+)?$`: a non-empty letter
run, optionally followed by an apostrophe and another non-empty letter run. -/
def isAlphaTok (t : List Char) : Bool :=
  let a := t.takeWhile isAlphaC
  let r := t.drop a.length
  decide (a ≠ []) &&
    (decide (r = []) ||
     (decide (r.head? = some '\'') && decide (r.tail ≠ []) && r.tail.all isAlphaC))

/-! ### `_normalize_course_codes`: the regex substitution scanner -/

/-- The `(\d{3}[A-Za-z]?)\b` tail of the course-code pattern: returns
(consumed length, group-2 text). -/
def ccDigitTail : List Char → Option (Nat × List Char)
  | d1 :: d2 :: d3 :: rest =>
    if isDigitC d1 && isDigitC d2 && isDigitC d3 then
      match rest with
      | [] => some (3, [d1, d2, d3])
      | c :: r2 =>
        if isAlphaC c then
          (if boundaryAfter r2 then some (4, [d1, d2, d3, c]) else none)
        else if isWordC c then none
        else some (3, [d1, d2, d3])
    else none
  | _ => none

/-- One attempt of `\b([A-Za-z]{2,5})\s*-?\s*(\d{3}[A-Za-z]?)\b` at the head
of `s`: on a match, returns the emitted text (the replacement
`"PREFIX NUM"` when the upper-cased prefix is a known course prefix, the
matched text unchanged otherwise) and the number of consumed characters. -/
def tryCCAt (prev : Option Char) (s : List Char) : Option (List Char × Nat) :=
  let boundary := match prev with
    | none => true
    | some p => !isWordC p
  if !boundary then none
  else
    let run := s.takeWhile isAlphaC
    let r := run.length
    if 2 ≤ r ∧ r ≤ 5 then
      let s1 := s.drop r
      let ws1 := s1.takeWhile isWsC
      let s2 := s1.drop ws1.length
      let dash := if s2.head? = some '-' then 1 else 0
      let s3 := s2.drop dash
      let ws2 := s3.takeWhile isWsC
      let s4 := s3.drop ws2.length
      match ccDigitTail s4 with
      | some (dl, grp2) =>
        let len := r + ws1.length + dash + ws2.length + dl
        if COURSE_PREFIXES.contains ⟨upperL run⟩ then
          some (upperL run ++ ' ' :: upperL grp2, len)
        else some (s.take len, len)
      | none => none
    else none

/-- `_normalize_course_codes` (query_normalizer.py:175) as a left-to-right
substitution scanner.  `dropN` counts characters of an already-emitted match
still to consume. -/
def nccGo (dropN : Nat) (prev : Option Char) (s : List Char) : List Char :=
  match s with
  | [] => []
  | c :: rest =>
    match dropN with
    | n + 1 => nccGo n (some c) rest
    | 0 =>
      match tryCCAt prev (c :: rest) with
      | some (out, len) => out ++ nccGo (len - 1) (some c) rest
      | none => c :: nccGo 0 (some c) rest

def ncc (s : List Char) : List Char := nccGo 0 none s

/-! ### `_TOKEN_RE.findall`: the tokenizer -/

/-- `[A-Za-z]+(?:'[A-Za-z]+)?` at the head (head is known to be a letter). -/
def takeAlphaTok (s : List Char) : List Char :=
  let a := s.takeWhile isAlphaC
  let r := s.drop a.length
  if r.head? = some '\'' then
    let b := r.tail.takeWhile isAlphaC
    if b = [] then a else a ++ '\'' :: b
  else a

/-- `_TOKEN_RE.findall` (`[A-Za-z]+(?:'[A-Za-z]+)?|\d+|[^\w\s]`), with an
explicit fuel argument for structural recursion; each step consumes at least
one character, so any `fuel ≥ s.length` computes the tokenization. -/
def findTokensF : Nat → List Char → List (List Char)
  | 0, _ => []
  | fuel + 1, s =>
    match s with
    | [] => []
    | c :: rest =>
      if isAlphaC c then
        let t := takeAlphaTok (c :: rest)
        t :: findTokensF fuel ((c :: rest).drop t.length)
      else if isDigitC c then
        let t := (c :: rest).takeWhile isDigitC
        t :: findTokensF fuel ((c :: rest).drop t.length)
      else if !isWordC c && !isWsC c then [c] :: findTokensF fuel rest
      else findTokensF fuel rest

def findTokens (s : List Char) : List (List Char) := findTokensF s.length s

/-! ### `_join_tokens` -/

def noSpaceBefore (t : List Char) : Bool :=
  match t with
  | [c] => c = '.' || c = ',' || c = '?' || c = '!' || c = ':' || c = ';' ||
      c = ')' || c = ']' || c = '\x7d'
  | _ => false

def noSpaceAfter (c : Char) : Bool := c = '(' || c = '[' || c = '\x7b'

def joinTokensGo (prev : Char) : List (List Char) → List Char
  | [] => []
  | t :: rest =>
    (if noSpaceBefore t || noSpaceAfter prev then t else ' ' :: t) ++
      joinTokensGo (t.getLastD prev) rest

/-- `_join_tokens` (query_normalizer.py:187). -/
def joinTokens : List (List Char) → List Char
  | [] => []
  | t :: rest => t ++ joinTokensGo (t.getLastD ' ') rest

/-! ### Per-token correction and `normalize` -/

/-- The per-token body of the `for token in tokens` loop
(query_normalizer.py:135-166): returns the output token and the recorded
changes. -/
def processOne (st : NormState) (t : List Char) : List Char × List (List Char × List Char) :=
  if !isAlphaTok t then (t, [])
  else
    let lowered := lowerL t
    match SHORTCUTS.find? (fun kv => kv.1.data = lowered) with
    | some kv =>
      let repl := matchCase t kv.2.data
      (repl, if repl ≠ t then [(t, repl)] else [])
    | none =>
      if lowered.length ≤ 2 || knownTerms st ⟨lowered⟩ then (t, [])
      else if st.sp.known ⟨lowered⟩ then (t, [])
      else
        match st.sp.correction ⟨lowered⟩ with
        | none => (t, [])
        | some cand =>
          if cand = "" then (t, [])
          else if cand.data ≠ lowered ∧ st.ratio ⟨lowered⟩ cand ≥ 80 then
            (matchCase t cand.data, [(t, matchCase t cand.data)])
          else (t, [])

def processTokens (st : NormState) : List (List Char) →
    List (List Char) × List (List Char × List Char)
  | [] => ([], [])
  | t :: rest =>
    let (o, ch) := processOne st t
    let (os, chs) := processTokens st rest
    (o :: os, ch ++ chs)

structure NQ where
  original : String
  corrected : String
  applied : Bool
  changes : List (String × String)
deriving DecidableEq

/-- `QueryNormalizer.normalize` (query_normalizer.py:124). -/
def normalizeQ (st : NormState) (query : String) : NQ :=
  let original := collapseWS query.data
  if original = [] then ⟨query, query, false, []⟩
  else
    let normalized := ncc original
    let tokens := findTokens normalized
    let ots := processTokens st tokens
    let corrected0 := joinTokens ots.1
    let corrected1 := ncc corrected0
    let corrected := collapseWS corrected1
    ⟨⟨original⟩, ⟨corrected⟩, decide (lowerL corrected ≠ lowerL original),
      ots.2.map (fun p => (⟨p.1⟩, ⟨p.2⟩))⟩

/-- A concrete degenerate spelling state (empty dictionary, no bootstrap). -/
def trivialState : NormState :=
  { sp := { known := fun _ => false, correction := fun _ => none },
    ratio := fun _ _ => 0,
    extraKnown := fun _ => false }

theorem splitWSGo_all_ws (s : List Char) (h : ∀ c ∈ s, isWsC c = true) :
    splitWSGo [] s = [] := by
  induction s with
  | nil => rfl
  | cons c rest ih =>
    simp only [splitWSGo]
    rw [if_pos (h c (by simp))]
    simp only [if_true]
    exact ih (fun d hd => h d (by simp [hd]))

/-- C7 counterexample to the claim as stated: on the whitespace-only query
`" "`, `normalize` takes the early-return branch with
`corrected = query`, so the corrected string is `" "`, not the empty
string. -/
theorem normalize_blank_cex :
    (normalizeQ trivialState " ").corrected = " " ∧
    ¬ ((normalizeQ trivialState " ").corrected = "") := by
  constructor
  · rfl
  · decide

/-- C7 (amended): for every spelling state and every query that is empty or
whitespace-only, `normalize` returns (without raising — it is total) a
result whose corrected string is the query itself, unchanged (empty exactly
when the query is empty), with `applied = false` and no changes. -/
theorem normalize_blank (st : NormState) (q : String)
    (h : ∀ c ∈ q.data, isWsC c = true) :
    normalizeQ st q = ⟨q, q, false, []⟩ := by
  have hc : collapseWS q.data = [] := by
    rw [collapseWS, splitWS, splitWSGo_all_ws q.data h]
    rfl
  simp only [normalizeQ, hc]
  rfl

/-- Witness for C7 (amended) at the whitespace query `" "`. -/
theorem normalize_blank_witness :
    normalizeQ trivialState " " = ⟨" ", " ", false, []⟩ :=
  normalize_blank trivialState " " (by decide)

/-! ## Retrieval orchestrator (src/campus_assistant/retrieval/rag_pipeline.py)

`answer_with_domain_assistant` (the optional generator; its failure is
`none`), `textwrap.shorten` and the `{score:.3f}` float rendering are
abstract parameters; the wall-clock latency is the explicit `latency`
argument.  `Document.metadata` (an opaque dict never read by this logic) and
`QueryResult.generated_at` (a wall-clock timestamp) are omitted from the
embedded records. -/

def round4 (q : ℚ) : ℚ := (round (10000 * q) : ℤ) / 10000

structure RagSource where
  doc_id : String
  title : String
  source_type : String
  score : ℚ
deriving DecidableEq

structure QueryResult where
  query : String
  answer : String
  intent : String
  entities : List ExtractedEntity
  sources : List RagSource
  latency_ms : ℚ
  normalized_query : String
  correction_applied : Bool
  corrections : List (String × String)
deriving DecidableEq

/-- `_source_filter_for_intent` (rag_pipeline.py:112). -/
def sourceFilterForIntent (intent : String) : Option (List String) :=
  if intent = "event" then some ["event"]
  else if intent = "class_schedule" then some ["class_schedule"]
  else if intent = "time" then some ["calendar", "event", "class_schedule"]
  else if intent = "location" then some ["event", "class_schedule"]
  else if intent = "facility_hours" then some ["event", "calendar"]
  else none

def replaceNl (s : List Char) : List Char :=
  s.map (fun c => if c = '\n' then ' ' else c)

def snippetLines (idx : Nat) : List (List Char) → List (List Char)
  | [] => []
  | s :: rest => (natToChars idx ++ ". ".data ++ s) :: snippetLines (idx + 1) rest

/-- `_generate_answer` with `_try_openai_answer` (rag_pipeline.py:73-109):
the generator answer is used when truthy; otherwise the deterministic
fallback composition. -/
def generateAnswer (llm : String → String → Option String)
    (shorten : Nat → String → String) (fmt3 : ℚ → String)
    (query : String) (intentLabel : String)
    (retrieved : List (Document × ℚ)) (correctedFromOriginal : Bool) : String :=
  let contextLines := retrieved.foldr (fun ds acc =>
    ("- [".data ++ ds.1.source_type.data ++ "] ".data ++ ds.1.title.data ++
      " (score=".data ++ (fmt3 ds.2).data ++ ")".data) ::
    (shorten 260 ⟨replaceNl ds.1.text.data⟩).data :: acc) []
  let context : String := ⟨joinSep "\n".data contextLines⟩
  let fallback : String :=
    if retrieved = [] then
      "I could not find supporting campus records for that question yet. Try rephrasing with course code, building name, or semester details."
    else
      let snippets := (retrieved.take 3).map
        (fun ds => (shorten 220 ⟨replaceNl ds.1.text.data⟩).data)
      let pre :=
        if correctedFromOriginal then
          "I interpreted your question as: \"".data ++ query.data ++ "\".\n".data
        else []
      ⟨pre ++ "Intent detected: ".data ++ intentLabel.data ++
        ". Based on the most relevant UMBC records, here is what I found:\n".data ++
        joinSep "\n".data (snippetLines 1 snippets)⟩
  match llm query context with
  | some a => if a = "" then fallback else a
  | none => fallback

/-- `top_k or SETTINGS.top_k` with Python falsiness of `0`/`None`. -/
def effectiveTopK (topK : Option Nat) (settingsTopK : Nat) : Nat :=
  match topK with
  | some k => if k = 0 then settingsTopK else k
  | none => settingsTopK

/-- `RAGPipeline.answer` (rag_pipeline.py:27). -/
def ragAnswer (idx : VIState) (st : NormState) (scoreD scoreT : String → List ℚ)
    (llm : String → String → Option String) (shorten : Nat → String → String)
    (fmt3 : ℚ → String) (settingsTopK : Nat) (latency : ℚ)
    (query : String) (topK : Option Nat) : QueryResult :=
  let normalized := normalizeQ st query
  let retrievalQuery := if normalized.corrected = "" then query else normalized.corrected
  let intent := predict retrievalQuery
  let entities := extract retrievalQuery
  let retrieved := searchState idx (scoreD retrievalQuery) (scoreT retrievalQuery)
    (effectiveTopK topK settingsTopK) (sourceFilterForIntent intent.label)
  let answerText := generateAnswer llm shorten fmt3 retrievalQuery intent.label
    retrieved normalized.applied
  ⟨query, answerText, intent.label, entities,
   retrieved.map (fun ds => ⟨ds.1.doc_id, ds.1.title, ds.1.source_type, round4 ds.2⟩),
   latency, retrievalQuery, normalized.applied, normalized.changes⟩

/-- C9: whenever normalization yields an empty corrected string, the pipeline
falls back to the original query: intent classification, entity extraction
and the index search all receive the original query, and
`QueryResult.normalized_query` equals the original query. -/
theorem rag_answer_empty_corrected (idx : VIState) (st : NormState)
    (scoreD scoreT : String → List ℚ) (llm : String → String → Option String)
    (shorten : Nat → String → String) (fmt3 : ℚ → String)
    (settingsTopK : Nat) (latency : ℚ) (query : String) (topK : Option Nat)
    (h : (normalizeQ st query).corrected = "") :
    (ragAnswer idx st scoreD scoreT llm shorten fmt3 settingsTopK latency query topK).normalized_query
        = query ∧
    (ragAnswer idx st scoreD scoreT llm shorten fmt3 settingsTopK latency query topK).intent
        = (predict query).label ∧
    (ragAnswer idx st scoreD scoreT llm shorten fmt3 settingsTopK latency query topK).entities
        = extract query ∧
    (ragAnswer idx st scoreD scoreT llm shorten fmt3 settingsTopK latency query topK).sources
        = (searchState idx (scoreD query) (scoreT query)
            (effectiveTopK topK settingsTopK)
            (sourceFilterForIntent (predict query).label)).map
          (fun ds => ⟨ds.1.doc_id, ds.1.title, ds.1.source_type, round4 ds.2⟩) := by
  simp only [ragAnswer, h]
  simp

/-- Witness for C9 at the query `"_"`, whose corrected form is empty (the
tokenizer drops the underscore), with concrete degenerate collaborators. -/
theorem rag_answer_empty_corrected_witness :
    (ragAnswer (VIState.init none "tfidf") trivialState (fun _ => []) (fun _ => [])
        (fun _ _ => none) (fun _ s => s) (fun _ => "") 5 0 "_" none).normalized_query
        = "_" ∧
    (ragAnswer (VIState.init none "tfidf") trivialState (fun _ => []) (fun _ => [])
        (fun _ _ => none) (fun _ s => s) (fun _ => "") 5 0 "_" none).intent
        = (predict "_").label ∧
    (ragAnswer (VIState.init none "tfidf") trivialState (fun _ => []) (fun _ => [])
        (fun _ _ => none) (fun _ s => s) (fun _ => "") 5 0 "_" none).entities
        = extract "_" ∧
    (ragAnswer (VIState.init none "tfidf") trivialState (fun _ => []) (fun _ => [])
        (fun _ _ => none) (fun _ s => s) (fun _ => "") 5 0 "_" none).sources
        = (searchState (VIState.init none "tfidf") [] []
            (effectiveTopK none 5)
            (sourceFilterForIntent (predict "_").label)).map
          (fun ds => ⟨ds.1.doc_id, ds.1.title, ds.1.source_type, round4 ds.2⟩) :=
  rag_answer_empty_corrected (VIState.init none "tfidf") trivialState
    (fun _ => []) (fun _ => []) (fun _ _ => none) (fun _ s => s) (fun _ => "")
    5 0 "_" none (by decide)

/-! ## Character facts for the normalizer idempotence development -/

theorem toNat_ofNat_valid (n : Nat) (h : n < 55296) : (Char.ofNat n).toNat = n := by
  have hv : n.isValidChar := Or.inl h
  rw [Char.ofNat, dif_pos hv]
  simp [Char.ofNatAux, Char.toNat, UInt32.toNat, BitVec.toNat_ofNatLt]

theorem char_le_iff (a b : Char) : (a ≤ b) ↔ a.toNat ≤ b.toNat := by
  rw [Char.le_def, UInt32.le_def]
  exact BitVec.le_def

theorem char_toNat_inj {a b : Char} (h : a.toNat = b.toNat) : a = b := by
  apply Char.ext
  exact UInt32.ext h

theorem char_eq_iff (a b : Char) : a = b ↔ a.toNat = b.toNat :=
  ⟨fun h => h ▸ rfl, char_toNat_inj⟩

theorem char_toNat_lt (c : Char) : c.toNat < 1114112 := by
  rcases c.valid with h | ⟨_, h⟩
  · exact lt_trans h (by norm_num)
  · exact h

theorem toNat_lowerC (c : Char) :
    (lowerC c).toNat =
      if 65 ≤ c.toNat ∧ c.toNat ≤ 90 then c.toNat + 32 else c.toNat := by
  rw [lowerC]
  by_cases h : 'A' ≤ c ∧ c ≤ 'Z'
  · have h2 : 65 ≤ c.toNat ∧ c.toNat ≤ 90 :=
      ⟨(char_le_iff 'A' c).mp h.1, (char_le_iff c 'Z').mp h.2⟩
    rw [if_pos h, if_pos h2, toNat_ofNat_valid _ (by omega)]
  · have h2 : ¬ (65 ≤ c.toNat ∧ c.toNat ≤ 90) := by
      intro hc
      exact h ⟨(char_le_iff 'A' c).mpr hc.1, (char_le_iff c 'Z').mpr hc.2⟩
    rw [if_neg h, if_neg h2]

theorem toNat_upperC (c : Char) :
    (upperC c).toNat =
      if 97 ≤ c.toNat ∧ c.toNat ≤ 122 then c.toNat - 32 else c.toNat := by
  rw [upperC]
  by_cases h : 'a' ≤ c ∧ c ≤ 'z'
  · have h2 : 97 ≤ c.toNat ∧ c.toNat ≤ 122 :=
      ⟨(char_le_iff 'a' c).mp h.1, (char_le_iff c 'z').mp h.2⟩
    rw [if_pos h, if_pos h2, toNat_ofNat_valid _ (by omega)]
  · have h2 : ¬ (97 ≤ c.toNat ∧ c.toNat ≤ 122) := by
      intro hc
      exact h ⟨(char_le_iff 'a' c).mpr hc.1, (char_le_iff c 'z').mpr hc.2⟩
    rw [if_neg h, if_neg h2]

theorem isAlphaC_iff (c : Char) :
    isAlphaC c = true ↔
      (65 ≤ c.toNat ∧ c.toNat ≤ 90) ∨ (97 ≤ c.toNat ∧ c.toNat ≤ 122) := by
  rw [isAlphaC]
  simp only [Bool.or_eq_true, decide_eq_true_eq, char_le_iff]
  rfl

theorem isDigitC_iff (c : Char) :
    isDigitC c = true ↔ 48 ≤ c.toNat ∧ c.toNat ≤ 57 := by
  rw [isDigitC]
  simp only [decide_eq_true_eq, char_le_iff]
  rfl

theorem isLowerA_iff (c : Char) :
    isLowerA c = true ↔ 97 ≤ c.toNat ∧ c.toNat ≤ 122 := by
  rw [isLowerA]
  simp only [decide_eq_true_eq, char_le_iff]
  rfl

theorem isUpperA_iff (c : Char) :
    isUpperA c = true ↔ 65 ≤ c.toNat ∧ c.toNat ≤ 90 := by
  rw [isUpperA]
  simp only [decide_eq_true_eq, char_le_iff]
  rfl

theorem isWordC_iff (c : Char) :
    isWordC c = true ↔
      (65 ≤ c.toNat ∧ c.toNat ≤ 90) ∨ (97 ≤ c.toNat ∧ c.toNat ≤ 122) ∨
      (48 ≤ c.toNat ∧ c.toNat ≤ 57) ∨ c.toNat = 95 := by
  rw [isWordC]
  simp only [Bool.or_eq_true, isAlphaC_iff, isDigitC_iff, decide_eq_true_eq,
    char_eq_iff]
  have h95 : ('_' : Char).toNat = 95 := rfl
  rw [h95]
  tauto

theorem isWsC_iff (c : Char) :
    isWsC c = true ↔
      c.toNat = 32 ∨ c.toNat = 9 ∨ c.toNat = 10 ∨ c.toNat = 13 := by
  rw [isWsC]
  simp only [Bool.or_eq_true, decide_eq_true_eq, char_eq_iff]
  have h1 : (' ' : Char).toNat = 32 := rfl
  have h2 : ('\t' : Char).toNat = 9 := rfl
  have h3 : ('\n' : Char).toNat = 10 := rfl
  have h4 : ('\x0d' : Char).toNat = 13 := rfl
  rw [h1, h2, h3, h4]
  tauto

theorem lowerC_lowerC (c : Char) : lowerC (lowerC c) = lowerC c := by
  apply char_toNat_inj
  rw [toNat_lowerC (lowerC c), toNat_lowerC c]
  split_ifs <;> omega

theorem lowerC_upperC (c : Char) : lowerC (upperC c) = lowerC c := by
  apply char_toNat_inj
  rw [toNat_lowerC (upperC c), toNat_upperC c, toNat_lowerC c]
  split_ifs <;> omega

theorem upperC_upperC (c : Char) : upperC (upperC c) = upperC c := by
  apply char_toNat_inj
  rw [toNat_upperC (upperC c), toNat_upperC c]
  split_ifs <;> omega

theorem isAlphaC_lowerC (c : Char) : isAlphaC (lowerC c) = isAlphaC c := by
  rw [Bool.eq_iff_iff, isAlphaC_iff, isAlphaC_iff, toNat_lowerC]
  split_ifs <;> omega

theorem isAlphaC_upperC (c : Char) : isAlphaC (upperC c) = isAlphaC c := by
  rw [Bool.eq_iff_iff, isAlphaC_iff, isAlphaC_iff, toNat_upperC]
  split_ifs <;> omega

theorem isDigitC_lowerC (c : Char) : isDigitC (lowerC c) = isDigitC c := by
  rw [Bool.eq_iff_iff, isDigitC_iff, isDigitC_iff, toNat_lowerC]
  split_ifs <;> omega

theorem isDigitC_upperC (c : Char) : isDigitC (upperC c) = isDigitC c := by
  rw [Bool.eq_iff_iff, isDigitC_iff, isDigitC_iff, toNat_upperC]
  split_ifs <;> omega

theorem isWordC_lowerC (c : Char) : isWordC (lowerC c) = isWordC c := by
  rw [Bool.eq_iff_iff, isWordC_iff, isWordC_iff, toNat_lowerC]
  split_ifs <;> omega

theorem isWordC_upperC (c : Char) : isWordC (upperC c) = isWordC c := by
  rw [Bool.eq_iff_iff, isWordC_iff, isWordC_iff, toNat_upperC]
  split_ifs <;> omega

theorem isWsC_lowerC (c : Char) : isWsC (lowerC c) = isWsC c := by
  rw [Bool.eq_iff_iff, isWsC_iff, isWsC_iff, toNat_lowerC]
  split_ifs <;> omega

theorem isWsC_upperC (c : Char) : isWsC (upperC c) = isWsC c := by
  rw [Bool.eq_iff_iff, isWsC_iff, isWsC_iff, toNat_upperC]
  split_ifs <;> omega

theorem apos_lowerC (c : Char) : (lowerC c = '\'') ↔ (c = '\'') := by
  rw [char_eq_iff, char_eq_iff, toNat_lowerC]
  have h39 : ('\'' : Char).toNat = 39 := rfl
  rw [h39]
  split_ifs <;> omega

theorem apos_upperC (c : Char) : (upperC c = '\'') ↔ (c = '\'') := by
  rw [char_eq_iff, char_eq_iff, toNat_upperC]
  have h39 : ('\'' : Char).toNat = 39 := rfl
  rw [h39]
  split_ifs <;> omega

theorem lowerL_lowerL (s : List Char) : lowerL (lowerL s) = lowerL s := by
  simp only [lowerL, List.map_map]
  exact List.map_congr_left (fun c _ => lowerC_lowerC c)

theorem lowerL_upperL (s : List Char) : lowerL (upperL s) = lowerL s := by
  simp only [lowerL, upperL, List.map_map]
  exact List.map_congr_left (fun c _ => lowerC_upperC c)

theorem upperL_upperL (s : List Char) : upperL (upperL s) = upperL s := by
  simp only [upperL, List.map_map]
  exact List.map_congr_left (fun c _ => upperC_upperC c)

theorem lowerL_titleGo (b : Bool) (s : List Char) :
    lowerL (titleGo b s) = lowerL s := by
  induction s generalizing b with
  | nil => rfl
  | cons c r ih =>
    simp only [titleGo, lowerL, List.map_cons]
    by_cases h : isAlphaC c = true
    · rw [if_pos h]
      by_cases hb : b = true
      · rw [if_pos hb]
        exact congrArg₂ _ (lowerC_lowerC c) (ih (isAlphaC c))
      · rw [if_neg hb]
        exact congrArg₂ _ (lowerC_upperC c) (ih (isAlphaC c))
    · rw [if_neg h]
      exact congrArg₂ _ rfl (ih (isAlphaC c))

theorem lowerL_titlePy (s : List Char) : lowerL (titlePy s) = lowerL s :=
  lowerL_titleGo false s

/-- `lower` of a `_match_case` result is `lower` of the replacement. -/
theorem lowerL_matchCase (t v : List Char) :
    lowerL (matchCase t v) = lowerL v := by
  rw [matchCase]
  split_ifs
  · exact lowerL_upperL v
  · exact lowerL_titlePy v
  · rfl

/-! ### Token shapes -/

def isDigitTok (t : List Char) : Bool := decide (t ≠ []) && t.all isDigitC

def isPunctTok (t : List Char) : Bool :=
  match t with
  | [c] => !isWordC c && !isWsC c
  | _ => false

/-- A value `_TOKEN_RE.findall` can produce. -/
def tokOK (t : List Char) : Bool := isAlphaTok t || isDigitTok t || isPunctTok t

/-- Decompose an alpha token into the part before a potential course prefix
and the trailing letter segment: `A` ↦ `([], A)`, `A'B` ↦ `(A', B)`. -/
def alphaSeg (t : List Char) : Option (List Char × List Char) :=
  if isAlphaTok t then
    let a := t.takeWhile isAlphaC
    match t.drop a.length with
    | [] => some ([], a)
    | _ => some (a ++ ['\''], t.drop (a.length + 1))
  else none

def isDigitTok3 (d : List Char) : Bool := decide (d.length = 3) && d.all isDigitC

/-- `_normalize_course_codes` at the level of the token list produced by
`_join_tokens`: a match is an alpha token whose trailing letter segment has
length 2-5, followed (always across a single space in the joined string) by
a three-digit token, optionally with a `-` token in between; a match is
rewritten (prefix upper-cased, dash dropped) when the upper-cased segment is
a known course prefix, and consumed unchanged otherwise. -/
def nccTok : List (List Char) → List (List Char)
  | [] => []
  | [t] => [t]
  | t :: d :: rest2 =>
    match alphaSeg t with
    | none => t :: nccTok (d :: rest2)
    | some (pre, seg) =>
      if 2 ≤ seg.length ∧ seg.length ≤ 5 then
        if isDigitTok3 d then
          (if COURSE_PREFIXES.contains (⟨upperL seg⟩ : String) then pre ++ upperL seg
           else t) :: d :: nccTok rest2
        else if d = ['-'] then
          match rest2 with
          | d2 :: rest3 =>
            if isDigitTok3 d2 then
              if COURSE_PREFIXES.contains (⟨upperL seg⟩ : String) then
                (pre ++ upperL seg) :: d2 :: nccTok rest3
              else t :: ['-'] :: d2 :: nccTok rest3
            else t :: ['-'] :: nccTok (d2 :: rest3)
          | [] => [t, ['-']]
        else t :: nccTok (d :: rest2)
      else t :: nccTok (d :: rest2)
termination_by ts => ts.length
decreasing_by all_goals (simp only [List.length_cons]; omega)

/-! ### List scanning helpers -/

theorem takeWhile_all_append (p : Char → Bool) (l r : List Char)
    (h : l.all p = true) : (l ++ r).takeWhile p = l ++ r.takeWhile p := by
  induction l with
  | nil => simp
  | cons c t ih =>
    simp only [List.all_cons, Bool.and_eq_true] at h
    simp [List.takeWhile_cons, h.1, ih h.2]

theorem takeWhile_drop (p : Char → Bool) (l : List Char) :
    l.drop (l.takeWhile p).length = l.dropWhile p := by
  induction l with
  | nil => rfl
  | cons c t ih =>
    by_cases hc : p c = true
    · simpa [List.takeWhile_cons, List.dropWhile_cons, hc] using ih
    · simp [List.takeWhile_cons, List.dropWhile_cons, hc]

theorem takeWhile_eq_self_of_all (p : Char → Bool) (l : List Char)
    (h : l.all p = true) : l.takeWhile p = l := by
  have := takeWhile_all_append p l [] h
  simpa using this

/-! ### Shape facts for `isAlphaTok` -/

theorem isAlphaTok_spec (t : List Char) (h : isAlphaTok t = true) :
    (t ≠ [] ∧ t.all isAlphaC = true) ∨
    (∃ a b, t = a ++ '\'' :: b ∧ a ≠ [] ∧ b ≠ [] ∧
      a.all isAlphaC = true ∧ b.all isAlphaC = true) := by
  unfold isAlphaTok at h
  simp only [Bool.and_eq_true, Bool.or_eq_true, decide_eq_true_eq] at h
  obtain ⟨hae, hrest⟩ := h
  have hta : t = t.takeWhile isAlphaC ++ t.drop (t.takeWhile isAlphaC).length := by
    rw [takeWhile_drop, List.takeWhile_append_dropWhile]
  have haall : (t.takeWhile isAlphaC).all isAlphaC = true :=
    List.all_eq_true.mpr (fun c hc => List.mem_takeWhile_imp hc)
  rcases hrest with hre | ⟨⟨hhd, htl⟩, hball⟩
  · left
    constructor
    · intro he; exact hae (by simp [he])
    · rw [hta, hre]; simp [haall]
  · right
    cases hdrop : t.drop (t.takeWhile isAlphaC).length with
    | nil => rw [hdrop] at hhd; cases hhd
    | cons c b =>
      rw [hdrop] at hhd htl
      simp only [List.head?_cons, Option.some.injEq] at hhd
      simp only [List.tail_cons] at htl
      have hball2 : b.all isAlphaC = true := by
        rw [hdrop] at hball; simpa using hball
      exact ⟨t.takeWhile isAlphaC, b, by nth_rewrite 1 [hta]; rw [hdrop, hhd], hae, htl, haall, hball2⟩

theorem isAlphaTok_build_pure (a : List Char) (hne : a ≠ [])
    (hall : a.all isAlphaC = true) : isAlphaTok a = true := by
  unfold isAlphaTok
  rw [takeWhile_eq_self_of_all _ _ hall]
  simp [hne]

theorem isAlphaTok_build_apos (a b : List Char) (hane : a ≠ []) (hbne : b ≠ [])
    (haall : a.all isAlphaC = true) (hball : b.all isAlphaC = true) :
    isAlphaTok (a ++ '\'' :: b) = true := by
  unfold isAlphaTok
  have ht : (a ++ '\'' :: b).takeWhile isAlphaC = a := by
    rw [takeWhile_all_append _ _ _ haall]
    simp [List.takeWhile_cons, isAlphaC]
  simp only [ht, List.drop_left]
  simp [hane, hbne, hball]

/-! ### Character class disjointness -/

theorem not_isWsC_of_isAlphaC (c : Char) (h : isAlphaC c = true) :
    isWsC c = false := by
  rw [Bool.eq_false_iff]
  intro hw
  rw [isAlphaC_iff] at h
  rw [isWsC_iff] at hw
  omega

theorem not_isWsC_of_isDigitC (c : Char) (h : isDigitC c = true) :
    isWsC c = false := by
  rw [Bool.eq_false_iff]
  intro hw
  rw [isDigitC_iff] at h
  rw [isWsC_iff] at hw
  omega

theorem not_isDigitC_of_isAlphaC (c : Char) (h : isAlphaC c = true) :
    isDigitC c = false := by
  rw [Bool.eq_false_iff]
  intro hw
  rw [isAlphaC_iff] at h
  rw [isDigitC_iff] at hw
  omega

theorem isWordC_of_isAlphaC (c : Char) (h : isAlphaC c = true) :
    isWordC c = true := by
  rw [isWordC, h]
  rfl

theorem isWordC_of_isDigitC (c : Char) (h : isDigitC c = true) :
    isWordC c = true := by
  rw [isWordC, h]
  simp

theorem noSpaceAfter_eq_false_of_isWordC (c : Char) (h : isWordC c = true) :
    noSpaceAfter c = false := by
  rw [Bool.eq_false_iff]
  intro hn
  rw [isWordC_iff] at h
  rw [noSpaceAfter] at hn
  simp only [Bool.or_eq_true, decide_eq_true_eq, char_eq_iff] at hn
  have h1 : ('(' : Char).toNat = 40 := rfl
  have h2 : ('[' : Char).toNat = 91 := rfl
  have h3 : ('\x7b' : Char).toNat = 123 := rfl
  rw [h1, h2, h3] at hn
  omega

theorem noSpaceBefore_char_facts (c : Char) (h : noSpaceBefore [c] = true) :
    isWsC c = false ∧ isWordC c = false ∧ isAlphaC c = false ∧
      isDigitC c = false ∧ c ≠ '\'' ∧ c ≠ '-' := by
  rw [noSpaceBefore] at h
  simp only [Bool.or_eq_true, decide_eq_true_eq, char_eq_iff] at h
  have e1 : ('.' : Char).toNat = 46 := rfl
  have e2 : (',' : Char).toNat = 44 := rfl
  have e3 : ('?' : Char).toNat = 63 := rfl
  have e4 : ('!' : Char).toNat = 33 := rfl
  have e5 : (':' : Char).toNat = 58 := rfl
  have e6 : (';' : Char).toNat = 59 := rfl
  have e7 : (')' : Char).toNat = 41 := rfl
  have e8 : (']' : Char).toNat = 93 := rfl
  have e9 : ('\x7d' : Char).toNat = 125 := rfl
  rw [e1, e2, e3, e4, e5, e6, e7, e8, e9] at h
  refine ⟨?_, ?_, ?_, ?_, ?_, ?_⟩
  · rw [Bool.eq_false_iff]; intro hw; rw [isWsC_iff] at hw; omega
  · rw [Bool.eq_false_iff]; intro hw; rw [isWordC_iff] at hw; omega
  · rw [Bool.eq_false_iff]; intro hw; rw [isAlphaC_iff] at hw; omega
  · rw [Bool.eq_false_iff]; intro hw; rw [isDigitC_iff] at hw; omega
  · intro he
    rw [char_eq_iff] at he
    have e0 : ('\'' : Char).toNat = 39 := rfl
    rw [e0] at he; omega
  · intro he
    rw [char_eq_iff] at he
    have e0 : ('-' : Char).toNat = 45 := rfl
    rw [e0] at he; omega

/-! ### Token wellformedness facts -/

theorem getLastD_mem (l : List Char) (d : Char) (h : l ≠ []) :
    l.getLastD d ∈ l := by
  induction l generalizing d with
  | nil => exact absurd rfl h
  | cons c r ih =>
    cases hr : r with
    | nil => simp [List.getLastD]
    | cons c2 r2 =>
      rw [List.getLastD_cons]
      right
      rw [← hr]
      exact ih c (by simp [hr])

theorem getLastD_append_cons (l r : List Char) (c d : Char) :
    (l ++ c :: r).getLastD d = (c :: r).getLastD d := by
  induction l generalizing d with
  | nil => rfl
  | cons x xs ih =>
    rw [List.cons_append, List.getLastD_cons, ih x, List.getLastD_cons,
      List.getLastD_cons]

theorem isAlphaTok_ne_nil (t : List Char) (h : isAlphaTok t = true) :
    t ≠ [] := by
  rcases isAlphaTok_spec t h with ⟨hne, _⟩ | ⟨a, b, hdec, _, _, _, _⟩
  · exact hne
  · rw [hdec]; simp

theorem isAlphaTok_chars (t : List Char) (h : isAlphaTok t = true) :
    ∀ c ∈ t, isAlphaC c = true ∨ c = '\'' := by
  intro c hc
  rcases isAlphaTok_spec t h with ⟨_, hall⟩ | ⟨a, b, hdec, _, _, haall, hball⟩
  · exact Or.inl (List.all_eq_true.mp hall c hc)
  · rw [hdec] at hc
    rcases List.mem_append.mp hc with h1 | h2
    · exact Or.inl (List.all_eq_true.mp haall c h1)
    · rcases List.mem_cons.mp h2 with h3 | h4
      · exact Or.inr h3
      · exact Or.inl (List.all_eq_true.mp hball c h4)

theorem isAlphaTok_last (t : List Char) (h : isAlphaTok t = true) (d : Char) :
    isAlphaC (t.getLastD d) = true := by
  rcases isAlphaTok_spec t h with ⟨hne, hall⟩ | ⟨a, b, hdec, _, hbne, _, hball⟩
  · exact List.all_eq_true.mp hall _ (getLastD_mem t d hne)
  · rw [hdec, getLastD_append_cons, List.getLastD_cons]
    exact List.all_eq_true.mp hball _ (getLastD_mem b '\'' hbne)

theorem isDigitTok_last (t : List Char) (h : isDigitTok t = true) (d : Char) :
    isDigitC (t.getLastD d) = true := by
  rw [isDigitTok, Bool.and_eq_true, decide_eq_true_eq] at h
  exact List.all_eq_true.mp h.2 _ (getLastD_mem t d h.1)

theorem tokOK_ne_nil (t : List Char) (h : tokOK t = true) : t ≠ [] := by
  rw [tokOK, Bool.or_eq_true, Bool.or_eq_true] at h
  rcases h with (h1 | h2) | h3
  · exact isAlphaTok_ne_nil t h1
  · rw [isDigitTok, Bool.and_eq_true, decide_eq_true_eq] at h2
    exact h2.1
  · cases t with
    | nil => cases h3
    | cons c r => simp

theorem tokOK_wsfree (t : List Char) (h : tokOK t = true) :
    ∀ c ∈ t, isWsC c = false := by
  intro c hc
  rw [tokOK, Bool.or_eq_true, Bool.or_eq_true] at h
  rcases h with (h1 | h2) | h3
  · rcases isAlphaTok_chars t h1 c hc with ha | ha
    · exact not_isWsC_of_isAlphaC c ha
    · rw [ha]; rfl
  · rw [isDigitTok, Bool.and_eq_true, decide_eq_true_eq] at h2
    exact not_isWsC_of_isDigitC c (List.all_eq_true.mp h2.2 c hc)
  · cases t with
    | nil => cases hc
    | cons x r =>
      cases r with
      | cons y ys => cases h3
      | nil =>
        rw [isPunctTok, Bool.and_eq_true] at h3
        rcases List.mem_singleton.mp hc with rfl
        rcases h3 with ⟨_, h4⟩
        rwa [Bool.not_eq_true'] at h4

/-! ### `isAlphaTok` is determined by the lower-cased token -/

theorem map_eq_cons_split (f : Char → Char) (l : List Char) (a : Char)
    (L : List Char) (h : l.map f = a :: L) :
    ∃ x l2, l = x :: l2 ∧ f x = a ∧ l2.map f = L := by
  cases l with
  | nil => cases h
  | cons x l2 =>
    rw [List.map_cons] at h
    injection h with h1 h2
    exact ⟨x, l2, rfl, h1, h2⟩

theorem map_eq_append_split (f : Char → Char) (l L1 L2 : List Char)
    (h : l.map f = L1 ++ L2) :
    ∃ l1 l2, l = l1 ++ l2 ∧ l1.map f = L1 ∧ l2.map f = L2 := by
  induction L1 generalizing l with
  | nil => exact ⟨[], l, rfl, rfl, by simpa using h⟩
  | cons a L1x ih =>
    rw [List.cons_append] at h
    obtain ⟨x, l2, rfl, hfx, hml⟩ := map_eq_cons_split f l a (L1x ++ L2) h
    obtain ⟨l1, l2x, rfl, hm1, hm2⟩ := ih l2 hml
    exact ⟨x :: l1, l2x, rfl, by rw [List.map_cons, hfx, hm1], hm2⟩

theorem all_isAlphaC_lowerL (l : List Char) :
    (lowerL l).all isAlphaC = l.all isAlphaC := by
  rw [Bool.eq_iff_iff, lowerL, List.all_map, List.all_eq_true, List.all_eq_true]
  constructor
  · intro h c hc
    have := h c hc
    rwa [Function.comp_apply, isAlphaC_lowerC] at this
  · intro h c hc
    rw [Function.comp_apply, isAlphaC_lowerC]
    exact h c hc

theorem lowerC_apos : lowerC '\'' = '\'' := by decide

theorem isAlphaTok_lowerL (t : List Char) :
    isAlphaTok (lowerL t) = isAlphaTok t := by
  rw [Bool.eq_iff_iff]
  constructor
  · intro h
    rcases isAlphaTok_spec _ h with ⟨hne, hall⟩ |
        ⟨a, b, hdec, hane, hbne, haall, hball⟩
    · apply isAlphaTok_build_pure
      · intro he
        rw [he] at hne
        exact hne rfl
      · rw [← all_isAlphaC_lowerL]
        exact hall
    · obtain ⟨a0, rest0, rfl, hma, hmrest⟩ :=
        map_eq_append_split lowerC t a ('\'' :: b) hdec
      obtain ⟨c0, b0, rfl, hc0, hmb⟩ :=
        map_eq_cons_split lowerC rest0 '\'' b hmrest
      have hc0e : c0 = '\'' := (apos_lowerC c0).mp hc0
      subst hc0e
      apply isAlphaTok_build_apos
      · intro he; rw [he] at hma; exact hane hma.symm
      · intro he; rw [he] at hmb; exact hbne hmb.symm
      · rw [← all_isAlphaC_lowerL a0, lowerL, hma]
        exact haall
      · rw [← all_isAlphaC_lowerL b0, lowerL, hmb]
        exact hball
  · intro h
    rcases isAlphaTok_spec t h with ⟨hne, hall⟩ |
        ⟨a, b, hdec, hane, hbne, haall, hball⟩
    · apply isAlphaTok_build_pure
      · simpa [lowerL] using hne
      · rw [all_isAlphaC_lowerL]
        exact hall
    · rw [hdec, lowerL, List.map_append, List.map_cons, lowerC_apos]
      apply isAlphaTok_build_apos
      · simpa using hane
      · simpa using hbne
      · rw [show a.map lowerC = lowerL a from rfl, all_isAlphaC_lowerL]
        exact haall
      · rw [show b.map lowerC = lowerL b from rfl, all_isAlphaC_lowerL]
        exact hball

theorem isAlphaTok_eq_of_lowerL {t s : List Char} (h : lowerL t = lowerL s) :
    isAlphaTok t = isAlphaTok s := by
  rw [← isAlphaTok_lowerL t, h, isAlphaTok_lowerL s]

/-! ### `alphaSeg` characterization -/

theorem alphaSeg_eq_none (t : List Char) (h : isAlphaTok t = false) :
    alphaSeg t = none := by
  rw [alphaSeg, h]
  rfl

theorem alphaSeg_isSome (t : List Char) (h : isAlphaTok t = true) :
    (alphaSeg t).isSome = true := by
  rw [alphaSeg, h]
  simp only [if_true]
  cases t.drop (t.takeWhile isAlphaC).length with
  | nil => rfl
  | cons c r => rfl

theorem alphaSeg_spec (t pre seg : List Char)
    (h : alphaSeg t = some (pre, seg)) :
    (pre = [] ∧ t = seg ∧ seg ≠ [] ∧ seg.all isAlphaC = true) ∨
    (∃ a, pre = a ++ ['\''] ∧ t = a ++ '\'' :: seg ∧ a ≠ [] ∧
      a.all isAlphaC = true ∧ seg ≠ [] ∧ seg.all isAlphaC = true) := by
  rw [alphaSeg] at h
  by_cases ht : isAlphaTok t = true
  · rw [if_pos ht] at h
    rcases isAlphaTok_spec t ht with ⟨hne, hall⟩ |
        ⟨a, b, hdec, hane, hbne, haall, hball⟩
    · left
      rw [takeWhile_eq_self_of_all _ _ hall] at h
      simp only [List.drop_length, Option.some.injEq, Prod.mk.injEq] at h
      exact ⟨h.1.symm, h.2, h.2 ▸ hne, h.2 ▸ hall⟩
    · right
      subst hdec
      have htw : (a ++ '\'' :: b).takeWhile isAlphaC = a := by
        rw [takeWhile_all_append _ _ _ haall]
        simp [List.takeWhile_cons, isAlphaC]
      have hd2 : (a ++ '\'' :: b).drop (a.length + 1) = b := by
        rw [show a ++ '\'' :: b = (a ++ ['\'']) ++ b by simp]
        exact List.drop_left' (by simp)
      simp only [htw, List.drop_left, hd2, Option.some.injEq, Prod.mk.injEq] at h
      exact ⟨a, h.1.symm, by rw [h.2], hane, haall, h.2 ▸ hbne, h.2 ▸ hball⟩
  · rw [if_neg ht] at h
    cases h

/-! ### `collapseWS` fixed points -/

theorem splitWSGo_word (w : List Char) (hw : ∀ c ∈ w, isWsC c = false) :
    ∀ (cur s : List Char), splitWSGo cur (w ++ s) = splitWSGo (w.reverse ++ cur) s := by
  induction w with
  | nil => intro cur s; simp
  | cons c wr ih =>
    intro cur s
    rw [List.cons_append, splitWSGo, if_neg (by rw [hw c (by simp)]; simp)]
    rw [ih (fun d hd => hw d (by simp [hd])) (c :: cur) s]
    simp

theorem splitWSGo_ne_nil (s : List Char) :
    ∀ cur : List Char, cur ≠ [] → splitWSGo cur s ≠ [] := by
  induction s with
  | nil =>
    intro cur hc
    rw [splitWSGo, if_neg hc]
    simp
  | cons c rest ih =>
    intro cur hc
    rw [splitWSGo]
    by_cases hws : isWsC c = true
    · rw [if_pos hws, if_neg hc]
      simp
    · rw [if_neg hws]
      exact ih (c :: cur) (by simp)

theorem joinSpace_cons_ne (x : List Char) (l : List (List Char)) (h : l ≠ []) :
    joinSpace (x :: l) = x ++ ' ' :: joinSpace l := by
  cases l with
  | nil => exact absurd rfl h
  | cons y r => rfl

/-- Collapsing whitespace over the tail produced by `_join_tokens`, with a
word accumulated so far. -/
theorem joinSpace_splitWSGo_joinTokensGo :
    ∀ (ts : List (List Char)), (∀ t ∈ ts, tokOK t = true) →
    ∀ (cur : List Char), cur ≠ [] → (∀ c ∈ cur, isWsC c = false) →
    ∀ (q : Char),
    joinSpace (splitWSGo cur (joinTokensGo q ts)) =
      cur.reverse ++ joinTokensGo q ts := by
  intro ts
  induction ts with
  | nil =>
    intro _ cur hcur _ q
    rw [joinTokensGo, splitWSGo, if_neg hcur]
    simp [joinSpace]
  | cons u rest ih =>
    intro hok cur hcur hcws q
    have huok : tokOK u = true := hok u (by simp)
    have hune : u ≠ [] := tokOK_ne_nil u huok
    have huws : ∀ c ∈ u, isWsC c = false := tokOK_wsfree u huok
    have hrok : ∀ t ∈ rest, tokOK t = true := fun t ht => hok t (by simp [ht])
    rw [joinTokensGo]
    by_cases hat : (noSpaceBefore u || noSpaceAfter q) = true
    · rw [if_pos hat, splitWSGo_word u huws cur _]
      rw [ih hrok (u.reverse ++ cur) (by simp [hune])
            (by intro c hc
                rcases List.mem_append.mp hc with h1 | h2
                · exact huws c (List.mem_reverse.mp h1)
                · exact hcws c h2) (u.getLastD q)]
      simp [List.append_assoc]
    · rw [if_neg hat]
      simp only [splitWSGo]
      rw [if_pos (show isWsC ' ' = true from rfl), if_neg hcur]
      simp only [List.append_eq]
      rw [splitWSGo_word u huws [] _, List.append_nil]
      have hLne : splitWSGo u.reverse (joinTokensGo (u.getLastD q) rest) ≠ [] :=
        splitWSGo_ne_nil _ u.reverse (by simp [hune])
      rw [joinSpace_cons_ne _ _ hLne]
      rw [ih hrok u.reverse (by simp [hune])
            (fun c hc => huws c (List.mem_reverse.mp hc)) (u.getLastD q)]
      simp

/-- The output of `_join_tokens` on wellformed tokens is whitespace-normal:
`collapseWS` leaves it unchanged. -/
theorem collapseWS_joinTokens (ts : List (List Char))
    (h : ∀ t ∈ ts, tokOK t = true) :
    collapseWS (joinTokens ts) = joinTokens ts := by
  cases ts with
  | nil => rfl
  | cons t rest =>
    have htok : tokOK t = true := h t (by simp)
    have htne : t ≠ [] := tokOK_ne_nil t htok
    have htws : ∀ c ∈ t, isWsC c = false := tokOK_wsfree t htok
    rw [joinTokens, collapseWS, splitWS]
    rw [splitWSGo_word t htws [] _, List.append_nil]
    rw [joinSpace_splitWSGo_joinTokensGo rest
          (fun u hu => h u (by simp [hu])) t.reverse (by simp [htne])
          (fun c hc => htws c (List.mem_reverse.mp hc)) (t.getLastD ' ')]
    simp

/-! ### Tokenizer: `takeAlphaTok` computations and fuel irrelevance -/

theorem not_isAlphaC_of_isWsC (c : Char) (h : isWsC c = true) :
    isAlphaC c = false := by
  rw [Bool.eq_false_iff]
  intro ha
  rw [not_isWsC_of_isAlphaC c ha] at h
  cases h

theorem not_isDigitC_of_isWsC (c : Char) (h : isWsC c = true) :
    isDigitC c = false := by
  rw [Bool.eq_false_iff]
  intro hd
  rw [not_isWsC_of_isDigitC c hd] at h
  cases h

theorem not_isAlphaC_of_not_isWordC (c : Char) (h : isWordC c = false) :
    isAlphaC c = false := by
  rw [isWordC] at h
  rcases Bool.or_eq_false_iff.mp h with ⟨h1, _⟩
  exact Bool.or_eq_false_iff.mp h1 |>.1

theorem not_isDigitC_of_not_isWordC (c : Char) (h : isWordC c = false) :
    isDigitC c = false := by
  rw [isWordC] at h
  rcases Bool.or_eq_false_iff.mp h with ⟨h1, _⟩
  exact Bool.or_eq_false_iff.mp h1 |>.2

theorem takeAlphaTok_pure (A s : List Char) (hA : A ≠ [])
    (hall : A.all isAlphaC = true)
    (hs : ∀ c, s.head? = some c → isAlphaC c = false ∧ c ≠ '\'') :
    takeAlphaTok (A ++ s) = A := by
  have htw : (A ++ s).takeWhile isAlphaC = A := by
    rw [takeWhile_all_append _ _ _ hall]
    cases s with
    | nil => simp
    | cons c r =>
      have := hs c rfl
      simp [List.takeWhile_cons, this.1]
  rw [takeAlphaTok]
  simp only [htw, List.drop_left]
  cases s with
  | nil => simp
  | cons c r =>
    have hc := hs c rfl
    rw [List.head?_cons, if_neg (by simp [hc.2])]

theorem takeAlphaTok_apos (A B s : List Char) (hA : A ≠ []) (hB : B ≠ [])
    (haall : A.all isAlphaC = true) (hball : B.all isAlphaC = true)
    (hs : ∀ c, s.head? = some c → isAlphaC c = false) :
    takeAlphaTok (A ++ '\'' :: (B ++ s)) = A ++ '\'' :: B := by
  have htw : (A ++ '\'' :: (B ++ s)).takeWhile isAlphaC = A := by
    rw [takeWhile_all_append _ _ _ haall]
    simp [List.takeWhile_cons, isAlphaC]
  rw [takeAlphaTok]
  simp only [htw, List.drop_left, List.head?_cons, List.tail_cons]
  rw [if_pos trivial]
  have htwb : (B ++ s).takeWhile isAlphaC = B := by
    rw [takeWhile_all_append _ _ _ hball]
    cases s with
    | nil => simp
    | cons c r =>
      have := hs c rfl
      simp [List.takeWhile_cons, this]
  rw [htwb, if_neg hB]

theorem takeAlphaTok_length_pos (c : Char) (rest : List Char)
    (hc : isAlphaC c = true) : 1 ≤ (takeAlphaTok (c :: rest)).length := by
  rw [takeAlphaTok]
  have htw : (c :: rest).takeWhile isAlphaC = c :: rest.takeWhile isAlphaC := by
    simp [List.takeWhile_cons, hc]
  simp only [htw]
  split
  · split
    · simp
    · simp
  · simp

theorem length_takeWhile_le' (p : Char → Bool) (l : List Char) :
    (l.takeWhile p).length ≤ l.length := by
  induction l with
  | nil => simp
  | cons c r ih =>
    rw [List.takeWhile_cons]
    by_cases h : p c = true
    · rw [if_pos h]; simpa using ih
    · rw [if_neg h]; simp

theorem takeAlphaTok_length_le (s : List Char) :
    (takeAlphaTok s).length ≤ s.length := by
  rw [takeAlphaTok]
  set a := s.takeWhile isAlphaC with ha
  set r := s.drop a.length with hr
  have hsum : a.length + r.length = s.length := by
    have hsp : a ++ r = s := by
      rw [ha, hr, takeWhile_drop, List.takeWhile_append_dropWhile]
    calc a.length + r.length = (a ++ r).length := (List.length_append _ _).symm
    _ = s.length := by rw [hsp]
  by_cases hhd : r.head? = some '\''
  · rw [if_pos hhd]
    obtain ⟨r2, hr2⟩ : ∃ r2, r = '\'' :: r2 := by
      cases hc : r with
      | nil => rw [hc] at hhd; cases hhd
      | cons c r2 =>
        rw [hc, List.head?_cons, Option.some.injEq] at hhd
        exact ⟨r2, by rw [hhd]⟩
    by_cases hb : r.tail.takeWhile isAlphaC = []
    · rw [if_pos hb]
      omega
    · rw [if_neg hb]
      have hbl : (r.tail.takeWhile isAlphaC).length ≤ r.tail.length :=
        length_takeWhile_le' _ _
      have hrt : r.tail.length + 1 = r.length := by rw [hr2]; simp
      rw [List.length_append, List.length_cons]
      omega
  · rw [if_neg hhd]
    omega

theorem findTokensF_congr : ∀ (n m : Nat) (s : List Char),
    s.length ≤ n → s.length ≤ m → findTokensF n s = findTokensF m s := by
  intro n
  induction n with
  | zero =>
    intro m s hn _
    have hs : s = [] := List.length_eq_zero.mp (Nat.le_zero.mp hn)
    subst hs
    cases m with
    | zero => rfl
    | succ m2 => rfl
  | succ n2 ih =>
    intro m s hn hm
    cases s with
    | nil =>
      cases m with
      | zero => rfl
      | succ m2 => rfl
    | cons c rest =>
      cases m with
      | zero => exact absurd hm (by simp)
      | succ m2 =>
        rw [findTokensF, findTokensF]
        dsimp only
        simp only [List.length_cons] at hn hm
        by_cases h1 : isAlphaC c = true
        · rw [if_pos h1, if_pos h1]
          have hlen1 : 1 ≤ (takeAlphaTok (c :: rest)).length :=
            takeAlphaTok_length_pos c rest h1
          have hd : ((c :: rest).drop (takeAlphaTok (c :: rest)).length).length ≤
              rest.length := by
            rw [List.length_drop]
            simp only [List.length_cons]
            omega
          rw [ih m2 _ (by omega) (by omega)]
        · rw [if_neg h1, if_neg h1]
          by_cases h2 : isDigitC c = true
          · rw [if_pos h2, if_pos h2]
            have hlen1 : 1 ≤ ((c :: rest).takeWhile isDigitC).length := by
              simp [List.takeWhile_cons, h2]
            have hd : ((c :: rest).drop ((c :: rest).takeWhile isDigitC).length).length ≤
                rest.length := by
              rw [List.length_drop]
              simp only [List.length_cons]
              omega
            rw [ih m2 _ (by omega) (by omega)]
          · rw [if_neg h2, if_neg h2]
            by_cases h3 : (!isWordC c && !isWsC c) = true
            · rw [if_pos h3, if_pos h3, ih m2 rest (by omega) (by omega)]
            · rw [if_neg h3, if_neg h3]
              exact ih m2 rest (by omega) (by omega)

/-- One-step unfolding of `findTokens` with the fuel recomputed. -/
theorem findTokens_cons (c : Char) (rest : List Char) :
    findTokens (c :: rest) =
      if isAlphaC c then
        takeAlphaTok (c :: rest) ::
          findTokens ((c :: rest).drop (takeAlphaTok (c :: rest)).length)
      else if isDigitC c then
        (c :: rest).takeWhile isDigitC ::
          findTokens ((c :: rest).drop ((c :: rest).takeWhile isDigitC).length)
      else if !isWordC c && !isWsC c then [c] :: findTokens rest
      else findTokens rest := by
  have base : findTokens (c :: rest) = findTokensF (rest.length + 1) (c :: rest) := rfl
  rw [base, findTokensF]
  dsimp only
  by_cases h1 : isAlphaC c = true
  · rw [if_pos h1, if_pos h1]
    have hlen1 : 1 ≤ (takeAlphaTok (c :: rest)).length :=
      takeAlphaTok_length_pos c rest h1
    have hd : ((c :: rest).drop (takeAlphaTok (c :: rest)).length).length ≤
        rest.length := by
      rw [List.length_drop]
      simp only [List.length_cons]
      omega
    exact congrArg _ (findTokensF_congr rest.length _ _ hd (le_refl _))
  · rw [if_neg h1, if_neg h1]
    by_cases h2 : isDigitC c = true
    · rw [if_pos h2, if_pos h2]
      have hlen1 : 1 ≤ ((c :: rest).takeWhile isDigitC).length := by
        simp [List.takeWhile_cons, h2]
      have hd : ((c :: rest).drop ((c :: rest).takeWhile isDigitC).length).length ≤
          rest.length := by
        rw [List.length_drop]
        simp only [List.length_cons]
        omega
      exact congrArg _ (findTokensF_congr rest.length _ _ hd (le_refl _))
    · rw [if_neg h2, if_neg h2]
      by_cases h3 : (!isWordC c && !isWsC c) = true
      · rw [if_pos h3, if_pos h3]
        exact congrArg _ (findTokensF_congr rest.length _ _ (by simp) (le_refl _))
      · rw [if_neg h3, if_neg h3]
        exact findTokensF_congr rest.length _ _ (by simp) (le_refl _)

/-! ### Tokenizer round-trip over `_join_tokens` output -/

theorem findTokens_prepend_alpha (t s : List Char) (ht : isAlphaTok t = true)
    (hs : ∀ c, s.head? = some c → isAlphaC c = false ∧ c ≠ '\'') :
    findTokens (t ++ s) = t :: findTokens s := by
  rcases isAlphaTok_spec t ht with ⟨hne, hall⟩ |
      ⟨a, b, hdec, hane, hbne, haall, hball⟩
  · obtain ⟨c0, A0, rfl⟩ : ∃ c0 A0, t = c0 :: A0 := by
      cases t with
      | nil => exact absurd rfl hne
      | cons x xs => exact ⟨x, xs, rfl⟩
    have hc0 : isAlphaC c0 = true := List.all_eq_true.mp hall c0 (by simp)
    rw [List.cons_append, findTokens_cons, if_pos hc0, ← List.cons_append]
    rw [takeAlphaTok_pure (c0 :: A0) s (by simp) hall hs, List.drop_left]
  · subst hdec
    obtain ⟨c0, A0, rfl⟩ : ∃ c0 A0, a = c0 :: A0 := by
      cases a with
      | nil => exact absurd rfl hane
      | cons x xs => exact ⟨x, xs, rfl⟩
    have hc0 : isAlphaC c0 = true := List.all_eq_true.mp haall c0 (by simp)
    have hrw : ((c0 :: A0) ++ '\'' :: b) ++ s = c0 :: (A0 ++ '\'' :: (b ++ s)) := by
      simp
    rw [hrw, findTokens_cons, if_pos hc0]
    have htak : takeAlphaTok (c0 :: (A0 ++ '\'' :: (b ++ s))) =
        (c0 :: A0) ++ '\'' :: b := by
      rw [show c0 :: (A0 ++ '\'' :: (b ++ s)) = (c0 :: A0) ++ '\'' :: (b ++ s)
        from rfl]
      exact takeAlphaTok_apos (c0 :: A0) b s (by simp) hbne haall hball
        (fun c hc => (hs c hc).1)
    rw [htak]
    have hdrop : (c0 :: (A0 ++ '\'' :: (b ++ s))).drop
        ((c0 :: A0) ++ '\'' :: b).length = s := by
      rw [show c0 :: (A0 ++ '\'' :: (b ++ s)) = ((c0 :: A0) ++ '\'' :: b) ++ s
        by simp]
      exact List.drop_left _ _
    rw [hdrop]

theorem findTokens_prepend_digit (t s : List Char) (ht : isDigitTok t = true)
    (hs : ∀ c, s.head? = some c → isDigitC c = false) :
    findTokens (t ++ s) = t :: findTokens s := by
  rw [isDigitTok, Bool.and_eq_true, decide_eq_true_eq] at ht
  obtain ⟨hne, hall⟩ := ht
  obtain ⟨c0, A0, rfl⟩ : ∃ c0 A0, t = c0 :: A0 := by
    cases t with
    | nil => exact absurd rfl hne
    | cons x xs => exact ⟨x, xs, rfl⟩
  have hc0 : isDigitC c0 = true := List.all_eq_true.mp hall c0 (by simp)
  have hca : isAlphaC c0 = false := by
    rw [Bool.eq_false_iff]
    intro hA
    rw [not_isDigitC_of_isAlphaC c0 hA] at hc0
    cases hc0
  rw [List.cons_append, findTokens_cons, if_neg (by rw [hca]; simp),
    if_pos hc0, ← List.cons_append]
  have htw : ((c0 :: A0) ++ s).takeWhile isDigitC = c0 :: A0 := by
    rw [takeWhile_all_append _ _ _ hall]
    cases s with
    | nil => simp
    | cons c r =>
      have := hs c rfl
      simp [List.takeWhile_cons, this]
  rw [htw, List.drop_left]

theorem findTokens_prepend_punct (c : Char) (s : List Char)
    (h1 : isWordC c = false) (h2 : isWsC c = false) :
    findTokens (c :: s) = [c] :: findTokens s := by
  rw [findTokens_cons, if_neg (by rw [not_isAlphaC_of_not_isWordC c h1]; simp),
    if_neg (by rw [not_isDigitC_of_not_isWordC c h1]; simp),
    if_pos (by rw [h1, h2]; rfl)]

theorem findTokens_ws (c : Char) (s : List Char) (h : isWsC c = true) :
    findTokens (c :: s) = findTokens s := by
  rw [findTokens_cons, if_neg (by rw [not_isAlphaC_of_isWsC c h]; simp),
    if_neg (by rw [not_isDigitC_of_isWsC c h]; simp),
    if_neg (by rw [h]; simp)]

theorem getLastD_irrel (t : List Char) (h : t ≠ []) (a b : Char) :
    t.getLastD a = t.getLastD b := by
  cases t with
  | nil => exact absurd rfl h
  | cons c r => rw [List.getLastD_cons, List.getLastD_cons]

theorem joinTokensGo_ne_nil (ts : List (List Char)) (q : Char)
    (h : ∀ t ∈ ts, tokOK t = true) (hne : ts ≠ []) :
    joinTokensGo q ts ≠ [] := by
  cases ts with
  | nil => exact absurd rfl hne
  | cons u rest =>
    rw [joinTokensGo]
    have hune : u ≠ [] := tokOK_ne_nil u (h u (by simp))
    by_cases hat : (noSpaceBefore u || noSpaceAfter q) = true
    · rw [if_pos hat]
      simp [hune]
    · rw [if_neg hat]
      simp

/-- The first character of a `_join_tokens` tail is a space, a
no-space-before punctuation character, or follows an opening bracket. -/
theorem joinTokensGo_head (ts : List (List Char)) (q : Char)
    (h : ∀ t ∈ ts, tokOK t = true) (hq : noSpaceAfter q = false) :
    ∀ c, (joinTokensGo q ts).head? = some c →
      c = ' ' ∨ noSpaceBefore [c] = true := by
  intro c hc
  cases ts with
  | nil => cases hc
  | cons u rest =>
    rw [joinTokensGo] at hc
    have hune : u ≠ [] := tokOK_ne_nil u (h u (by simp))
    by_cases hat : (noSpaceBefore u || noSpaceAfter q) = true
    · rw [if_pos hat] at hc
      rw [hq] at hat
      simp only [Bool.or_false] at hat
      obtain ⟨c1, rfl⟩ : ∃ c1, u = [c1] := by
        cases u with
        | nil => exact absurd rfl hune
        | cons x xs =>
          cases xs with
          | nil => exact ⟨x, rfl⟩
          | cons y ys => simp [noSpaceBefore] at hat
      right
      rw [List.cons_append, List.head?_cons, Option.some.injEq] at hc
      rw [← hc]
      exact hat
    · rw [if_neg hat] at hc
      rw [List.cons_append, List.head?_cons, Option.some.injEq] at hc
      exact Or.inl hc.symm

theorem isPunctTok_spec (t : List Char) (h : isPunctTok t = true) :
    ∃ c, t = [c] ∧ isWordC c = false ∧ isWsC c = false := by
  cases t with
  | nil => cases h
  | cons c r =>
    cases r with
    | cons y ys => cases h
    | nil =>
      rw [isPunctTok, Bool.and_eq_true, Bool.not_eq_true', Bool.not_eq_true'] at h
      exact ⟨c, rfl, h.1, h.2⟩

theorem findTokens_joinTokensGo : ∀ (ts : List (List Char)) (q : Char),
    (∀ t ∈ ts, tokOK t = true) → findTokens (joinTokensGo q ts) = ts := by
  intro ts
  induction ts with
  | nil => intro q _; rfl
  | cons u rest ih =>
    intro q hok
    have huok : tokOK u = true := hok u (by simp)
    have hune : u ≠ [] := tokOK_ne_nil u huok
    have hrok : ∀ t ∈ rest, tokOK t = true := fun t ht => hok t (by simp [ht])
    rw [joinTokensGo]
    rw [tokOK, Bool.or_eq_true, Bool.or_eq_true] at huok
    rcases huok with (hal | hdi) | hpu
    · -- alpha token
      have hlast : isAlphaC (u.getLastD q) = true := isAlphaTok_last u hal q
      have hnsa : noSpaceAfter (u.getLastD q) = false :=
        noSpaceAfter_eq_false_of_isWordC _ (isWordC_of_isAlphaC _ hlast)
      have hsafe : ∀ c, (joinTokensGo (u.getLastD q) rest).head? = some c →
          isAlphaC c = false ∧ c ≠ '\'' := by
        intro c hc
        rcases joinTokensGo_head rest (u.getLastD q) hrok hnsa c hc with hsp | hnb
        · subst hsp
          exact ⟨by decide, by decide⟩
        · have := noSpaceBefore_char_facts c hnb
          exact ⟨this.2.2.1, this.2.2.2.2.1⟩
      by_cases hat : (noSpaceBefore u || noSpaceAfter q) = true
      · rw [if_pos hat, findTokens_prepend_alpha u _ hal hsafe, ih _ hrok]
      · rw [if_neg hat, List.cons_append,
          findTokens_ws ' ' _ (by decide),
          findTokens_prepend_alpha u _ hal hsafe, ih _ hrok]
    · -- digit token
      have hlast : isDigitC (u.getLastD q) = true := isDigitTok_last u hdi q
      have hnsa : noSpaceAfter (u.getLastD q) = false :=
        noSpaceAfter_eq_false_of_isWordC _ (isWordC_of_isDigitC _ hlast)
      have hsafe : ∀ c, (joinTokensGo (u.getLastD q) rest).head? = some c →
          isDigitC c = false := by
        intro c hc
        rcases joinTokensGo_head rest (u.getLastD q) hrok hnsa c hc with hsp | hnb
        · subst hsp
          decide
        · exact (noSpaceBefore_char_facts c hnb).2.2.2.1
      by_cases hat : (noSpaceBefore u || noSpaceAfter q) = true
      · rw [if_pos hat, findTokens_prepend_digit u _ hdi hsafe, ih _ hrok]
      · rw [if_neg hat, List.cons_append,
          findTokens_ws ' ' _ (by decide),
          findTokens_prepend_digit u _ hdi hsafe, ih _ hrok]
    · -- punctuation token
      obtain ⟨c1, rfl, hw, hws⟩ := isPunctTok_spec u hpu
      by_cases hat : (noSpaceBefore [c1] || noSpaceAfter q) = true
      · rw [if_pos hat, List.singleton_append,
          findTokens_prepend_punct c1 _ hw hws, ih _ hrok]
      · rw [if_neg hat, List.cons_append, List.singleton_append,
          findTokens_ws ' ' _ (by decide),
          findTokens_prepend_punct c1 _ hw hws, ih _ hrok]

/-- `_TOKEN_RE.findall` inverts `_join_tokens` on wellformed token lists. -/
theorem findTokens_joinTokens (ts : List (List Char))
    (h : ∀ t ∈ ts, tokOK t = true) : findTokens (joinTokens ts) = ts := by
  cases ts with
  | nil => rfl
  | cons t rest =>
    have htne : t ≠ [] := tokOK_ne_nil t (h t (by simp))
    have heq : joinTokens (t :: rest) = joinTokensGo '(' (t :: rest) := by
      rw [joinTokens, joinTokensGo,
        if_pos (by rw [show noSpaceAfter '(' = true from rfl]; simp),
        getLastD_irrel t htne ' ' '(']
    rw [heq]
    exact findTokens_joinTokensGo (t :: rest) '(' h

/-! ### `_normalize_course_codes` scanner: stepping lemmas -/

theorem tryCCAt_congr (p1 p2 : Option Char) (s : List Char)
    (h : (match p1 with | none => true | some p => !isWordC p) =
         (match p2 with | none => true | some p => !isWordC p)) :
    tryCCAt p1 s = tryCCAt p2 s := by
  rw [tryCCAt.eq_def, tryCCAt.eq_def, h]

theorem tryCCAt_none_of_word (p : Char) (s : List Char)
    (hp : isWordC p = true) : tryCCAt (some p) s = none := by
  rw [tryCCAt.eq_def]
  simp only [hp]
  rfl

theorem tryCCAt_none_of_not_alpha (prev : Option Char) (c : Char)
    (rest : List Char) (hc : isAlphaC c = false) :
    tryCCAt prev (c :: rest) = none := by
  rw [tryCCAt.eq_def]
  by_cases hb : (match prev with | none => true | some p => !isWordC p) = true
  · simp only [hb, Bool.not_true, if_false]
    have hrun : (c :: rest).takeWhile isAlphaC = [] := by
      simp [List.takeWhile_cons, hc]
    simp only [hrun, List.length_nil]
    simp
  · rw [Bool.not_eq_true] at hb
    simp only [hb]
    rfl

theorem nccGo_step_none (prev : Option Char) (c : Char) (rest : List Char)
    (h : tryCCAt prev (c :: rest) = none) :
    nccGo 0 prev (c :: rest) = c :: nccGo 0 (some c) rest := by
  rw [nccGo, h]

theorem nccGo_prev_congr (p1 p2 : Option Char) (s : List Char)
    (h : (match p1 with | none => true | some p => !isWordC p) =
         (match p2 with | none => true | some p => !isWordC p)) :
    nccGo 0 p1 s = nccGo 0 p2 s := by
  cases s with
  | nil => rfl
  | cons c rest =>
    rw [nccGo, nccGo, tryCCAt_congr p1 p2 (c :: rest) h]

theorem nccGo_skip : ∀ (u : List Char) (p : Option Char) (s : List Char),
    u ≠ [] → nccGo u.length p (u ++ s) = nccGo 0 (some (u.getLastD ' ')) s := by
  intro u
  induction u with
  | nil => intro p s h; exact absurd rfl h
  | cons a u2 ih =>
    intro p s _
    rw [List.length_cons, List.cons_append, nccGo]
    cases hu : u2 with
    | nil => rfl
    | cons b u3 =>
      rw [← hu, ih (some a) s (by rw [hu]; simp), List.getLastD_cons,
        getLastD_irrel u2 (by rw [hu]; simp) a ' ']

theorem nccGo_emit_nonalpha :
    ∀ (u : List Char) (prev : Option Char) (s : List Char), u ≠ [] →
    (∀ c ∈ u, isAlphaC c = false) →
    nccGo 0 prev (u ++ s) = u ++ nccGo 0 (some (u.getLastD ' ')) s := by
  intro u
  induction u with
  | nil => intro prev s h _; exact absurd rfl h
  | cons a u2 ih =>
    intro prev s _ hall
    rw [List.cons_append,
      nccGo_step_none prev a _ (tryCCAt_none_of_not_alpha prev a _
        (hall a (by simp)))]
    cases hu : u2 with
    | nil => rfl
    | cons b u3 =>
      rw [← hu, ih (some a) s (by rw [hu]; simp)
          (fun c hc => hall c (by simp [hc])),
        List.getLastD_cons, getLastD_irrel u2 (by rw [hu]; simp) a ' ',
        List.cons_append]

theorem nccGo_emit_alpharun :
    ∀ (A : List Char) (prev : Option Char) (s : List Char), A ≠ [] →
    A.all isAlphaC = true → tryCCAt prev (A ++ s) = none →
    nccGo 0 prev (A ++ s) = A ++ nccGo 0 (some (A.getLastD ' ')) s := by
  intro A
  induction A with
  | nil => intro prev s h _ _; exact absurd rfl h
  | cons a A2 ih =>
    intro prev s _ hall hnone
    rw [List.cons_append] at hnone
    rw [List.cons_append, nccGo_step_none prev a _ hnone]
    cases hA : A2 with
    | nil => rfl
    | cons b A3 =>
      have ha : isAlphaC a = true := by
        rw [List.all_cons, Bool.and_eq_true] at hall
        exact hall.1
      rw [← hA, ih (some a) s (by rw [hA]; simp)
          (by rw [List.all_cons, Bool.and_eq_true] at hall; exact hall.2)
          (tryCCAt_none_of_word a _ (isWordC_of_isAlphaC a ha)),
        List.getLastD_cons, getLastD_irrel A2 (by rw [hA]; simp) a ' ',
        List.cons_append]

theorem nccGo_match (prev : Option Char) (c : Char) (rest : List Char)
    (out : List Char) (len : Nat) (u s2 : List Char)
    (h : tryCCAt prev (c :: rest) = some (out, len))
    (hrest : rest = u ++ s2) (hlen : u.length = len - 1) (hu : u ≠ []) :
    nccGo 0 prev (c :: rest) = out ++ nccGo 0 (some (u.getLastD ' ')) s2 := by
  rw [nccGo, h, hrest]
  dsimp only
  rw [← hlen, nccGo_skip u (some c) s2 hu]

/-! ### Evaluating `tryCCAt` at a letter run -/

theorem tryCCAt_run_guardfail (p : Option Char) (seg s : List Char)
    (hall : seg.all isAlphaC = true)
    (hsh : ∀ c, s.head? = some c → isAlphaC c = false)
    (hguard : ¬(2 ≤ seg.length ∧ seg.length ≤ 5)) :
    tryCCAt p (seg ++ s) = none := by
  rw [tryCCAt.eq_def]
  have hrun : (seg ++ s).takeWhile isAlphaC = seg := by
    rw [takeWhile_all_append _ _ _ hall]
    cases s with
    | nil => simp
    | cons c r =>
      have := hsh c rfl
      simp [List.takeWhile_cons, this]
  by_cases hb : (match p with | none => true | some q => !isWordC q) = true
  · simp only [hb, Bool.not_true, if_false, hrun]
    rw [if_neg hguard]
    simp
  · rw [Bool.not_eq_true] at hb
    simp only [hb]
    rfl

theorem tryCCAt_run_eval (p : Option Char) (seg s : List Char)
    (hb : (match p with | none => true | some q => !isWordC q) = true)
    (hall : seg.all isAlphaC = true)
    (hsh : ∀ c, s.head? = some c → isAlphaC c = false)
    (hguard : 2 ≤ seg.length ∧ seg.length ≤ 5) :
    tryCCAt p (seg ++ s) =
      (match ccDigitTail ((s.drop (s.takeWhile isWsC).length).drop
          ((if (s.drop (s.takeWhile isWsC).length).head? = some '-' then 1 else 0) +
            (((s.drop (s.takeWhile isWsC).length).drop
              (if (s.drop (s.takeWhile isWsC).length).head? = some '-' then 1
               else 0)).takeWhile isWsC).length)) with
      | some (dl, grp2) =>
        if COURSE_PREFIXES.contains ⟨upperL seg⟩ then
          some (upperL seg ++ ' ' :: upperL grp2,
            seg.length + (s.takeWhile isWsC).length +
              (if (s.drop (s.takeWhile isWsC).length).head? = some '-' then 1 else 0) +
              (((s.drop (s.takeWhile isWsC).length).drop
                (if (s.drop (s.takeWhile isWsC).length).head? = some '-' then 1
                 else 0)).takeWhile isWsC).length + dl)
        else
          some ((seg ++ s).take
            (seg.length + (s.takeWhile isWsC).length +
              (if (s.drop (s.takeWhile isWsC).length).head? = some '-' then 1 else 0) +
              (((s.drop (s.takeWhile isWsC).length).drop
                (if (s.drop (s.takeWhile isWsC).length).head? = some '-' then 1
                 else 0)).takeWhile isWsC).length + dl),
            seg.length + (s.takeWhile isWsC).length +
              (if (s.drop (s.takeWhile isWsC).length).head? = some '-' then 1 else 0) +
              (((s.drop (s.takeWhile isWsC).length).drop
                (if (s.drop (s.takeWhile isWsC).length).head? = some '-' then 1
                 else 0)).takeWhile isWsC).length + dl)
      | none => none) := by
  rw [tryCCAt.eq_def]
  have hrun : (seg ++ s).takeWhile isAlphaC = seg := by
    rw [takeWhile_all_append _ _ _ hall]
    cases s with
    | nil => simp
    | cons c r =>
      have := hsh c rfl
      simp [List.takeWhile_cons, this]
  simp only [hb, Bool.not_true, if_false, hrun, if_pos hguard, List.drop_left,
    List.drop_drop, Bool.false_eq_true, Nat.add_assoc]

/-! ### `ccDigitTail` evaluations and digit facts -/

theorem isDigitC_ne_dash (c : Char) (h : isDigitC c = true) : c ≠ '-' := by
  intro he
  rw [isDigitC_iff] at h
  rw [char_eq_iff] at he
  have e0 : ('-' : Char).toNat = 45 := rfl
  rw [e0] at he
  omega

theorem upperC_digit (c : Char) (h : isDigitC c = true) : upperC c = c := by
  apply char_toNat_inj
  rw [toNat_upperC]
  rw [isDigitC_iff] at h
  rw [if_neg (by omega)]

theorem upperL_digits (v : List Char) (h : v.all isDigitC = true) :
    upperL v = v := by
  rw [upperL]
  have := List.map_congr_left
    (fun c hc => upperC_digit c (List.all_eq_true.mp h c hc))
  rw [this]
  simp

theorem noSpaceBefore_nil : noSpaceBefore [] = false := rfl

theorem noSpaceBefore_long (x y : Char) (r : List Char) :
    noSpaceBefore (x :: y :: r) = false := rfl

theorem ccDigitTail_nil : ccDigitTail [] = none := rfl

theorem ccDigitTail_none_head (d : Char) (t : List Char)
    (h : isDigitC d = false) : ccDigitTail (d :: t) = none := by
  cases t with
  | nil => rfl
  | cons x r =>
    cases r with
    | nil => rfl
    | cons y r2 =>
      cases r2 with
      | nil => rw [ccDigitTail.eq_1, if_neg (by rw [h]; simp)]
      | cons z r3 => rw [ccDigitTail.eq_2, if_neg (by rw [h]; simp)]

theorem ccDigitTail_one (d1 : Char) (after : List Char)
    (h : ∀ c, after.head? = some c → isDigitC c = false) :
    ccDigitTail (d1 :: after) = none := by
  cases after with
  | nil => rfl
  | cons x r =>
    have hx := h x rfl
    cases r with
    | nil => rfl
    | cons y r2 =>
      cases r2 with
      | nil => rw [ccDigitTail.eq_1, if_neg (by rw [hx]; simp)]
      | cons z r3 => rw [ccDigitTail.eq_2, if_neg (by rw [hx]; simp)]

theorem ccDigitTail_two (d1 d2 : Char) (after : List Char)
    (h : ∀ c, after.head? = some c → isDigitC c = false) :
    ccDigitTail (d1 :: d2 :: after) = none := by
  cases after with
  | nil => rfl
  | cons x r =>
    have hx := h x rfl
    cases r with
    | nil => rw [ccDigitTail.eq_1, if_neg (by rw [hx]; simp)]
    | cons y r2 => rw [ccDigitTail.eq_2, if_neg (by rw [hx]; simp)]

theorem ccDigitTail_digit3 (d1 d2 d3 : Char) (after : List Char)
    (h1 : isDigitC d1 = true) (h2 : isDigitC d2 = true)
    (h3 : isDigitC d3 = true)
    (h : ∀ c, after.head? = some c → isAlphaC c = false ∧ isWordC c = false) :
    ccDigitTail (d1 :: d2 :: d3 :: after) = some (3, [d1, d2, d3]) := by
  cases after with
  | nil => rw [ccDigitTail.eq_1, if_pos (by rw [h1, h2, h3]; rfl)]
  | cons c r =>
    have hc := h c rfl
    rw [ccDigitTail.eq_2, if_pos (by rw [h1, h2, h3]; rfl),
      if_neg (by rw [hc.1]; simp), if_neg (by rw [hc.2]; simp)]

theorem not_isAlphaC_of_isDigitC (c : Char) (h : isDigitC c = true) :
    isAlphaC c = false := by
  rw [Bool.eq_false_iff]
  intro ha
  rw [not_isDigitC_of_isAlphaC c ha] at h
  cases h

theorem ccDigitTail_four (d1 d2 d3 d4 : Char) (r : List Char)
    (h1 : isDigitC d1 = true) (h2 : isDigitC d2 = true)
    (h3 : isDigitC d3 = true) (h4 : isDigitC d4 = true) :
    ccDigitTail (d1 :: d2 :: d3 :: d4 :: r) = none := by
  rw [ccDigitTail.eq_2, if_pos (by rw [h1, h2, h3]; rfl),
    if_neg (by rw [not_isAlphaC_of_isDigitC d4 h4]; simp),
    if_pos (isWordC_of_isDigitC d4 h4)]

/-! ### More scanner helpers -/

theorem tryCCAt_none_of_boundary_false (p : Option Char) (s : List Char)
    (h : (match p with | none => true | some q => !isWordC q) = false) :
    tryCCAt p s = none := by
  rw [tryCCAt.eq_def]
  simp only [h]
  rfl

theorem tryCCAt_apos_short (p : Option Char) (A x : List Char)
    (haall : A.all isAlphaC = true) :
    tryCCAt p (A ++ '\'' :: x) = none := by
  by_cases hb : (match p with | none => true | some q => !isWordC q) = true
  · by_cases hg : 2 ≤ A.length ∧ A.length ≤ 5
    · rw [tryCCAt_run_eval p A ('\'' :: x) hb haall
        (fun c hc => by injection hc with h2; rw [← h2]; decide) hg]
      have hws : ('\'' :: x).takeWhile isWsC = [] := by
        simp [List.takeWhile_cons, show isWsC '\'' = false from rfl]
      simp only [hws, List.length_nil, List.drop_zero, List.head?_cons]
      rw [if_neg (show ¬(some '\'' = some '-') by decide)]
      simp only [hws, List.length_nil, List.drop_zero, Nat.add_zero,
        Nat.zero_add]
      rw [ccDigitTail_none_head '\'' x (by decide)]
    · exact tryCCAt_run_guardfail p A ('\'' :: x) haall
        (fun c hc => by injection hc with h2; rw [← h2]; decide) hg
  · exact tryCCAt_none_of_boundary_false p _ (Bool.not_eq_true _ ▸ hb)

theorem nccGo_alpha_apos (A seg : List Char) (p : Option Char) (S : List Char)
    (hA : A ≠ []) (haall : A.all isAlphaC = true) :
    nccGo 0 p ((A ++ '\'' :: seg) ++ S) =
      A ++ '\'' :: nccGo 0 (some '\'') (seg ++ S) := by
  have hshape : (A ++ '\'' :: seg) ++ S = A ++ ('\'' :: (seg ++ S)) := by simp
  rw [hshape, nccGo_emit_alpharun A p _ hA haall
      (tryCCAt_apos_short p A (seg ++ S) haall)]
  rw [nccGo_step_none _ '\'' _ (tryCCAt_none_of_not_alpha _ '\'' _ (by decide))]

theorem takeWhile_ws_cons_space (x : List Char) :
    (' ' :: x).takeWhile isWsC = ' ' :: x.takeWhile isWsC := by
  simp [List.takeWhile_cons, show isWsC ' ' = true from rfl]

theorem takeWhile_ws_nil_of_head (x : List Char)
    (h : ∀ c, x.head? = some c → isWsC c = false) :
    x.takeWhile isWsC = [] := by
  cases x with
  | nil => rfl
  | cons c r =>
    have := h c rfl
    simp [List.takeWhile_cons, this]

theorem head?_append_of_ne_nil (v y : List Char) (h : v ≠ []) :
    (v ++ y).head? = v.head? := by
  cases v with
  | nil => exact absurd rfl h
  | cons c r => rfl

theorem take_len_append (a b : List Char) (k : Nat) :
    (a ++ b).take (a.length + k) = a ++ b.take k := by
  induction a with
  | nil => simp
  | cons c r ih =>
    rw [List.cons_append, List.length_cons]
    rw [show r.length + 1 + k = (r.length + k) + 1 by omega]
    rw [List.take_succ_cons, ih, List.cons_append]

theorem noSpaceBefore_of_len2 (v : List Char) (h : 2 ≤ v.length) :
    noSpaceBefore v = false := by
  cases v with
  | nil => simp at h
  | cons x r =>
    cases r with
    | nil => simp at h
    | cons y r2 => exact noSpaceBefore_long x y r2

theorem nsa_not_word (q : Char) (h : noSpaceAfter q = true) :
    isWordC q = false := by
  rw [noSpaceAfter] at h
  simp only [Bool.or_eq_true, decide_eq_true_eq, char_eq_iff] at h
  have e1 : ('(' : Char).toNat = 40 := rfl
  have e2 : ('[' : Char).toNat = 91 := rfl
  have e3 : ('\x7b' : Char).toNat = 123 := rfl
  rw [e1, e2, e3] at h
  rw [Bool.eq_false_iff]
  intro hw
  rw [isWordC_iff] at hw
  omega

theorem getLastD_map (f : Char → Char) (v : List Char) (h : v ≠ [])
    (x y : Char) : (v.map f).getLastD x = f (v.getLastD y) := by
  induction v generalizing x y with
  | nil => exact absurd rfl h
  | cons c r ih =>
    rw [List.map_cons, List.getLastD_cons, List.getLastD_cons]
    cases hr : r with
    | nil => rfl
    | cons d r2 =>
      rw [← hr, ih (by rw [hr]; simp) (f c) c]

theorem isAlphaTok_head (t : List Char) (h : isAlphaTok t = true) :
    ∀ c, t.head? = some c → isAlphaC c = true := by
  intro c hc
  rcases isAlphaTok_spec t h with ⟨hne, hall⟩ |
      ⟨a, b, hdec, hane, hbne, haall, hball⟩
  · cases t with
    | nil => cases hc
    | cons x r =>
      rw [List.head?_cons, Option.some.injEq] at hc
      rw [← hc]
      exact List.all_eq_true.mp hall x (by simp)
  · subst hdec
    cases ha : a with
    | nil => exact absurd ha hane
    | cons x r =>
      rw [ha, List.cons_append, List.head?_cons, Option.some.injEq] at hc
      rw [← hc]
      exact List.all_eq_true.mp haall x (by rw [ha]; simp)

theorem isDigitTok3_spec (v : List Char) (h : isDigitTok3 v = true) :
    ∃ d1 d2 d3, v = [d1, d2, d3] ∧ isDigitC d1 = true ∧ isDigitC d2 = true ∧
      isDigitC d3 = true := by
  rw [isDigitTok3, Bool.and_eq_true, decide_eq_true_eq] at h
  obtain ⟨hlen, hall⟩ := h
  match v, hlen with
  | [d1, d2, d3], _ =>
    rw [List.all_cons, List.all_cons, List.all_cons] at hall
    simp only [Bool.and_eq_true] at hall
    exact ⟨d1, d2, d3, rfl, hall.1, hall.2.1, hall.2.2.1⟩

/-! ### `nccTok` branch equations -/

set_option maxHeartbeats 1600000 in
theorem nccTok_nil : nccTok [] = [] := by
  rw [nccTok]

theorem nccTok_single (t : List Char) : nccTok [t] = [t] := by
  rw [nccTok]


theorem nccTok_cons_nonalpha (t d : List Char) (rest2 : List (List Char))
    (h : alphaSeg t = none) :
    nccTok (t :: d :: rest2) = t :: nccTok (d :: rest2) := by
  rw [nccTok]
  simp only [h]

theorem nccTok_cons_guardfail (t d pre seg : List Char)
    (rest2 : List (List Char)) (h : alphaSeg t = some (pre, seg))
    (hg : ¬(2 ≤ seg.length ∧ seg.length ≤ 5)) :
    nccTok (t :: d :: rest2) = t :: nccTok (d :: rest2) := by
  rw [nccTok]
  simp only [h]
  rw [if_neg hg]

theorem nccTok_cons_digit3 (t d pre seg : List Char)
    (rest2 : List (List Char)) (h : alphaSeg t = some (pre, seg))
    (hg : 2 ≤ seg.length ∧ seg.length ≤ 5) (hd : isDigitTok3 d = true) :
    nccTok (t :: d :: rest2) =
      (if COURSE_PREFIXES.contains (⟨upperL seg⟩ : String) then pre ++ upperL seg
       else t) :: d :: nccTok rest2 := by
  rw [nccTok]
  simp only [h]
  rw [if_pos hg, if_pos hd]

theorem nccTok_cons_notd3_nodash (t d pre seg : List Char)
    (rest2 : List (List Char)) (h : alphaSeg t = some (pre, seg))
    (hg : 2 ≤ seg.length ∧ seg.length ≤ 5) (hd : isDigitTok3 d = false)
    (hdd : d ≠ ['-']) :
    nccTok (t :: d :: rest2) = t :: nccTok (d :: rest2) := by
  rw [nccTok]
  simp only [h]
  rw [if_pos hg, if_neg (by rw [hd]; simp), if_neg hdd]

theorem nccTok_cons_dash_nil (t pre seg : List Char)
    (h : alphaSeg t = some (pre, seg))
    (hg : 2 ≤ seg.length ∧ seg.length ≤ 5) :
    nccTok (t :: ['-'] :: []) = [t, ['-']] := by
  rw [nccTok]
  simp only [h]
  rw [if_pos hg, if_neg (by decide), if_pos trivial]

theorem nccTok_cons_dash_d3 (t d2 pre seg : List Char)
    (rest3 : List (List Char)) (h : alphaSeg t = some (pre, seg))
    (hg : 2 ≤ seg.length ∧ seg.length ≤ 5) (hd2 : isDigitTok3 d2 = true) :
    nccTok (t :: ['-'] :: d2 :: rest3) =
      if COURSE_PREFIXES.contains (⟨upperL seg⟩ : String) then
        (pre ++ upperL seg) :: d2 :: nccTok rest3
      else t :: ['-'] :: d2 :: nccTok rest3 := by
  rw [nccTok]
  simp only [h]
  rw [if_pos hg, if_neg (by decide), if_pos trivial]
  simp only [hd2, if_true]

theorem nccTok_cons_dash_nd3 (t d2 pre seg : List Char)
    (rest3 : List (List Char)) (h : alphaSeg t = some (pre, seg))
    (hg : 2 ≤ seg.length ∧ seg.length ≤ 5) (hd2 : isDigitTok3 d2 = false) :
    nccTok (t :: ['-'] :: d2 :: rest3) = t :: ['-'] :: nccTok (d2 :: rest3) := by
  rw [nccTok]
  simp only [h]
  rw [if_pos hg, if_neg (by decide), if_pos trivial]
  simp only [hd2, Bool.false_eq_true, if_false]

/-! ### Scanning one token of a join -/

theorem alphaSeg_of_isAlphaTok (t : List Char) (h : isAlphaTok t = true) :
    ∃ pre seg, alphaSeg t = some (pre, seg) := by
  have := alphaSeg_isSome t h
  cases ha : alphaSeg t with
  | none => rw [ha] at this; cases this
  | some v =>
    obtain ⟨a, b⟩ := v
    exact ⟨a, b, rfl⟩

theorem noSpaceBefore_alpha (t : List Char) (h : isAlphaTok t = true) :
    noSpaceBefore t = false := by
  cases t with
  | nil => rfl
  | cons c r =>
    cases r with
    | cons y ys => exact noSpaceBefore_long c y ys
    | nil =>
      have hc : isAlphaC c = true := isAlphaTok_head [c] h c rfl
      rw [Bool.eq_false_iff]
      intro hn
      rw [(noSpaceBefore_char_facts c hn).2.2.1] at hc
      cases hc

theorem seg_getLastD_eq (t pre seg : List Char)
    (h : alphaSeg t = some (pre, seg)) (x y : Char) :
    t.getLastD x = seg.getLastD y := by
  rcases alphaSeg_spec t pre seg h with ⟨_, heq, hne, _⟩ |
      ⟨a, _, heq, _, _, hne, _⟩
  · rw [heq]
    exact getLastD_irrel seg hne x y
  · rw [heq, getLastD_append_cons, List.getLastD_cons]
    exact getLastD_irrel seg hne '\'' y

/-- Scan one token whose letter segment does not start a course-code match:
the token is emitted unchanged. -/
theorem scan_token_emit (t : List Char) (p : Option Char) (S : List Char)
    (hok : tokOK t = true)
    (hb : isAlphaTok t = true →
      (match p with | none => true | some q => !isWordC q) = true)
    (hnone : ∀ pre seg, alphaSeg t = some (pre, seg) →
      tryCCAt none (seg ++ S) = none) :
    nccGo 0 p (t ++ S) = t ++ nccGo 0 (some (t.getLastD ' ')) S := by
  rw [tokOK, Bool.or_eq_true, Bool.or_eq_true] at hok
  rcases hok with (hal | hdi) | hpu
  · obtain ⟨pre, seg, hseg⟩ := alphaSeg_of_isAlphaTok t hal
    have hb2 := hb hal
    have hnone2 := hnone pre seg hseg
    rcases alphaSeg_spec t pre seg hseg with ⟨hpre, heq, hne, hall⟩ |
        ⟨a, hpre, heq, hane, haall, hne, hall⟩
    · subst heq
      rw [nccGo_emit_alpharun t p S hne hall
          (by rw [tryCCAt_congr p none _ (by rw [hb2])]; exact hnone2)]
    · subst heq
      rw [nccGo_alpha_apos a seg p S hane haall]
      rw [nccGo_emit_alpharun seg (some '\'') S hne hall
          (by rw [tryCCAt_congr (some '\'') none _ (by decide)]; exact hnone2)]
      rw [getLastD_append_cons, List.getLastD_cons,
        getLastD_irrel seg hne '\'' ' ']
      simp
  · have hne : t ≠ [] := by
      rw [isDigitTok, Bool.and_eq_true, decide_eq_true_eq] at hdi
      exact hdi.1
    rw [nccGo_emit_nonalpha t p S hne]
    intro c hc
    rw [isDigitTok, Bool.and_eq_true] at hdi
    exact not_isAlphaC_of_isDigitC c (List.all_eq_true.mp hdi.2 c hc)
  · obtain ⟨c1, rfl, hw, _⟩ := isPunctTok_spec t hpu
    rw [nccGo_emit_nonalpha [c1] p S (by simp)]
    intro c hc
    rcases List.mem_singleton.mp hc with rfl
    exact not_isAlphaC_of_not_isWordC c hw

/-- Scan one token whose letter segment starts a course-code match consuming
`seg ++ w`: the match output replaces the segment and the scan resumes after
the consumed text. -/
theorem scan_token_match (t pre seg w S2 out : List Char) (p : Option Char)
    (hseg : alphaSeg t = some (pre, seg))
    (hb : (match p with | none => true | some q => !isWordC q) = true)
    (hw : w ≠ [])
    (hma : tryCCAt none (seg ++ (w ++ S2)) = some (out, seg.length + w.length)) :
    nccGo 0 p (t ++ (w ++ S2)) =
      pre ++ out ++ nccGo 0 (some (w.getLastD ' ')) S2 := by
  obtain ⟨w0, w1, rfl⟩ : ∃ w0 w1, w = w0 :: w1 := by
    cases w with
    | nil => exact absurd rfl hw
    | cons a b => exact ⟨a, b, rfl⟩
  have hcore : ∀ (p2 : Option Char),
      (match p2 with | none => true | some q => !isWordC q) = true →
      nccGo 0 p2 (seg ++ ((w0 :: w1) ++ S2)) =
        out ++ nccGo 0 (some ((w0 :: w1).getLastD ' ')) S2 := by
    intro p2 hb2
    have hma2 : tryCCAt p2 (seg ++ ((w0 :: w1) ++ S2)) =
        some (out, seg.length + (w0 :: w1).length) := by
      rw [tryCCAt_congr p2 none _ (by rw [hb2])]
      exact hma
    have hsegne : seg ≠ [] := by
      rcases alphaSeg_spec t pre seg hseg with ⟨_, _, hne, _⟩ |
          ⟨a, _, _, _, _, hne, _⟩ <;> exact hne
    obtain ⟨c0, seg1, rfl⟩ : ∃ c0 seg1, seg = c0 :: seg1 := by
      cases seg with
      | nil => exact absurd rfl hsegne
      | cons a b => exact ⟨a, b, rfl⟩
    rw [List.cons_append]
    rw [nccGo_match p2 c0 _ out (( c0 :: seg1).length + (w0 :: w1).length)
        (seg1 ++ w0 :: w1) S2 (by rw [← List.cons_append]; exact hma2)
        (by simp [List.length_append]; try omega)
        (by simp [List.length_append]; try omega)
        (by simp)]
    rw [getLastD_append_cons]
  rcases alphaSeg_spec t pre seg hseg with ⟨hpre, heq, hne, hall⟩ |
      ⟨a, hpre, heq, hane, haall, hne, hall⟩
  · subst heq
    rw [hcore p hb, hpre]
    simp
  · subst heq

    rw [show (a ++ '\'' :: seg) ++ ((w0 :: w1) ++ S2) =
        a ++ '\'' :: (seg ++ ((w0 :: w1) ++ S2)) by simp] at *
    rw [show a ++ '\'' :: (seg ++ (w0 :: w1 ++ S2)) =
        (a ++ '\'' :: seg) ++ (w0 :: w1 ++ S2) by simp]
    rw [nccGo_alpha_apos a seg p _ hane haall]
    rw [hcore (some '\'') (by decide), hpre]
    try simp

/-! ### `tryCCAt` outcomes for the shapes `_join_tokens` produces -/

theorem tryCC_eval_nil (seg : List Char) (hall : seg.all isAlphaC = true)
    (hg : 2 ≤ seg.length ∧ seg.length ≤ 5) :
    tryCCAt none (seg ++ []) = none := by
  rw [tryCCAt_run_eval none seg [] rfl hall (fun c hc => by cases hc) hg]
  rfl

theorem tryCC_eval_attached (seg : List Char) (c1 : Char) (S2 : List Char)
    (hall : seg.all isAlphaC = true)
    (hg : 2 ≤ seg.length ∧ seg.length ≤ 5)
    (hc1 : isAlphaC c1 = false) (hws : isWsC c1 = false) (hd : c1 ≠ '-')
    (hcc : ccDigitTail (c1 :: S2) = none) :
    tryCCAt none (seg ++ (c1 :: S2)) = none := by
  rw [tryCCAt_run_eval none seg (c1 :: S2) rfl hall
      (fun c hc => by injection hc with h2; rw [← h2]; exact hc1) hg]
  have ht : (c1 :: S2).takeWhile isWsC = [] := by
    simp [List.takeWhile_cons, hws]
  simp only [ht, List.length_nil, List.drop_zero, List.head?_cons]
  rw [if_neg (by simp [hd])]
  simp only [ht, List.length_nil, List.drop_zero, Nat.add_zero, Nat.zero_add]
  rw [hcc]

theorem tryCC_eval_spaced_none (seg : List Char) (X : List Char)
    (hall : seg.all isAlphaC = true)
    (hg : 2 ≤ seg.length ∧ seg.length ≤ 5)
    (hX : ∀ c, X.head? = some c → isWsC c = false ∧ c ≠ '-')
    (hcc : ccDigitTail X = none) :
    tryCCAt none (seg ++ (' ' :: X)) = none := by
  rw [tryCCAt_run_eval none seg (' ' :: X) rfl hall
      (fun c hc => by injection hc with h2; rw [← h2]; decide) hg]
  have ht : (' ' :: X).takeWhile isWsC = [' '] := by
    rw [takeWhile_ws_cons_space,
      takeWhile_ws_nil_of_head X (fun c hc => (hX c hc).1)]
  simp only [ht, List.length_cons, List.length_nil, List.drop_succ_cons,
    List.drop_zero]
  rw [if_neg (by
    cases hXc : X with
    | nil => simp
    | cons c r =>
      rw [List.head?_cons]
      have := hX c (by rw [hXc]; rfl)
      simp [this.2])]
  simp only [Nat.zero_add, Nat.add_zero, List.drop_zero,
    takeWhile_ws_nil_of_head X (fun c hc => (hX c hc).1), List.length_nil]
  rw [hcc]

theorem tryCC_eval_spaced_match (seg : List Char) (X grp : List Char)
    (hall : seg.all isAlphaC = true)
    (hg : 2 ≤ seg.length ∧ seg.length ≤ 5)
    (hX : ∀ c, X.head? = some c → isWsC c = false ∧ c ≠ '-')
    (hcc : ccDigitTail X = some (3, grp)) :
    tryCCAt none (seg ++ (' ' :: X)) =
      if COURSE_PREFIXES.contains (⟨upperL seg⟩ : String) then
        some (upperL seg ++ ' ' :: upperL grp, seg.length + 4)
      else some ((seg ++ (' ' :: X)).take (seg.length + 4), seg.length + 4) := by
  rw [tryCCAt_run_eval none seg (' ' :: X) rfl hall
      (fun c hc => by injection hc with h2; rw [← h2]; decide) hg]
  have ht : (' ' :: X).takeWhile isWsC = [' '] := by
    rw [takeWhile_ws_cons_space,
      takeWhile_ws_nil_of_head X (fun c hc => (hX c hc).1)]
  simp only [ht, List.length_cons, List.length_nil, List.drop_succ_cons,
    List.drop_zero]
  rw [if_neg (by
    cases hXc : X with
    | nil => simp
    | cons c r =>
      rw [List.head?_cons]
      have := hX c (by rw [hXc]; rfl)
      simp [this.2])]
  simp only [Nat.zero_add, Nat.add_zero, List.drop_zero,
    takeWhile_ws_nil_of_head X (fun c hc => (hX c hc).1), List.length_nil]
  rw [hcc]

theorem tryCC_eval_dash_none (seg : List Char) (X2 : List Char)
    (hall : seg.all isAlphaC = true)
    (hg : 2 ≤ seg.length ∧ seg.length ≤ 5)
    (hcc : ccDigitTail (X2.drop (X2.takeWhile isWsC).length) = none) :
    tryCCAt none (seg ++ (' ' :: '-' :: X2)) = none := by
  rw [tryCCAt_run_eval none seg (' ' :: '-' :: X2) rfl hall
      (fun c hc => by injection hc with h2; rw [← h2]; decide) hg]
  have ht : (' ' :: '-' :: X2).takeWhile isWsC = [' '] := by
    rw [takeWhile_ws_cons_space]
    simp [List.takeWhile_cons, show isWsC '-' = false from rfl]
  simp only [ht, List.length_cons, List.length_nil, List.drop_succ_cons,
    List.drop_zero, List.head?_cons, if_true]
  rw [show 1 + (X2.takeWhile isWsC).length = (X2.takeWhile isWsC).length + 1
    from by omega]
  simp only [List.drop_succ_cons, hcc]

theorem tryCC_eval_dash_match (seg : List Char) (X2 grp : List Char)
    (hall : seg.all isAlphaC = true)
    (hg : 2 ≤ seg.length ∧ seg.length ≤ 5)
    (hX2 : ∀ c, X2.head? = some c → isWsC c = false)
    (hcc : ccDigitTail X2 = some (3, grp)) :
    tryCCAt none (seg ++ (' ' :: '-' :: ' ' :: X2)) =
      if COURSE_PREFIXES.contains (⟨upperL seg⟩ : String) then
        some (upperL seg ++ ' ' :: upperL grp, seg.length + 6)
      else some ((seg ++ (' ' :: '-' :: ' ' :: X2)).take (seg.length + 6),
        seg.length + 6) := by
  rw [tryCCAt_run_eval none seg (' ' :: '-' :: ' ' :: X2) rfl hall
      (fun c hc => by injection hc with h2; rw [← h2]; decide) hg]
  have ht : (' ' :: '-' :: ' ' :: X2).takeWhile isWsC = [' '] := by
    rw [takeWhile_ws_cons_space]
    simp [List.takeWhile_cons, show isWsC '-' = false from rfl]
  have ht2 : (' ' :: X2).takeWhile isWsC = [' '] := by
    rw [takeWhile_ws_cons_space, takeWhile_ws_nil_of_head X2 hX2]
  simp only [ht, ht2, List.length_cons, List.length_nil, List.drop_succ_cons,
    List.drop_zero, List.head?_cons, if_true, hcc]

theorem alpha_ne_dash (c : Char) (h : isAlphaC c = true) : c ≠ '-' := by
  intro he
  rw [isAlphaC_iff] at h
  rw [char_eq_iff] at he
  have e0 : ('-' : Char).toNat = 45 := rfl
  rw [e0] at he
  omega

theorem isDigitTok3_false_of_alpha (d : List Char) (h : isAlphaTok d = true) :
    isDigitTok3 d = false := by
  rw [Bool.eq_false_iff]
  intro h3
  obtain ⟨d1, d2, d3, rfl, hd1, _, _⟩ := isDigitTok3_spec d h3
  have := isAlphaTok_head _ h d1 rfl
  rw [not_isAlphaC_of_isDigitC d1 hd1] at this
  cases this

theorem noSpaceBefore_spec (d : List Char) (h : noSpaceBefore d = true) :
    ∃ c, d = [c] := by
  cases d with
  | nil => cases h
  | cons c r =>
    cases r with
    | nil => exact ⟨c, rfl⟩
    | cons y ys => rw [noSpaceBefore_long] at h; cases h

/-- A wellformed token that is not a three-digit token never completes the
`(\d{3}[A-Za-z]?)\b` tail at the start of a join suffix. -/
theorem ccDigitTail_none_token (v S : List Char) (hok : tokOK v = true)
    (hnd3 : isDigitTok3 v = false)
    (hS : isDigitTok v = true → ∀ c, S.head? = some c → isDigitC c = false) :
    ccDigitTail (v ++ S) = none := by
  have hok2 := hok
  rw [tokOK, Bool.or_eq_true, Bool.or_eq_true] at hok2
  rcases hok2 with (hal | hdi) | hpu
  · obtain ⟨d0, dr, rfl⟩ : ∃ d0 dr, v = d0 :: dr := by
      cases v with
      | nil => exact absurd rfl (tokOK_ne_nil _ hok)
      | cons a b => exact ⟨a, b, rfl⟩
    rw [List.cons_append]
    exact ccDigitTail_none_head d0 _
      (not_isDigitC_of_isAlphaC d0 (isAlphaTok_head _ hal d0 rfl))
  · have hS2 := hS hdi
    rw [isDigitTok, Bool.and_eq_true, decide_eq_true_eq] at hdi
    obtain ⟨hne, hall⟩ := hdi
    match v, hne, hall, hnd3 with
    | [e1], _, hall, _ =>
      rw [List.singleton_append]
      exact ccDigitTail_one e1 S hS2
    | [e1, e2], _, hall, _ =>
      rw [List.cons_append, List.singleton_append]
      exact ccDigitTail_two e1 e2 S hS2
    | [e1, e2, e3], _, hall, hnd3 =>
      exfalso
      rw [isDigitTok3] at hnd3
      simp only [List.length_cons, List.length_nil] at hnd3
      rw [hall] at hnd3
      simp at hnd3
    | e1 :: e2 :: e3 :: e4 :: dr, _, hall, _ =>
      simp only [List.all_cons, Bool.and_eq_true] at hall
      rw [List.cons_append, List.cons_append, List.cons_append,
        List.cons_append]
      exact ccDigitTail_four e1 e2 e3 e4 _ hall.1 hall.2.1 hall.2.2.1
        hall.2.2.2.1
  · obtain ⟨c1, rfl, hw, _⟩ := isPunctTok_spec v hpu
    rw [List.singleton_append]
    exact ccDigitTail_none_head c1 S (not_isDigitC_of_not_isWordC c1 hw)

/-- The first character of a wellformed token other than `-` is neither
whitespace nor a dash. -/
theorem tok_head_facts (v : List Char) (hok : tokOK v = true)
    (hvd : v ≠ ['-']) :
    ∀ c, v.head? = some c → isWsC c = false ∧ c ≠ '-' := by
  intro c hc
  have hok2 := hok
  rw [tokOK, Bool.or_eq_true, Bool.or_eq_true] at hok2
  rcases hok2 with (hal | hdi) | hpu
  · obtain ⟨d0, dr, rfl⟩ : ∃ d0 dr, v = d0 :: dr := by
      cases v with
      | nil => exact absurd rfl (tokOK_ne_nil _ hok)
      | cons a b => exact ⟨a, b, rfl⟩
    rw [List.head?_cons, Option.some.injEq] at hc
    subst hc
    have hd0 := isAlphaTok_head _ hal d0 rfl
    exact ⟨not_isWsC_of_isAlphaC d0 hd0, alpha_ne_dash d0 hd0⟩
  · rw [isDigitTok, Bool.and_eq_true, decide_eq_true_eq] at hdi
    obtain ⟨hne, hall⟩ := hdi
    obtain ⟨d0, dr, rfl⟩ : ∃ d0 dr, v = d0 :: dr := by
      cases v with
      | nil => exact absurd rfl hne
      | cons a b => exact ⟨a, b, rfl⟩
    rw [List.head?_cons, Option.some.injEq] at hc
    subst hc
    have hd0 : isDigitC d0 = true := by
      rw [List.all_cons, Bool.and_eq_true] at hall
      exact hall.1
    exact ⟨not_isWsC_of_isDigitC d0 hd0, isDigitC_ne_dash d0 hd0⟩
  · obtain ⟨c1, rfl, _, hws⟩ := isPunctTok_spec v hpu
    rw [List.head?_cons, Option.some.injEq] at hc
    subst hc
    refine ⟨hws, ?_⟩
    intro he
    exact hvd (by rw [he])

theorem tok_head_nonws (v : List Char) (hok : tokOK v = true) :
    ∀ c, v.head? = some c → isWsC c = false := by
  intro c hc
  obtain ⟨d0, dr, rfl⟩ : ∃ d0 dr, v = d0 :: dr := by
    cases v with
    | nil => exact absurd rfl (tokOK_ne_nil _ hok)
    | cons a b => exact ⟨a, b, rfl⟩
  rw [List.head?_cons, Option.some.injEq] at hc
  subst hc
  exact tokOK_wsfree _ hok d0 (by simp)

/-- The `_normalize_course_codes` scanner acts on a `_join_tokens` tail
exactly as the token-level rewriter `nccTok` acts on the token list. -/
theorem ncc_bridge_go : ∀ (n : Nat) (ts : List (List Char)), ts.length ≤ n →
    (∀ t ∈ ts, tokOK t = true) → ∀ (q : Char),
    nccGo 0 (some q) (joinTokensGo q ts) = joinTokensGo q (nccTok ts) := by
  intro n
  induction n with
  | zero =>
    intro ts hlen _ q
    have hts : ts = [] := List.length_eq_zero.mp (Nat.le_zero.mp hlen)
    subst hts
    rw [nccTok_nil]
    rfl
  | succ n2 ih =>
    intro ts hlen hok q
    cases ts with
    | nil =>
      rw [nccTok_nil]
      rfl
    | cons t rest =>
      have hlrest : rest.length ≤ n2 := by
        simp only [List.length_cons] at hlen
        omega
      have htok : tokOK t = true := hok t (by simp)
      have htne : t ≠ [] := tokOK_ne_nil t htok
      have hrok : ∀ u ∈ rest, tokOK u = true := fun u hu => hok u (by simp [hu])
      have hjoin : joinTokensGo q (t :: rest) =
          (if (noSpaceBefore t || noSpaceAfter q) = true then t else ' ' :: t) ++
            joinTokensGo (t.getLastD q) rest := rfl
      have step_t : ∀ RES : List Char,
          (∀ p : Option Char,
            (isAlphaTok t = true →
              (match p with | none => true | some x => !isWordC x) = true) →
            nccGo 0 p (t ++ joinTokensGo (t.getLastD q) rest) = RES) →
          nccGo 0 (some q) (joinTokensGo q (t :: rest)) =
            (if (noSpaceBefore t || noSpaceAfter q) = true then RES
             else ' ' :: RES) := by
        intro RES hcore
        rw [hjoin]
        by_cases hatt : (noSpaceBefore t || noSpaceAfter q) = true
        · rw [if_pos hatt, if_pos hatt]
          apply hcore
          intro hal2
          rw [noSpaceBefore_alpha t hal2, Bool.false_or] at hatt
          simp only [nsa_not_word q hatt, Bool.not_false]
        · rw [if_neg hatt, if_neg hatt, List.cons_append,
            nccGo_step_none _ ' ' _
              (tryCCAt_none_of_not_alpha _ ' ' _ (by decide))]
          rw [hcore (some ' ') (fun _ => by decide)]
      have finish_nomatch :
          (∀ pre seg, alphaSeg t = some (pre, seg) →
            tryCCAt none (seg ++ joinTokensGo (t.getLastD q) rest) = none) →
          nccTok (t :: rest) = t :: nccTok rest →
          nccGo 0 (some q) (joinTokensGo q (t :: rest)) =
            joinTokensGo q (nccTok (t :: rest)) := by
        intro hnone hteq
        rw [hteq,
          show joinTokensGo q (t :: nccTok rest) =
            (if (noSpaceBefore t || noSpaceAfter q) = true then t
             else ' ' :: t) ++ joinTokensGo (t.getLastD q) (nccTok rest)
          from rfl]
        rw [step_t (t ++ joinTokensGo (t.getLastD q) (nccTok rest))
          (by
            intro p hb
            rw [scan_token_emit t p _ htok hb hnone]
            rw [getLastD_irrel t htne ' ' q, ih rest hlrest hrok (t.getLastD q)])]
        by_cases hatt : (noSpaceBefore t || noSpaceAfter q) = true
        · rw [if_pos hatt, if_pos hatt]
        · rw [if_neg hatt, if_neg hatt, List.cons_append]
      by_cases hal : isAlphaTok t = true
      · obtain ⟨pre, seg, hseg⟩ := alphaSeg_of_isAlphaTok t hal
        have hsegprops := alphaSeg_spec t pre seg hseg
        have hsegne : seg ≠ [] := by
          rcases hsegprops with ⟨_, _, h, _⟩ | ⟨_, _, _, _, _, h, _⟩ <;> exact h
        have hsegall : seg.all isAlphaC = true := by
          rcases hsegprops with ⟨_, _, _, h⟩ | ⟨_, _, _, _, _, _, h⟩ <;> exact h
        have hpreseg : pre ++ seg = t := by
          rcases hsegprops with ⟨h1, h2, _, _⟩ | ⟨a, h1, h2, _, _, _, _⟩
          · rw [h1, h2]
            rfl
          · rw [h1, h2]
            simp
        have hlastT : isAlphaC (t.getLastD q) = true := isAlphaTok_last t hal q
        have hnsa : noSpaceAfter (t.getLastD q) = false :=
          noSpaceAfter_eq_false_of_isWordC _ (isWordC_of_isAlphaC _ hlastT)
        have hnoonly : ∀ pre2 seg2, alphaSeg t = some (pre2, seg2) →
            pre2 = pre ∧ seg2 = seg := by
          intro pre2 seg2 h2
          rw [hseg] at h2
          injection h2 with h3
          injection h3 with h4 h5
          exact ⟨h4.symm, h5.symm⟩
        by_cases hg : 2 ≤ seg.length ∧ seg.length ≤ 5
        · cases rest with
          | nil =>
            apply finish_nomatch
            · intro pre2 seg2 h2
              obtain ⟨h3, h4⟩ := hnoonly pre2 seg2 h2
              subst h4
              exact tryCC_eval_nil seg2 hsegall hg
            · rw [nccTok_single, nccTok_nil]
          | cons d rest2 =>
            have hdok : tokOK d = true := hrok d (by simp)
            have hdne : d ≠ [] := tokOK_ne_nil d hdok
            have hr2ok : ∀ u ∈ rest2, tokOK u = true :=
              fun u hu => hrok u (by simp [hu])
            have hl2 : rest2.length ≤ n2 := by
              simp only [List.length_cons] at hlrest
              omega
            by_cases hnsb : noSpaceBefore d = true
            · obtain ⟨c1, rfl⟩ := noSpaceBefore_spec d hnsb
              have hfacts := noSpaceBefore_char_facts c1 hnsb
              apply finish_nomatch
              · intro pre2 seg2 h2
                obtain ⟨h3, h4⟩ := hnoonly pre2 seg2 h2
                subst h4
                rw [show joinTokensGo (t.getLastD q) ([c1] :: rest2) =
                    [c1] ++ joinTokensGo c1 rest2 by
                  rw [show joinTokensGo (t.getLastD q) ([c1] :: rest2) =
                      (if (noSpaceBefore [c1] ||
                        noSpaceAfter (t.getLastD q)) = true then [c1]
                       else ' ' :: [c1]) ++
                        joinTokensGo (([c1] : List Char).getLastD
                          (t.getLastD q)) rest2 from rfl]
                  rw [if_pos (by rw [hnsb]; simp)]
                  rfl]
                rw [List.singleton_append]
                exact tryCC_eval_attached seg2 c1 _ hsegall hg hfacts.2.2.1
                  hfacts.1 hfacts.2.2.2.2.2
                  (ccDigitTail_none_head c1 _ hfacts.2.2.2.1)
              · exact nccTok_cons_notd3_nodash t [c1] pre seg rest2 hseg hg
                  (by simp [isDigitTok3])
                  (by
                    intro he
                    injection he with h5
                    exact hfacts.2.2.2.2.2 h5)
            · have hcond : (noSpaceBefore d || noSpaceAfter (t.getLastD q)) =
                  false := by
                rw [hnsa, Bool.or_false, Bool.eq_false_iff]
                exact hnsb
              have hSsp : joinTokensGo (t.getLastD q) (d :: rest2) =
                  ' ' :: (d ++
                    joinTokensGo (d.getLastD (t.getLastD q)) rest2) := by
                rw [show joinTokensGo (t.getLastD q) (d :: rest2) =
                    (if (noSpaceBefore d ||
                      noSpaceAfter (t.getLastD q)) = true then d
                     else ' ' :: d) ++
                      joinTokensGo (d.getLastD (t.getLastD q)) rest2 from rfl]
                rw [if_neg (by rw [hcond]; simp), List.cons_append]
              have hS2digit : isDigitTok d = true →
                  ∀ c, (joinTokensGo (d.getLastD (t.getLastD q))
                    rest2).head? = some c → isDigitC c = false := by
                intro hdd c hc
                have hdl : isDigitC (d.getLastD (t.getLastD q)) = true :=
                  isDigitTok_last d hdd _
                have hnsa2 : noSpaceAfter (d.getLastD (t.getLastD q)) = false :=
                  noSpaceAfter_eq_false_of_isWordC _
                    (isWordC_of_isDigitC _ hdl)
                rcases joinTokensGo_head rest2 _ hr2ok hnsa2 c hc with h' | h'
                · subst h'
                  decide
                · exact (noSpaceBefore_char_facts c h').2.2.2.1
              by_cases hdd : d = ['-']
              · -- a dash token follows the letter segment
                subst hdd
                have hgl : (['-'] : List Char).getLastD (t.getLastD q) = '-' :=
                  rfl
                cases rest2 with
                | nil =>
                  apply finish_nomatch
                  · intro pre2 seg2 h2
                    obtain ⟨h3, h4⟩ := hnoonly pre2 seg2 h2
                    subst h4
                    rw [hSsp, hgl]
                    rw [show (['-'] : List Char) ++ joinTokensGo '-' [] =
                      '-' :: ([] : List Char) from rfl]
                    exact tryCC_eval_dash_none seg2 [] hsegall hg rfl
                  · rw [nccTok_cons_dash_nil t pre seg hseg hg, nccTok_single]
                | cons d2 rest3 =>
                  have hd2ok : tokOK d2 = true := hr2ok d2 (by simp)
                  have hd2ne : d2 ≠ [] := tokOK_ne_nil d2 hd2ok
                  have hr3ok : ∀ u ∈ rest3, tokOK u = true :=
                    fun u hu => hr2ok u (by simp [hu])
                  have hl3 : rest3.length ≤ n2 := by
                    simp only [List.length_cons] at hl2
                    omega
                  have hnsadash : noSpaceAfter '-' = false := by decide
                  have hS2 : joinTokensGo '-' (d2 :: rest3) =
                      (if noSpaceBefore d2 = true then d2 else ' ' :: d2) ++
                        joinTokensGo (d2.getLastD '-') rest3 := by
                    rw [show joinTokensGo '-' (d2 :: rest3) =
                        (if (noSpaceBefore d2 || noSpaceAfter '-') = true
                         then d2 else ' ' :: d2) ++
                          joinTokensGo (d2.getLastD '-') rest3 from rfl]
                    rw [hnsadash, Bool.or_false]
                  have hS3digit : isDigitTok d2 = true →
                      ∀ c, (joinTokensGo (d2.getLastD '-') rest3).head? =
                        some c → isDigitC c = false := by
                    intro hdd2 c hc
                    have hdl : isDigitC (d2.getLastD '-') = true :=
                      isDigitTok_last d2 hdd2 _
                    have hnsa2 : noSpaceAfter (d2.getLastD '-') = false :=
                      noSpaceAfter_eq_false_of_isWordC _
                        (isWordC_of_isDigitC _ hdl)
                    rcases joinTokensGo_head rest3 _ hr3ok hnsa2 c hc with
                      h' | h'
                    · subst h'
                      decide
                    · exact (noSpaceBefore_char_facts c h').2.2.2.1
                  by_cases hnsb2 : noSpaceBefore d2 = true
                  · obtain ⟨c2, rfl⟩ := noSpaceBefore_spec d2 hnsb2
                    have hfacts2 := noSpaceBefore_char_facts c2 hnsb2
                    apply finish_nomatch
                    · intro pre2 seg2 h2
                      obtain ⟨h3, h4⟩ := hnoonly pre2 seg2 h2
                      subst h4
                      rw [hSsp, hgl, hS2, if_pos hnsb2,
                        List.singleton_append, List.singleton_append]
                      apply tryCC_eval_dash_none seg2 _ hsegall hg
                      rw [takeWhile_ws_nil_of_head _
                        (fun c hc => by
                          rw [List.head?_cons, Option.some.injEq] at hc
                          subst hc
                          exact hfacts2.1)]
                      rw [List.length_nil, List.drop_zero]
                      exact ccDigitTail_none_head c2 _ hfacts2.2.2.2.1
                    · rw [nccTok_cons_dash_nd3 t [c2] pre seg rest3 hseg hg
                        (by simp [isDigitTok3]),
                        nccTok_cons_nonalpha ['-'] [c2] rest3
                          (alphaSeg_eq_none _ (by decide))]
                  · by_cases hnd32 : isDigitTok3 d2 = true
                    · -- dash-form course-code match
                      obtain ⟨f1, f2, f3, rfl, hf1, hf2, hf3⟩ :=
                        isDigitTok3_spec d2 hnd32
                      have hglf : ([f1, f2, f3] : List Char).getLastD '-' =
                          f3 := rfl
                      have hS3h : ∀ c, (joinTokensGo f3 rest3).head? = some c →
                          isAlphaC c = false ∧ isWordC c = false := by
                        intro c hc
                        have hnsa3 : noSpaceAfter f3 = false :=
                          noSpaceAfter_eq_false_of_isWordC _
                            (isWordC_of_isDigitC _ hf3)
                        rcases joinTokensGo_head rest3 _ hr3ok hnsa3 c hc with
                          h' | h'
                        · subst h'
                          exact ⟨by decide, by decide⟩
                        · have := noSpaceBefore_char_facts c h'
                          exact ⟨this.2.2.1, this.2.1⟩
                      have hcc : ccDigitTail ([f1, f2, f3] ++
                          joinTokensGo f3 rest3) = some (3, [f1, f2, f3]) := by
                        rw [List.cons_append, List.cons_append,
                          List.singleton_append]
                        exact ccDigitTail_digit3 f1 f2 f3 _ hf1 hf2 hf3 hS3h
                      have hX2h : ∀ c, (([f1, f2, f3] : List Char) ++
                          joinTokensGo f3 rest3).head? = some c →
                            isWsC c = false := by
                        intro c hc
                        rw [List.cons_append, List.head?_cons,
                          Option.some.injEq] at hc
                        subst hc
                        exact not_isWsC_of_isDigitC _ hf1
                      have hma := tryCC_eval_dash_match seg
                        ([f1, f2, f3] ++ joinTokensGo f3 rest3) [f1, f2, f3]
                        hsegall hg hX2h hcc
                      have hup3 : upperL [f1, f2, f3] = [f1, f2, f3] :=
                        upperL_digits _ (by simp [hf1, hf2, hf3])
                      have hstr : joinTokensGo (t.getLastD q)
                          (['-'] :: [f1, f2, f3] :: rest3) =
                          (' ' :: '-' :: ' ' :: [f1, f2, f3]) ++
                            joinTokensGo f3 rest3 := by
                        rw [hSsp, hgl, hS2, if_neg hnsb2, hglf]
                        simp
                      have hscan : ∀ p : Option Char,
                          (isAlphaTok t = true →
                            (match p with
                             | none => true | some x => !isWordC x) = true) →
                          nccGo 0 p (t ++ joinTokensGo (t.getLastD q)
                            (['-'] :: [f1, f2, f3] :: rest3)) =
                          pre ++ (if COURSE_PREFIXES.contains
                              (⟨upperL seg⟩ : String) = true then
                              upperL seg ++ ' ' :: [f1, f2, f3]
                            else seg ++ ' ' :: '-' :: ' ' :: [f1, f2, f3]) ++
                            joinTokensGo f3 (nccTok rest3) := by
                        intro p hb
                        rw [hstr]
                        rw [scan_token_match t pre seg
                          (' ' :: '-' :: ' ' :: [f1, f2, f3])
                          (joinTokensGo f3 rest3)
                          (if COURSE_PREFIXES.contains
                              (⟨upperL seg⟩ : String) = true then
                            upperL seg ++ ' ' :: [f1, f2, f3]
                           else seg ++ ' ' :: '-' :: ' ' :: [f1, f2, f3])
                          p hseg (hb hal) (by simp)
                          (by
                            rw [show seg.length +
                              (' ' :: '-' :: ' ' :: [f1, f2, f3]).length =
                              seg.length + 6 from rfl]
                            rw [show (' ' :: '-' :: ' ' :: [f1, f2, f3]) ++
                                joinTokensGo f3 rest3 =
                                ' ' :: '-' :: ' ' :: ([f1, f2, f3] ++
                                  joinTokensGo f3 rest3) by simp]
                            rw [hma]
                            by_cases hcont : COURSE_PREFIXES.contains
                                (⟨upperL seg⟩ : String) = true
                            · rw [if_pos hcont, if_pos hcont, hup3]
                            · rw [if_neg hcont, if_neg hcont]
                              have htk : (seg ++ (' ' :: '-' :: ' ' ::
                                  ([f1, f2, f3] ++
                                    joinTokensGo f3 rest3))).take
                                  (seg.length + 6) =
                                  seg ++ ' ' :: '-' :: ' ' :: [f1, f2, f3] := by
                                rw [take_len_append seg _ 6]
                                rw [List.take_succ_cons, List.take_succ_cons,
                                  List.take_succ_cons]
                                rw [show (3 : Nat) =
                                  ([f1, f2, f3] : List Char).length from rfl,
                                  List.take_left]
                              rw [htk])]
                        rw [show ((' ' :: '-' :: ' ' :: [f1, f2, f3]) :
                            List Char).getLastD ' ' = f3 from rfl]
                        rw [ih rest3 hl3 hr3ok f3]
                      rw [nccTok_cons_dash_d3 t [f1, f2, f3] pre seg rest3
                        hseg hg hnd32]
                      by_cases hcont : COURSE_PREFIXES.contains
                          (⟨upperL seg⟩ : String) = true
                      · rw [if_pos hcont]
                        rw [step_t _ hscan]
                        rw [if_pos hcont]
                        have hXlast : isAlphaC ((pre ++ upperL seg).getLastD
                            q) = true := by
                          have hlseg : isAlphaC (seg.getLastD ' ') = true :=
                            List.all_eq_true.mp hsegall _
                              (getLastD_mem seg ' ' hsegne)
                          have hmap : (upperL seg).getLastD q =
                              upperC (seg.getLastD ' ') :=
                            getLastD_map upperC seg hsegne q ' '
                          rcases hsegprops with ⟨h1, _, _, _⟩ |
                              ⟨a, h1, _, _, _, _, _⟩
                          · rw [h1, List.nil_append, hmap, isAlphaC_upperC]
                            exact hlseg
                          · rw [h1, show (a ++ ['\'']) ++ upperL seg =
                                a ++ '\'' :: upperL seg by simp,
                              getLastD_append_cons, List.getLastD_cons]
                            rw [getLastD_irrel (upperL seg)
                                (by simp [upperL, hsegne]) '\'' q, hmap,
                              isAlphaC_upperC]
                            exact hlseg
                        have hRHS : joinTokensGo q ((pre ++ upperL seg) ::
                            [f1, f2, f3] :: nccTok rest3) =
                            (if (noSpaceBefore (pre ++ upperL seg) ||
                              noSpaceAfter q) = true then pre ++ upperL seg
                             else ' ' :: (pre ++ upperL seg)) ++
                              ((' ' :: [f1, f2, f3]) ++
                                joinTokensGo f3 (nccTok rest3)) := by
                          rw [show joinTokensGo q ((pre ++ upperL seg) ::
                              [f1, f2, f3] :: nccTok rest3) =
                              (if (noSpaceBefore (pre ++ upperL seg) ||
                                noSpaceAfter q) = true then pre ++ upperL seg
                               else ' ' :: (pre ++ upperL seg)) ++
                                ((if (noSpaceBefore [f1, f2, f3] ||
                                  noSpaceAfter ((pre ++ upperL seg).getLastD
                                    q)) = true then [f1, f2, f3]
                                 else ' ' :: [f1, f2, f3]) ++
                                  joinTokensGo (([f1, f2, f3] :
                                    List Char).getLastD
                                    ((pre ++ upperL seg).getLastD q))
                                    (nccTok rest3)) from rfl]
                          have hIn : (noSpaceBefore [f1, f2, f3] ||
                              noSpaceAfter ((pre ++ upperL seg).getLastD q)) =
                              false := by
                            rw [noSpaceBefore_long,
                              noSpaceAfter_eq_false_of_isWordC _
                                (isWordC_of_isAlphaC _ hXlast)]
                            rfl
                          rw [hIn]
                          simp only [Bool.false_eq_true, if_false]
                          rw [show (([f1, f2, f3] : List Char)).getLastD
                            ((pre ++ upperL seg).getLastD q) = f3 from rfl]
                        rw [hRHS]
                        have hcX : (noSpaceBefore (pre ++ upperL seg) ||
                            noSpaceAfter q) = (noSpaceBefore t ||
                              noSpaceAfter q) := by
                          rw [noSpaceBefore_of_len2 _ (by
                              rw [List.length_append, upperL, List.length_map]
                              omega),
                            noSpaceBefore_alpha t hal]
                        rw [← hcX]
                        by_cases hatt : (noSpaceBefore (pre ++ upperL seg) ||
                            noSpaceAfter q) = true
                        · rw [if_pos hatt, if_pos hatt]
                          simp [List.append_assoc]
                        · rw [if_neg hatt, if_neg hatt]
                          simp [List.append_assoc]
                      · rw [if_neg hcont]
                        rw [step_t _ hscan]
                        rw [if_neg hcont]
                        have hRHS : joinTokensGo q (t :: ['-'] ::
                            [f1, f2, f3] :: nccTok rest3) =
                            (if (noSpaceBefore t || noSpaceAfter q) = true
                             then t else ' ' :: t) ++
                              ((' ' :: ['-']) ++ ((' ' :: [f1, f2, f3]) ++
                                joinTokensGo f3 (nccTok rest3))) := by
                          rw [show joinTokensGo q (t :: ['-'] ::
                              [f1, f2, f3] :: nccTok rest3) =
                              (if (noSpaceBefore t || noSpaceAfter q) = true
                               then t else ' ' :: t) ++
                                ((if (noSpaceBefore ['-'] ||
                                  noSpaceAfter (t.getLastD q)) = true
                                 then ['-'] else ' ' :: ['-']) ++
                                  ((if (noSpaceBefore [f1, f2, f3] ||
                                    noSpaceAfter ((['-'] :
                                      List Char).getLastD (t.getLastD q))) =
                                      true then [f1, f2, f3]
                                   else ' ' :: [f1, f2, f3]) ++
                                    joinTokensGo (([f1, f2, f3] :
                                      List Char).getLastD ((['-'] :
                                      List Char).getLastD (t.getLastD q)))
                                      (nccTok rest3))) from rfl]
                          rw [show ((['-'] : List Char)).getLastD
                            (t.getLastD q) = '-' from rfl]
                          rw [hcond]
                          have hIn2 : (noSpaceBefore [f1, f2, f3] ||
                              noSpaceAfter '-') = false := by
                            rw [noSpaceBefore_long]
                            rfl
                          rw [hIn2]
                          simp only [Bool.false_eq_true, if_false]
                          rw [show (([f1, f2, f3] : List Char)).getLastD '-' =
                            f3 from rfl]
                        rw [hRHS]
                        by_cases hatt : (noSpaceBefore t ||
                            noSpaceAfter q) = true
                        · rw [if_pos hatt, if_pos hatt]
                          rw [← hpreseg]
                          simp [List.append_assoc]
                        · rw [if_neg hatt, if_neg hatt]
                          rw [← hpreseg]
                          simp [List.append_assoc]
                    · -- dash followed by a non-matching token
                      rw [Bool.not_eq_true] at hnd32
                      apply finish_nomatch
                      · intro pre2 seg2 h2
                        obtain ⟨h3, h4⟩ := hnoonly pre2 seg2 h2
                        subst h4
                        rw [hSsp, hgl, hS2, if_neg hnsb2, List.cons_append]
                        simp only [List.nil_append]
                        apply tryCC_eval_dash_none seg2 _ hsegall hg
                        rw [List.cons_append]
                        rw [takeWhile_ws_cons_space,
                          takeWhile_ws_nil_of_head
                            (d2 ++ joinTokensGo (d2.getLastD '-') rest3)
                            (fun c hc => by
                              rw [head?_append_of_ne_nil d2 _ hd2ne] at hc
                              exact tok_head_nonws d2 hd2ok c hc)]
                        rw [List.length_cons, List.length_nil,
                          List.drop_succ_cons, List.drop_zero]
                        exact ccDigitTail_none_token d2 _ hd2ok hnd32 hS3digit
                      · rw [nccTok_cons_dash_nd3 t d2 pre seg rest3 hseg hg
                          hnd32,
                          nccTok_cons_nonalpha ['-'] d2 rest3
                            (alphaSeg_eq_none _ (by decide))]
              · by_cases hnd3 : isDigitTok3 d = true
                · -- plain course-code match
                  obtain ⟨e1, e2, e3, rfl, he1, he2, he3⟩ :=
                    isDigitTok3_spec d hnd3
                  have hgle : ([e1, e2, e3] : List Char).getLastD
                      (t.getLastD q) = e3 := rfl
                  have hS2h : ∀ c, (joinTokensGo e3 rest2).head? = some c →
                      isAlphaC c = false ∧ isWordC c = false := by
                    intro c hc
                    have hnsa3 : noSpaceAfter e3 = false :=
                      noSpaceAfter_eq_false_of_isWordC _
                        (isWordC_of_isDigitC _ he3)
                    rcases joinTokensGo_head rest2 _ hr2ok hnsa3 c hc with
                      h' | h'
                    · subst h'
                      exact ⟨by decide, by decide⟩
                    · have := noSpaceBefore_char_facts c h'
                      exact ⟨this.2.2.1, this.2.1⟩
                  have hcc : ccDigitTail ([e1, e2, e3] ++
                      joinTokensGo e3 rest2) = some (3, [e1, e2, e3]) := by
                    rw [List.cons_append, List.cons_append,
                      List.singleton_append]
                    exact ccDigitTail_digit3 e1 e2 e3 _ he1 he2 he3 hS2h
                  have hXh : ∀ c, (([e1, e2, e3] : List Char) ++
                      joinTokensGo e3 rest2).head? = some c →
                        isWsC c = false ∧ c ≠ '-' := by
                    intro c hc
                    rw [List.cons_append, List.head?_cons,
                      Option.some.injEq] at hc
                    subst hc
                    exact ⟨not_isWsC_of_isDigitC _ he1,
                      isDigitC_ne_dash _ he1⟩
                  have hma := tryCC_eval_spaced_match seg
                    ([e1, e2, e3] ++ joinTokensGo e3 rest2) [e1, e2, e3]
                    hsegall hg hXh hcc
                  have hup3 : upperL [e1, e2, e3] = [e1, e2, e3] :=
                    upperL_digits _ (by simp [he1, he2, he3])
                  have hstr : joinTokensGo (t.getLastD q)
                      ([e1, e2, e3] :: rest2) =
                      (' ' :: [e1, e2, e3]) ++ joinTokensGo e3 rest2 := by
                    rw [hSsp, hgle]
                    simp
                  have hscan : ∀ p : Option Char,
                      (isAlphaTok t = true →
                        (match p with
                         | none => true | some x => !isWordC x) = true) →
                      nccGo 0 p (t ++ joinTokensGo (t.getLastD q)
                        ([e1, e2, e3] :: rest2)) =
                      pre ++ (if COURSE_PREFIXES.contains
                          (⟨upperL seg⟩ : String) = true then
                          upperL seg ++ ' ' :: [e1, e2, e3]
                        else seg ++ ' ' :: [e1, e2, e3]) ++
                        joinTokensGo e3 (nccTok rest2) := by
                    intro p hb
                    rw [hstr]
                    rw [scan_token_match t pre seg (' ' :: [e1, e2, e3])
                      (joinTokensGo e3 rest2)
                      (if COURSE_PREFIXES.contains
                          (⟨upperL seg⟩ : String) = true then
                        upperL seg ++ ' ' :: [e1, e2, e3]
                       else seg ++ ' ' :: [e1, e2, e3])
                      p hseg (hb hal) (by simp)
                      (by
                        rw [show seg.length +
                          (' ' :: [e1, e2, e3]).length =
                          seg.length + 4 from rfl]
                        rw [show (' ' :: [e1, e2, e3]) ++
                            joinTokensGo e3 rest2 =
                            ' ' :: ([e1, e2, e3] ++
                              joinTokensGo e3 rest2) by simp]
                        rw [hma]
                        by_cases hcont : COURSE_PREFIXES.contains
                            (⟨upperL seg⟩ : String) = true
                        · rw [if_pos hcont, if_pos hcont, hup3]
                        · rw [if_neg hcont, if_neg hcont]
                          have htk : (seg ++ (' ' :: ([e1, e2, e3] ++
                              joinTokensGo e3 rest2))).take
                              (seg.length + 4) =
                              seg ++ ' ' :: [e1, e2, e3] := by
                            rw [take_len_append seg _ 4]
                            rw [List.take_succ_cons]
                            rw [show (3 : Nat) =
                              ([e1, e2, e3] : List Char).length from rfl,
                              List.take_left]
                          rw [htk])]
                    rw [show ((' ' :: [e1, e2, e3]) :
                        List Char).getLastD ' ' = e3 from rfl]
                    rw [ih rest2 hl2 hr2ok e3]
                  rw [nccTok_cons_digit3 t [e1, e2, e3] pre seg rest2 hseg hg
                    hnd3]
                  by_cases hcont : COURSE_PREFIXES.contains
                      (⟨upperL seg⟩ : String) = true
                  · rw [if_pos hcont]
                    rw [step_t _ hscan]
                    rw [if_pos hcont]
                    have hXlast : isAlphaC ((pre ++ upperL seg).getLastD
                        q) = true := by
                      have hlseg : isAlphaC (seg.getLastD ' ') = true :=
                        List.all_eq_true.mp hsegall _
                          (getLastD_mem seg ' ' hsegne)
                      have hmap : (upperL seg).getLastD q =
                          upperC (seg.getLastD ' ') :=
                        getLastD_map upperC seg hsegne q ' '
                      rcases hsegprops with ⟨h1, _, _, _⟩ |
                          ⟨a, h1, _, _, _, _, _⟩
                      · rw [h1, List.nil_append, hmap, isAlphaC_upperC]
                        exact hlseg
                      · rw [h1, show (a ++ ['\'']) ++ upperL seg =
                            a ++ '\'' :: upperL seg by simp,
                          getLastD_append_cons, List.getLastD_cons]
                        rw [getLastD_irrel (upperL seg)
                            (by simp [upperL, hsegne]) '\'' q, hmap,
                          isAlphaC_upperC]
                        exact hlseg
                    have hRHS : joinTokensGo q ((pre ++ upperL seg) ::
                        [e1, e2, e3] :: nccTok rest2) =
                        (if (noSpaceBefore (pre ++ upperL seg) ||
                          noSpaceAfter q) = true then pre ++ upperL seg
                         else ' ' :: (pre ++ upperL seg)) ++
                          ((' ' :: [e1, e2, e3]) ++
                            joinTokensGo e3 (nccTok rest2)) := by
                      rw [show joinTokensGo q ((pre ++ upperL seg) ::
                          [e1, e2, e3] :: nccTok rest2) =
                          (if (noSpaceBefore (pre ++ upperL seg) ||
                            noSpaceAfter q) = true then pre ++ upperL seg
                           else ' ' :: (pre ++ upperL seg)) ++
                            ((if (noSpaceBefore [e1, e2, e3] ||
                              noSpaceAfter ((pre ++ upperL seg).getLastD
                                q)) = true then [e1, e2, e3]
                             else ' ' :: [e1, e2, e3]) ++
                              joinTokensGo (([e1, e2, e3] :
                                List Char).getLastD
                                ((pre ++ upperL seg).getLastD q))
                                (nccTok rest2)) from rfl]
                      have hIn : (noSpaceBefore [e1, e2, e3] ||
                          noSpaceAfter ((pre ++ upperL seg).getLastD q)) =
                          false := by
                        rw [noSpaceBefore_long,
                          noSpaceAfter_eq_false_of_isWordC _
                            (isWordC_of_isAlphaC _ hXlast)]
                        rfl
                      rw [hIn]
                      simp only [Bool.false_eq_true, if_false]
                      rw [show (([e1, e2, e3] : List Char)).getLastD
                        ((pre ++ upperL seg).getLastD q) = e3 from rfl]
                    rw [hRHS]
                    have hcX : (noSpaceBefore (pre ++ upperL seg) ||
                        noSpaceAfter q) = (noSpaceBefore t ||
                          noSpaceAfter q) := by
                      rw [noSpaceBefore_of_len2 _ (by
                          rw [List.length_append, upperL, List.length_map]
                          omega),
                        noSpaceBefore_alpha t hal]
                    rw [← hcX]
                    by_cases hatt : (noSpaceBefore (pre ++ upperL seg) ||
                        noSpaceAfter q) = true
                    · rw [if_pos hatt, if_pos hatt]
                      simp [List.append_assoc]
                    · rw [if_neg hatt, if_neg hatt]
                      simp [List.append_assoc]
                  · rw [if_neg hcont]
                    rw [step_t _ hscan]
                    rw [if_neg hcont]
                    have hRHS : joinTokensGo q (t ::
                        [e1, e2, e3] :: nccTok rest2) =
                        (if (noSpaceBefore t || noSpaceAfter q) = true
                         then t else ' ' :: t) ++
                          ((' ' :: [e1, e2, e3]) ++
                            joinTokensGo e3 (nccTok rest2)) := by
                      rw [show joinTokensGo q (t ::
                          [e1, e2, e3] :: nccTok rest2) =
                          (if (noSpaceBefore t || noSpaceAfter q) = true
                           then t else ' ' :: t) ++
                            ((if (noSpaceBefore [e1, e2, e3] ||
                              noSpaceAfter (t.getLastD q)) = true
                             then [e1, e2, e3]
                             else ' ' :: [e1, e2, e3]) ++
                              joinTokensGo (([e1, e2, e3] :
                                List Char).getLastD (t.getLastD q))
                                (nccTok rest2)) from rfl]
                      have hIn2 : (noSpaceBefore [e1, e2, e3] ||
                          noSpaceAfter (t.getLastD q)) = false := by
                        rw [noSpaceBefore_long, hnsa]
                        rfl
                      rw [hIn2]
                      simp only [Bool.false_eq_true, if_false]
                      rw [hgle]
                    rw [hRHS]
                    by_cases hatt : (noSpaceBefore t ||
                        noSpaceAfter q) = true
                    · rw [if_pos hatt, if_pos hatt]
                      rw [← hpreseg]
                      simp [List.append_assoc]
                    · rw [if_neg hatt, if_neg hatt]
                      rw [← hpreseg]
                      simp [List.append_assoc]
                · -- a non-matching token follows the letter segment
                  rw [Bool.not_eq_true] at hnd3
                  apply finish_nomatch
                  · intro pre2 seg2 h2
                    obtain ⟨h3, h4⟩ := hnoonly pre2 seg2 h2
                    subst h4
                    rw [hSsp]
                    apply tryCC_eval_spaced_none seg2 _ hsegall hg
                    · intro c hc
                      rw [head?_append_of_ne_nil d _ hdne] at hc
                      exact tok_head_facts d hdok hdd c hc
                    · exact ccDigitTail_none_token d _ hdok hnd3 hS2digit
                  · exact nccTok_cons_notd3_nodash t d pre seg rest2 hseg hg
                      hnd3 hdd
        · -- letter segment outside the 2-5 length window
          apply finish_nomatch
          · intro pre2 seg2 h2
            obtain ⟨h3, h4⟩ := hnoonly pre2 seg2 h2
            subst h4
            apply tryCCAt_run_guardfail none seg2 _ hsegall
            · intro c hc
              have hlw : isWordC (t.getLastD q) = true :=
                isWordC_of_isAlphaC _ hlastT
              rcases joinTokensGo_head rest (t.getLastD q) hrok
                  (noSpaceAfter_eq_false_of_isWordC _ hlw) c hc with h' | h'
              · subst h'
                decide
              · exact (noSpaceBefore_char_facts c h').2.2.1
            · exact hg
          · cases rest with
            | nil => rw [nccTok_single, nccTok_nil]
            | cons d rest2 =>
              exact nccTok_cons_guardfail t d pre seg rest2 hseg hg
      · -- head token is not an alpha token
        apply finish_nomatch
        · intro pre seg h2
          rw [Bool.not_eq_true] at hal
          rw [alphaSeg_eq_none t hal] at h2
          cases h2
        · cases rest with
          | nil => rw [nccTok_single, nccTok_nil]
          | cons d rest2 =>
            exact nccTok_cons_nonalpha t d rest2
              (alphaSeg_eq_none t (by rw [Bool.not_eq_true] at hal; exact hal))

/-! ### Top-level bridge and `nccTok` invariants -/

theorem joinTokens_eq_go (ts : List (List Char))
    (h : ∀ t ∈ ts, tokOK t = true) :
    joinTokens ts = joinTokensGo '(' ts := by
  cases ts with
  | nil => rfl
  | cons t rest =>
    have htne : t ≠ [] := tokOK_ne_nil t (h t (by simp))
    rw [joinTokens,
      show joinTokensGo '(' (t :: rest) =
        (if (noSpaceBefore t || noSpaceAfter '(') = true then t
         else ' ' :: t) ++ joinTokensGo (t.getLastD '(') rest from rfl,
      if_pos (by rw [show noSpaceAfter '(' = true from rfl]; simp),
      getLastD_irrel t htne ' ' '(']

theorem nccTok_cons_nonalpha_any (t : List Char) (L : List (List Char))
    (h : alphaSeg t = none) : nccTok (t :: L) = t :: nccTok L := by
  cases L with
  | nil => rw [nccTok_single, nccTok_nil]
  | cons d rest2 => exact nccTok_cons_nonalpha t d rest2 h

theorem nccTok_cons_guardfail_any (t pre seg : List Char)
    (L : List (List Char)) (h : alphaSeg t = some (pre, seg))
    (hg : ¬(2 ≤ seg.length ∧ seg.length ≤ 5)) :
    nccTok (t :: L) = t :: nccTok L := by
  cases L with
  | nil => rw [nccTok_single, nccTok_nil]
  | cons d rest2 => exact nccTok_cons_guardfail t d pre seg rest2 h hg

theorem nccTok_cons_notd3_nodash_any (t pre seg : List Char)
    (L : List (List Char)) (d : List Char) (rest2 : List (List Char))
    (hL : L = d :: rest2) (h : alphaSeg t = some (pre, seg))
    (hg : 2 ≤ seg.length ∧ seg.length ≤ 5) (hd : isDigitTok3 d = false)
    (hdd : d ≠ ['-']) :
    nccTok (t :: L) = t :: nccTok L := by
  subst hL
  exact nccTok_cons_notd3_nodash t d pre seg rest2 h hg hd hdd

theorem all_isAlphaC_upperL (l : List Char) :
    (upperL l).all isAlphaC = l.all isAlphaC := by
  rw [Bool.eq_iff_iff, upperL, List.all_map, List.all_eq_true, List.all_eq_true]
  constructor
  · intro h c hc
    have := h c hc
    rwa [Function.comp_apply, isAlphaC_upperC] at this
  · intro h c hc
    rw [Function.comp_apply, isAlphaC_upperC]
    exact h c hc

theorem tokOK_rewr (t pre seg : List Char)
    (hseg : alphaSeg t = some (pre, seg)) :
    tokOK (pre ++ upperL seg) = true := by
  rcases alphaSeg_spec t pre seg hseg with ⟨hpre, _, hne, hall⟩ |
      ⟨a, hpre, _, hane, haall, hne, hall⟩
  · subst hpre
    rw [List.nil_append]
    have : isAlphaTok (upperL seg) = true :=
      isAlphaTok_build_pure _ (by simp [upperL, hne])
        (by rw [all_isAlphaC_upperL]; exact hall)
    rw [tokOK, this]
    rfl
  · subst hpre
    rw [show (a ++ ['\'']) ++ upperL seg = a ++ '\'' :: upperL seg by simp]
    have : isAlphaTok (a ++ '\'' :: upperL seg) = true :=
      isAlphaTok_build_apos a _ hane (by simp [upperL, hne]) haall
        (by rw [all_isAlphaC_upperL]; exact hall)
    rw [tokOK, this]
    rfl

theorem nccTok_tokOK : ∀ (n : Nat) (ts : List (List Char)), ts.length ≤ n →
    (∀ t ∈ ts, tokOK t = true) → ∀ u ∈ nccTok ts, tokOK u = true := by
  intro n
  induction n with
  | zero =>
    intro ts hlen _ u hu
    have hts : ts = [] := List.length_eq_zero.mp (Nat.le_zero.mp hlen)
    subst hts
    rw [nccTok_nil] at hu
    cases hu
  | succ n2 ih =>
    intro ts hlen hok u hu
    cases ts with
    | nil =>
      rw [nccTok_nil] at hu
      cases hu
    | cons t rest =>
      have hlrest : rest.length ≤ n2 := by
        simp only [List.length_cons] at hlen
        omega
      have htok : tokOK t = true := hok t (by simp)
      have hrok : ∀ v ∈ rest, tokOK v = true := fun v hv => hok v (by simp [hv])
      cases rest with
      | nil =>
        rw [nccTok_single] at hu
        rcases List.mem_singleton.mp hu with rfl
        exact htok
      | cons d rest2 =>
        have hdok : tokOK d = true := hrok d (by simp)
        have hr2ok : ∀ v ∈ rest2, tokOK v = true :=
          fun v hv => hrok v (by simp [hv])
        have hl2 : rest2.length ≤ n2 := by
          simp only [List.length_cons] at hlrest
          omega
        cases hseg : alphaSeg t with
        | none =>
          rw [nccTok_cons_nonalpha t d rest2 hseg] at hu
          rcases List.mem_cons.mp hu with rfl | hu2
          · exact htok
          · exact ih (d :: rest2) hlrest hrok u hu2
        | some ps =>
          obtain ⟨pre, seg⟩ := ps
          by_cases hg : 2 ≤ seg.length ∧ seg.length ≤ 5
          · by_cases hd3 : isDigitTok3 d = true
            · rw [nccTok_cons_digit3 t d pre seg rest2 hseg hg hd3] at hu
              rcases List.mem_cons.mp hu with rfl | hu2
              · by_cases hcont :
                    COURSE_PREFIXES.contains (⟨upperL seg⟩ : String) = true
                · rw [if_pos hcont]
                  exact tokOK_rewr t pre seg hseg
                · rw [if_neg hcont]
                  exact htok
              · rcases List.mem_cons.mp hu2 with rfl | hu3
                · exact hdok
                · exact ih rest2 (by omega) hr2ok u hu3
            · by_cases hdd : d = ['-']
              · subst hdd
                cases rest2 with
                | nil =>
                  rw [nccTok_cons_dash_nil t pre seg hseg hg] at hu
                  rcases List.mem_cons.mp hu with rfl | hu2
                  · exact htok
                  · rcases List.mem_singleton.mp hu2 with rfl
                    exact hrok _ (by simp)
                | cons d2 rest3 =>
                  have hd2ok : tokOK d2 = true := hr2ok d2 (by simp)
                  have hr3ok : ∀ v ∈ rest3, tokOK v = true :=
                    fun v hv => hr2ok v (by simp [hv])
                  have hl3 : rest3.length ≤ n2 := by
                    simp only [List.length_cons] at hl2
                    omega
                  by_cases hd23 : isDigitTok3 d2 = true
                  · rw [nccTok_cons_dash_d3 t d2 pre seg rest3 hseg hg
                      hd23] at hu
                    by_cases hcont :
                        COURSE_PREFIXES.contains (⟨upperL seg⟩ : String) = true
                    · rw [if_pos hcont] at hu
                      rcases List.mem_cons.mp hu with rfl | hu2
                      · exact tokOK_rewr t pre seg hseg
                      · rcases List.mem_cons.mp hu2 with rfl | hu3
                        · exact hd2ok
                        · exact ih rest3 hl3 hr3ok u hu3
                    · rw [if_neg hcont] at hu
                      rcases List.mem_cons.mp hu with rfl | hu2
                      · exact htok
                      · rcases List.mem_cons.mp hu2 with rfl | hu3
                        · exact hrok _ (by simp)
                        · rcases List.mem_cons.mp hu3 with rfl | hu4
                          · exact hd2ok
                          · exact ih rest3 hl3 hr3ok u hu4
                  · rw [nccTok_cons_dash_nd3 t d2 pre seg rest3 hseg hg
                      (Bool.not_eq_true _ ▸ hd23)] at hu
                    rcases List.mem_cons.mp hu with rfl | hu2
                    · exact htok
                    · rcases List.mem_cons.mp hu2 with rfl | hu3
                      · exact hrok _ (by simp)
                      · exact ih (d2 :: rest3) (by omega) (fun v hv =>
                          hr2ok v hv) u hu3
              · rw [nccTok_cons_notd3_nodash t d pre seg rest2 hseg hg
                  (Bool.not_eq_true _ ▸ hd3) hdd] at hu
                rcases List.mem_cons.mp hu with rfl | hu2
                · exact htok
                · exact ih (d :: rest2) hlrest hrok u hu2
          · rw [nccTok_cons_guardfail t d pre seg rest2 hseg hg] at hu
            rcases List.mem_cons.mp hu with rfl | hu2
            · exact htok
            · exact ih (d :: rest2) hlrest hrok u hu2

theorem ncc_joinTokens (ts : List (List Char))
    (h : ∀ t ∈ ts, tokOK t = true) :
    ncc (joinTokens ts) = joinTokens (nccTok ts) := by
  rcases ts with _ | ⟨t, rest⟩
  · rw [nccTok_nil]
    rfl
  · rw [joinTokens_eq_go _ h, ncc,
      nccGo_prev_congr none (some '(') _ (by decide),
      ncc_bridge_go (t :: rest).length (t :: rest) (le_refl _) h '(',
      ← joinTokens_eq_go _ (nccTok_tokOK (t :: rest).length (t :: rest)
        (le_refl _) h)]

theorem alphaSeg_pure (v : List Char) (hne : v ≠ [])
    (hall : v.all isAlphaC = true) : alphaSeg v = some ([], v) := by
  rw [alphaSeg, if_pos (isAlphaTok_build_pure v hne hall)]
  simp only [takeWhile_eq_self_of_all _ _ hall, List.drop_length]

theorem alphaSeg_apos (a b : List Char) (hane : a ≠ []) (hbne : b ≠ [])
    (haall : a.all isAlphaC = true) (hball : b.all isAlphaC = true) :
    alphaSeg (a ++ '\'' :: b) = some (a ++ ['\''], b) := by
  rw [alphaSeg, if_pos (isAlphaTok_build_apos a b hane hbne haall hball)]
  have htw : (a ++ '\'' :: b).takeWhile isAlphaC = a := by
    rw [takeWhile_all_append _ _ _ haall]
    simp [List.takeWhile_cons, isAlphaC]
  have hd2 : (a ++ '\'' :: b).drop (a.length + 1) = b := by
    rw [show a ++ '\'' :: b = (a ++ ['\'']) ++ b by simp]
    exact List.drop_left' (by simp)
  simp only [htw, List.drop_left, hd2]

theorem isAlphaTok_rewr (t pre seg : List Char)
    (hseg : alphaSeg t = some (pre, seg)) :
    isAlphaTok (pre ++ upperL seg) = true := by
  rcases alphaSeg_spec t pre seg hseg with ⟨hpre, _, hne, hall⟩ |
      ⟨a, hpre, _, hane, haall, hne, hall⟩
  · subst hpre
    rw [List.nil_append]
    exact isAlphaTok_build_pure _ (by simp [upperL, hne])
      (by rw [all_isAlphaC_upperL]; exact hall)
  · subst hpre
    rw [show (a ++ ['\'']) ++ upperL seg = a ++ '\'' :: upperL seg by simp]
    exact isAlphaTok_build_apos a _ hane (by simp [upperL, hne]) haall
      (by rw [all_isAlphaC_upperL]; exact hall)

theorem alphaSeg_rewr (t pre seg : List Char)
    (hseg : alphaSeg t = some (pre, seg)) :
    alphaSeg (pre ++ upperL seg) = some (pre, upperL seg) := by
  rcases alphaSeg_spec t pre seg hseg with ⟨hpre, _, hne, hall⟩ |
      ⟨a, hpre, _, hane, haall, hne, hall⟩
  · subst hpre
    rw [List.nil_append]
    exact alphaSeg_pure _ (by simp [upperL, hne])
      (by rw [all_isAlphaC_upperL]; exact hall)
  · subst hpre
    rw [show (a ++ ['\'']) ++ upperL seg = a ++ '\'' :: upperL seg by simp]
    exact alphaSeg_apos a _ hane (by simp [upperL, hne]) haall
      (by rw [all_isAlphaC_upperL]; exact hall)

theorem nccTok_head_shape (v : List Char) (r : List (List Char)) :
    ∃ h2 L2, nccTok (v :: r) = h2 :: L2 ∧
      (h2 = v ∨ ∃ pre2 seg2, alphaSeg v = some (pre2, seg2) ∧
        h2 = pre2 ++ upperL seg2) := by
  cases r with
  | nil => exact ⟨v, [], nccTok_single v, Or.inl rfl⟩
  | cons d rest2 =>
    cases hseg : alphaSeg v with
    | none =>
      exact ⟨v, nccTok (d :: rest2), nccTok_cons_nonalpha v d rest2 hseg,
        Or.inl rfl⟩
    | some ps =>
      obtain ⟨pre, seg⟩ := ps
      by_cases hg : 2 ≤ seg.length ∧ seg.length ≤ 5
      · by_cases hd3 : isDigitTok3 d = true
        · by_cases hcont :
              COURSE_PREFIXES.contains (⟨upperL seg⟩ : String) = true
          · exact ⟨pre ++ upperL seg, d :: nccTok rest2,
              by rw [nccTok_cons_digit3 v d pre seg rest2 hseg hg hd3,
                if_pos hcont],
              Or.inr ⟨pre, seg, rfl, rfl⟩⟩
          · exact ⟨v, d :: nccTok rest2,
              by rw [nccTok_cons_digit3 v d pre seg rest2 hseg hg hd3,
                if_neg hcont],
              Or.inl rfl⟩
        · by_cases hdd : d = ['-']
          · subst hdd
            cases rest2 with
            | nil =>
              exact ⟨v, [['-']], nccTok_cons_dash_nil v pre seg hseg hg,
                Or.inl rfl⟩
            | cons d2 rest3 =>
              by_cases hd23 : isDigitTok3 d2 = true
              · by_cases hcont :
                    COURSE_PREFIXES.contains (⟨upperL seg⟩ : String) = true
                · exact ⟨pre ++ upperL seg, d2 :: nccTok rest3,
                    by rw [nccTok_cons_dash_d3 v d2 pre seg rest3 hseg hg
                      hd23, if_pos hcont],
                    Or.inr ⟨pre, seg, rfl, rfl⟩⟩
                · exact ⟨v, ['-'] :: d2 :: nccTok rest3,
                    by rw [nccTok_cons_dash_d3 v d2 pre seg rest3 hseg hg
                      hd23, if_neg hcont],
                    Or.inl rfl⟩
              · exact ⟨v, ['-'] :: nccTok (d2 :: rest3),
                  by rw [nccTok_cons_dash_nd3 v d2 pre seg rest3 hseg hg
                    (Bool.not_eq_true _ ▸ hd23)],
                  Or.inl rfl⟩
          · exact ⟨v, nccTok (d :: rest2),
              by rw [nccTok_cons_notd3_nodash v d pre seg rest2 hseg hg
                (Bool.not_eq_true _ ▸ hd3) hdd],
              Or.inl rfl⟩
      · exact ⟨v, nccTok (d :: rest2),
          by rw [nccTok_cons_guardfail v d pre seg rest2 hseg hg],
          Or.inl rfl⟩

/-- The head token produced by `nccTok` inherits "not a three-digit token"
and "not a dash" from the source head. -/
theorem nccTok_head_facts (v : List Char) (r : List (List Char))
    (h2 : List Char) (L2 : List (List Char))
    (hshape : nccTok (v :: r) = h2 :: L2)
    (hfacts : h2 = v ∨ ∃ pre2 seg2, alphaSeg v = some (pre2, seg2) ∧
      h2 = pre2 ++ upperL seg2)
    (hd3 : isDigitTok3 v = false) (hdd : v ≠ ['-']) :
    isDigitTok3 h2 = false ∧ h2 ≠ ['-'] := by
  rcases hfacts with rfl | ⟨pre2, seg2, hseg2, rfl⟩
  · exact ⟨hd3, hdd⟩
  · have hal : isAlphaTok (pre2 ++ upperL seg2) = true :=
      isAlphaTok_rewr v pre2 seg2 hseg2
    constructor
    · exact isDigitTok3_false_of_alpha _ hal
    · intro he
      rw [he] at hal
      exact absurd hal (by decide)

theorem nccTok_head_nd3 (v h2 : List Char)
    (hfacts : h2 = v ∨ ∃ pre2 seg2, alphaSeg v = some (pre2, seg2) ∧
      h2 = pre2 ++ upperL seg2)
    (hd3 : isDigitTok3 v = false) : isDigitTok3 h2 = false := by
  rcases hfacts with rfl | ⟨pre2, seg2, hseg2, rfl⟩
  · exact hd3
  · exact isDigitTok3_false_of_alpha _ (isAlphaTok_rewr v pre2 seg2 hseg2)

/-- The token-level course-code rewriter is idempotent on wellformed
token lists. -/
theorem nccTok_idem_aux : ∀ (n : Nat) (ts : List (List Char)),
    ts.length ≤ n → (∀ t ∈ ts, tokOK t = true) →
    nccTok (nccTok ts) = nccTok ts := by
  intro n
  induction n with
  | zero =>
    intro ts hlen _
    have hts : ts = [] := List.length_eq_zero.mp (Nat.le_zero.mp hlen)
    subst hts
    rw [nccTok_nil, nccTok_nil]
  | succ n2 ih =>
    intro ts hlen hok
    cases ts with
    | nil => rw [nccTok_nil, nccTok_nil]
    | cons t rest =>
      cases rest with
      | nil => rw [nccTok_single, nccTok_single]
      | cons d rest2 =>
        have hlen2 : rest2.length ≤ n2 := by
          simp only [List.length_cons] at hlen
          omega
        have hlen1 : (d :: rest2).length ≤ n2 := by
          simp only [List.length_cons] at hlen ⊢
          omega
        have hok2 : ∀ v ∈ rest2, tokOK v = true :=
          fun v hv => hok v (by simp [hv])
        have hok1 : ∀ v ∈ d :: rest2, tokOK v = true :=
          fun v hv => hok v (by simp at hv ⊢; tauto)
        cases hseg : alphaSeg t with
        | none =>
          rw [nccTok_cons_nonalpha t d rest2 hseg]
          obtain ⟨h2, L2, hshape, _⟩ := nccTok_head_shape d rest2
          rw [hshape, nccTok_cons_nonalpha t h2 L2 hseg, ← hshape,
            ih (d :: rest2) hlen1 hok1]
        | some ps =>
          obtain ⟨pre, seg⟩ := ps
          by_cases hg : 2 ≤ seg.length ∧ seg.length ≤ 5
          · by_cases hd3 : isDigitTok3 d = true
            · rw [nccTok_cons_digit3 t d pre seg rest2 hseg hg hd3]
              by_cases hcont :
                  COURSE_PREFIXES.contains (⟨upperL seg⟩ : String) = true
              · rw [if_pos hcont,
                  nccTok_cons_digit3 (pre ++ upperL seg) d pre (upperL seg)
                    (nccTok rest2) (alphaSeg_rewr t pre seg hseg)
                    (by simpa [upperL] using hg) hd3,
                  upperL_upperL, if_pos hcont, ih rest2 hlen2 hok2]
              · rw [if_neg hcont,
                  nccTok_cons_digit3 t d pre seg (nccTok rest2) hseg hg hd3,
                  if_neg hcont, ih rest2 hlen2 hok2]
            · by_cases hdd : d = ['-']
              · subst hdd
                cases rest2 with
                | nil =>
                  rw [nccTok_cons_dash_nil t pre seg hseg hg,
                    nccTok_cons_dash_nil t pre seg hseg hg]
                | cons d2 rest3 =>
                  have hlen3 : rest3.length ≤ n2 := by
                    simp only [List.length_cons] at hlen
                    omega
                  have hok3 : ∀ v ∈ rest3, tokOK v = true :=
                    fun v hv => hok v (by simp [hv])
                  by_cases hd23 : isDigitTok3 d2 = true
                  · rw [nccTok_cons_dash_d3 t d2 pre seg rest3 hseg hg hd23]
                    by_cases hcont :
                        COURSE_PREFIXES.contains (⟨upperL seg⟩ : String) = true
                    · rw [if_pos hcont,
                        nccTok_cons_digit3 (pre ++ upperL seg) d2 pre
                          (upperL seg) (nccTok rest3)
                          (alphaSeg_rewr t pre seg hseg)
                          (by simpa [upperL] using hg) hd23,
                        upperL_upperL, if_pos hcont, ih rest3 hlen3 hok3]
                    · rw [if_neg hcont,
                        nccTok_cons_dash_d3 t d2 pre seg (nccTok rest3) hseg
                          hg hd23,
                        if_neg hcont, ih rest3 hlen3 hok3]
                  · have hd23f : isDigitTok3 d2 = false :=
                      Bool.not_eq_true _ ▸ hd23
                    rw [nccTok_cons_dash_nd3 t d2 pre seg rest3 hseg hg hd23f]
                    obtain ⟨h2, L2, hshape, hfacts⟩ :=
                      nccTok_head_shape d2 rest3
                    have hh2 : isDigitTok3 h2 = false :=
                      nccTok_head_nd3 d2 h2 hfacts hd23f
                    rw [hshape, nccTok_cons_dash_nd3 t h2 pre seg L2 hseg hg
                        hh2, ← hshape,
                      ih (d2 :: rest3)
                        (by simp only [List.length_cons] at hlen ⊢; omega)
                        (fun v hv => hok v (by simp at hv ⊢; tauto))]
              · have hd3f : isDigitTok3 d = false := Bool.not_eq_true _ ▸ hd3
                rw [nccTok_cons_notd3_nodash t d pre seg rest2 hseg hg hd3f
                  hdd]
                obtain ⟨h2, L2, hshape, hfacts⟩ := nccTok_head_shape d rest2
                have hh2 := nccTok_head_facts d rest2 h2 L2 hshape hfacts
                  hd3f hdd
                rw [hshape, nccTok_cons_notd3_nodash t h2 pre seg L2 hseg hg
                    hh2.1 hh2.2, ← hshape,
                  ih (d :: rest2) hlen1 hok1]
          · rw [nccTok_cons_guardfail t d pre seg rest2 hseg hg]
            obtain ⟨h2, L2, hshape, _⟩ := nccTok_head_shape d rest2
            rw [hshape, nccTok_cons_guardfail t h2 pre seg L2 hseg hg,
              ← hshape, ih (d :: rest2) hlen1 hok1]

theorem lowerL_rewr (t pre seg : List Char)
    (hseg : alphaSeg t = some (pre, seg)) :
    lowerL (pre ++ upperL seg) = lowerL t := by
  rcases alphaSeg_spec t pre seg hseg with ⟨hpre, hts, _, _⟩ |
      ⟨a, hpre, hts, _, _, _, _⟩
  · subst hpre
    rw [List.nil_append, lowerL_upperL, hts]
  · subst hpre
    subst hts
    simp only [lowerL, List.map_append, List.map_cons, List.map_nil]
    rw [show (upperL seg).map lowerC = seg.map lowerC from lowerL_upperL seg]
    simp

/-- Every token produced by the token-level course-code rewriter has the
same lower-casing as some input token. -/
theorem nccTok_lower_mem : ∀ (n : Nat) (ts : List (List Char)),
    ts.length ≤ n → ∀ u ∈ nccTok ts, ∃ v ∈ ts, lowerL u = lowerL v := by
  intro n
  induction n with
  | zero =>
    intro ts hlen u hu
    have hts : ts = [] := List.length_eq_zero.mp (Nat.le_zero.mp hlen)
    subst hts
    rw [nccTok_nil] at hu
    cases hu
  | succ n2 ih =>
    intro ts hlen u hu
    cases ts with
    | nil =>
      rw [nccTok_nil] at hu
      cases hu
    | cons t rest =>
      have hlrest : rest.length ≤ n2 := by
        simp only [List.length_cons] at hlen
        omega
      cases rest with
      | nil =>
        rw [nccTok_single] at hu
        rcases List.mem_singleton.mp hu with rfl
        exact ⟨u, by simp, rfl⟩
      | cons d rest2 =>
        have hl2 : rest2.length ≤ n2 := by
          simp only [List.length_cons] at hlrest
          omega
        cases hseg : alphaSeg t with
        | none =>
          rw [nccTok_cons_nonalpha t d rest2 hseg] at hu
          rcases List.mem_cons.mp hu with rfl | hu2
          · exact ⟨u, by simp, rfl⟩
          · obtain ⟨v, hv, he⟩ := ih (d :: rest2) hlrest u hu2
            exact ⟨v, List.mem_cons_of_mem _ hv, he⟩
        | some ps =>
          obtain ⟨pre, seg⟩ := ps
          by_cases hg : 2 ≤ seg.length ∧ seg.length ≤ 5
          · by_cases hd3 : isDigitTok3 d = true
            · rw [nccTok_cons_digit3 t d pre seg rest2 hseg hg hd3] at hu
              rcases List.mem_cons.mp hu with rfl | hu2
              · by_cases hcont :
                    COURSE_PREFIXES.contains (⟨upperL seg⟩ : String) = true
                · rw [if_pos hcont]
                  exact ⟨t, by simp, lowerL_rewr t pre seg hseg⟩
                · rw [if_neg hcont]
                  exact ⟨t, by simp, rfl⟩
              · rcases List.mem_cons.mp hu2 with rfl | hu3
                · exact ⟨u, by simp, rfl⟩
                · obtain ⟨v, hv, he⟩ := ih rest2 (by omega) u hu3
                  exact ⟨v, by simp [hv], he⟩
            · by_cases hdd : d = ['-']
              · subst hdd
                cases rest2 with
                | nil =>
                  rw [nccTok_cons_dash_nil t pre seg hseg hg] at hu
                  rcases List.mem_cons.mp hu with rfl | hu2
                  · exact ⟨u, by simp, rfl⟩
                  · rcases List.mem_singleton.mp hu2 with rfl
                    exact ⟨['-'], by simp, rfl⟩
                | cons d2 rest3 =>
                  have hl3 : rest3.length ≤ n2 := by
                    simp only [List.length_cons] at hl2
                    omega
                  by_cases hd23 : isDigitTok3 d2 = true
                  · rw [nccTok_cons_dash_d3 t d2 pre seg rest3 hseg hg
                      hd23] at hu
                    by_cases hcont :
                        COURSE_PREFIXES.contains (⟨upperL seg⟩ : String) = true
                    · rw [if_pos hcont] at hu
                      rcases List.mem_cons.mp hu with rfl | hu2
                      · exact ⟨t, by simp, lowerL_rewr t pre seg hseg⟩
                      · rcases List.mem_cons.mp hu2 with rfl | hu3
                        · exact ⟨u, by simp, rfl⟩
                        · obtain ⟨v, hv, he⟩ := ih rest3 hl3 u hu3
                          exact ⟨v, by simp [hv], he⟩
                    · rw [if_neg hcont] at hu
                      rcases List.mem_cons.mp hu with rfl | hu2
                      · exact ⟨u, by simp, rfl⟩
                      · rcases List.mem_cons.mp hu2 with rfl | hu3
                        · exact ⟨['-'], by simp, rfl⟩
                        · rcases List.mem_cons.mp hu3 with rfl | hu4
                          · exact ⟨u, by simp, rfl⟩
                          · obtain ⟨v, hv, he⟩ := ih rest3 hl3 u hu4
                            exact ⟨v, by simp [hv], he⟩
                  · rw [nccTok_cons_dash_nd3 t d2 pre seg rest3 hseg hg
                      (Bool.not_eq_true _ ▸ hd23)] at hu
                    rcases List.mem_cons.mp hu with rfl | hu2
                    · exact ⟨u, by simp, rfl⟩
                    · rcases List.mem_cons.mp hu2 with rfl | hu3
                      · exact ⟨['-'], by simp, rfl⟩
                      · obtain ⟨v, hv, he⟩ := ih (d2 :: rest3) (by omega) u hu3
                        exact ⟨v, by simp at hv ⊢; tauto, he⟩
              · rw [nccTok_cons_notd3_nodash t d pre seg rest2 hseg hg
                  (Bool.not_eq_true _ ▸ hd3) hdd] at hu
                rcases List.mem_cons.mp hu with rfl | hu2
                · exact ⟨u, by simp, rfl⟩
                · obtain ⟨v, hv, he⟩ := ih (d :: rest2) hlrest u hu2
                  exact ⟨v, List.mem_cons_of_mem _ hv, he⟩
          · rw [nccTok_cons_guardfail t d pre seg rest2 hseg hg] at hu
            rcases List.mem_cons.mp hu with rfl | hu2
            · exact ⟨u, by simp, rfl⟩
            · obtain ⟨v, hv, he⟩ := ih (d :: rest2) hlrest u hu2
              exact ⟨v, List.mem_cons_of_mem _ hv, he⟩

theorem takeAlphaTok_alpha (c : Char) (rest : List Char)
    (hc : isAlphaC c = true) : isAlphaTok (takeAlphaTok (c :: rest)) = true := by
  rw [takeAlphaTok]
  dsimp only
  have haall : ((c :: rest).takeWhile isAlphaC).all isAlphaC = true :=
    List.all_eq_true.mpr (fun x hx => List.mem_takeWhile_imp hx)
  have hane : (c :: rest).takeWhile isAlphaC ≠ [] := by
    simp [List.takeWhile_cons, hc]
  by_cases hhd : ((c :: rest).drop
      ((c :: rest).takeWhile isAlphaC).length).head? = some '\''
  · rw [if_pos hhd]
    by_cases hb : ((c :: rest).drop
        ((c :: rest).takeWhile isAlphaC).length).tail.takeWhile isAlphaC = []
    · rw [if_pos hb]
      exact isAlphaTok_build_pure _ hane haall
    · rw [if_neg hb]
      exact isAlphaTok_build_apos _ _ hane hb haall
        (List.all_eq_true.mpr (fun x hx => List.mem_takeWhile_imp hx))
  · rw [if_neg hhd]
    exact isAlphaTok_build_pure _ hane haall

/-- Every token produced by the tokenizer is one of the three regex
alternative shapes. -/
theorem findTokens_tokOK_aux : ∀ (n : Nat) (s : List Char), s.length ≤ n →
    ∀ u ∈ findTokens s, tokOK u = true := by
  intro n
  induction n with
  | zero =>
    intro s hlen u hu
    have hs : s = [] := List.length_eq_zero.mp (Nat.le_zero.mp hlen)
    subst hs
    rw [show findTokens ([] : List Char) = [] from rfl] at hu
    cases hu
  | succ n2 ih =>
    intro s hlen u hu
    cases s with
    | nil =>
      rw [show findTokens ([] : List Char) = [] from rfl] at hu
      cases hu
    | cons c rest =>
      have hlr : rest.length ≤ n2 := by
        simp only [List.length_cons] at hlen
        omega
      rw [findTokens_cons] at hu
      by_cases h1 : isAlphaC c = true
      · rw [if_pos h1] at hu
        rcases List.mem_cons.mp hu with rfl | hu2
        · rw [tokOK, takeAlphaTok_alpha c rest h1]
          rfl
        · refine ih _ ?_ u hu2
          have hp : 1 ≤ (takeAlphaTok (c :: rest)).length :=
            takeAlphaTok_length_pos c rest h1
          rw [List.length_drop]
          simp only [List.length_cons]
          omega
      · rw [if_neg h1] at hu
        by_cases h2 : isDigitC c = true
        · rw [if_pos h2] at hu
          rcases List.mem_cons.mp hu with rfl | hu2
          · have hd : isDigitTok ((c :: rest).takeWhile isDigitC) = true := by
              rw [isDigitTok]
              have hne : (c :: rest).takeWhile isDigitC ≠ [] := by
                simp [List.takeWhile_cons, h2]
              have hall : ((c :: rest).takeWhile isDigitC).all isDigitC = true :=
                List.all_eq_true.mpr (fun x hx => List.mem_takeWhile_imp hx)
              simp [hne, hall]
            rw [tokOK, hd]
            simp
          · refine ih _ ?_ u hu2
            have hp : 1 ≤ ((c :: rest).takeWhile isDigitC).length := by
              simp [List.takeWhile_cons, h2]
            rw [List.length_drop]
            simp only [List.length_cons]
            omega
        · rw [if_neg h2] at hu
          by_cases h3 : (!isWordC c && !isWsC c) = true
          · rw [if_pos h3] at hu
            rcases List.mem_cons.mp hu with rfl | hu2
            · rw [tokOK]
              have hp : isPunctTok [c] = true := by
                rw [isPunctTok, h3]
              rw [hp]
              simp
            · exact ih rest hlr u hu2
          · rw [if_neg h3] at hu
            exact ih rest hlr u hu

/-- A lowered word on which the per-token loop keeps the token unchanged:
not a shortcut key, and caught by one of the keep conditions (short, known
term, known to the speller, or any offered correction is rejected). -/
def keepsWord (st : NormState) (w : List Char) : Prop :=
  SHORTCUTS.find? (fun kv => kv.1.data = w) = none ∧
    (w.length ≤ 2 ∨ knownTerms st ⟨w⟩ = true ∨ st.sp.known ⟨w⟩ = true ∨
      ∀ cand, st.sp.correction ⟨w⟩ = some cand →
        (cand = "" ∨ ¬(cand.data ≠ w ∧ st.ratio ⟨w⟩ cand ≥ 80)))

/-- Contract of the spell checker: an accepted correction is an alphabetic
token that the normalizer would keep unchanged on a second pass (e.g. a
lower-case dictionary word, hence known to the speller). -/
def SpellerOK (st : NormState) : Prop :=
  ∀ w cand, st.sp.correction w = some cand → cand ≠ "" →
    isAlphaTok cand.data = true ∧ keepsWord st (lowerL cand.data)

/-- Contract tying the state to the shortcut table: every shortcut
expansion is itself kept unchanged by the per-token loop. -/
def ShortcutsOK (st : NormState) : Prop :=
  ∀ kv ∈ SHORTCUTS, keepsWord st (lowerL kv.2.data)

theorem shortcuts_vals_alpha :
    ∀ kv ∈ SHORTCUTS, isAlphaTok kv.2.data = true := by decide

theorem processOne_keeps (st : NormState) (u : List Char)
    (h : isAlphaTok u = false ∨ keepsWord st (lowerL u)) :
    processOne st u = (u, []) := by
  by_cases ha : isAlphaTok u = true
  · rcases h with h | ⟨h1, h2⟩
    · rw [ha] at h
      cases h
    · rw [processOne, if_neg (by rw [ha]; decide)]
      dsimp only
      rw [h1]
      rcases h2 with h2 | h2 | h2 | h2
      · rw [if_pos (by simp [h2])]
      · rw [if_pos (by simp [h2])]
      · by_cases hc1 : (decide ((lowerL u).length ≤ 2) ||
            knownTerms st ⟨lowerL u⟩) = true
        · rw [if_pos hc1]
        · rw [if_neg hc1, if_pos h2]
      · by_cases hc1 : (decide ((lowerL u).length ≤ 2) ||
            knownTerms st ⟨lowerL u⟩) = true
        · rw [if_pos hc1]
        · rw [if_neg hc1]
          by_cases hc2 : st.sp.known ⟨lowerL u⟩ = true
          · rw [if_pos hc2]
          · rw [if_neg hc2]
            cases hcor : st.sp.correction ⟨lowerL u⟩ with
            | none => rfl
            | some cand =>
              dsimp only
              rcases h2 cand hcor with hc | hc
              · rw [if_pos hc]
              · by_cases hce : cand = ""
                · rw [if_pos hce]
                · rw [if_neg hce, if_neg hc]
  · have hf : isAlphaTok u = false := Bool.not_eq_true _ ▸ ha
    rw [processOne, if_pos (by rw [hf]; decide)]

theorem processOne_out_keeps (st : NormState) (hsp : SpellerOK st)
    (hsc : ShortcutsOK st) (t : List Char) :
    isAlphaTok (processOne st t).1 = false ∨
      keepsWord st (lowerL (processOne st t).1) := by
  by_cases ha : isAlphaTok t = true
  · rw [processOne, if_neg (by rw [ha]; decide)]
    dsimp only
    cases hfind : SHORTCUTS.find? (fun kv => kv.1.data = lowerL t) with
    | some kv =>
      dsimp only
      right
      rw [lowerL_matchCase]
      exact hsc kv (List.mem_of_find?_eq_some hfind)
    | none =>
      by_cases hc1 : (decide ((lowerL t).length ≤ 2) ||
          knownTerms st ⟨lowerL t⟩) = true
      · rw [if_pos hc1]
        right
        refine ⟨hfind, ?_⟩
        rcases Bool.or_eq_true_iff.mp hc1 with hc | hc
        · exact Or.inl (by simpa using hc)
        · exact Or.inr (Or.inl hc)
      · rw [if_neg hc1]
        by_cases hc2 : st.sp.known ⟨lowerL t⟩ = true
        · rw [if_pos hc2]
          exact Or.inr ⟨hfind, Or.inr (Or.inr (Or.inl hc2))⟩
        · rw [if_neg hc2]
          cases hcor : st.sp.correction ⟨lowerL t⟩ with
          | none =>
            right
            exact ⟨hfind, Or.inr (Or.inr (Or.inr (fun cand hcand => by
              rw [hcor] at hcand; cases hcand)))⟩
          | some cand =>
            dsimp only
            by_cases hce : cand = ""
            · rw [if_pos hce]
              right
              refine ⟨hfind, Or.inr (Or.inr (Or.inr (fun cand' hcand' => ?_)))⟩
              rw [hcor, Option.some.injEq] at hcand'
              exact Or.inl (hcand' ▸ hce)
            · by_cases hacc : cand.data ≠ lowerL t ∧ st.ratio ⟨lowerL t⟩ cand ≥ 80
              · rw [if_neg hce, if_pos hacc]
                right
                rw [lowerL_matchCase]
                exact (hsp ⟨lowerL t⟩ cand hcor hce).2
              · rw [if_neg hce, if_neg hacc]
                refine Or.inr ⟨hfind, Or.inr (Or.inr (Or.inr
                  (fun cand' hcand' => ?_)))⟩
                rw [hcor, Option.some.injEq] at hcand'
                exact Or.inr (hcand' ▸ hacc)
  · have hf : isAlphaTok t = false := Bool.not_eq_true _ ▸ ha
    rw [processOne, if_pos (by rw [hf]; decide)]
    exact Or.inl hf

theorem processOne_tokOK (st : NormState) (hsp : SpellerOK st) (t : List Char)
    (ht : tokOK t = true) : tokOK (processOne st t).1 = true := by
  by_cases ha : isAlphaTok t = true
  · rw [processOne, if_neg (by rw [ha]; decide)]
    dsimp only
    cases hfind : SHORTCUTS.find? (fun kv => kv.1.data = lowerL t) with
    | some kv =>
      dsimp only
      have hal : isAlphaTok (matchCase t kv.2.data) = true := by
        rw [isAlphaTok_eq_of_lowerL (lowerL_matchCase t kv.2.data)]
        exact shortcuts_vals_alpha kv (List.mem_of_find?_eq_some hfind)
      rw [tokOK, hal]
      rfl
    | none =>
      by_cases hc1 : (decide ((lowerL t).length ≤ 2) ||
          knownTerms st ⟨lowerL t⟩) = true
      · rw [if_pos hc1]
        exact ht
      · rw [if_neg hc1]
        by_cases hc2 : st.sp.known ⟨lowerL t⟩ = true
        · rw [if_pos hc2]
          exact ht
        · rw [if_neg hc2]
          cases hcor : st.sp.correction ⟨lowerL t⟩ with
          | none => exact ht
          | some cand =>
            dsimp only
            by_cases hce : cand = ""
            · rw [if_pos hce]
              exact ht
            · by_cases hacc : cand.data ≠ lowerL t ∧ st.ratio ⟨lowerL t⟩ cand ≥ 80
              · rw [if_neg hce, if_pos hacc]
                have hal : isAlphaTok (matchCase t cand.data) = true := by
                  rw [isAlphaTok_eq_of_lowerL (lowerL_matchCase t cand.data)]
                  exact (hsp ⟨lowerL t⟩ cand hcor hce).1
                rw [tokOK, hal]
                rfl
              · rw [if_neg hce, if_neg hacc]
                exact ht
  · have hf : isAlphaTok t = false := Bool.not_eq_true _ ▸ ha
    rw [processOne, if_pos (by rw [hf]; decide)]
    exact ht

theorem processTokens_cons (st : NormState) (t : List Char)
    (rest : List (List Char)) :
    processTokens st (t :: rest) =
      ((processOne st t).1 :: (processTokens st rest).1,
       (processOne st t).2 ++ (processTokens st rest).2) := by
  rw [processTokens]

theorem processTokens_id (st : NormState) (ts : List (List Char))
    (h : ∀ u ∈ ts, isAlphaTok u = false ∨ keepsWord st (lowerL u)) :
    processTokens st ts = (ts, []) := by
  induction ts with
  | nil => rfl
  | cons t rest ih =>
    rw [processTokens_cons, processOne_keeps st t (h t (by simp)),
      ih (fun u hu => h u (by simp [hu]))]
    rfl

theorem processTokens_fst_mem (st : NormState) (ts : List (List Char)) :
    ∀ o ∈ (processTokens st ts).1, ∃ t ∈ ts, o = (processOne st t).1 := by
  induction ts with
  | nil =>
    intro o ho
    cases ho
  | cons t rest ih =>
    intro o ho
    rw [processTokens_cons] at ho
    rcases List.mem_cons.mp ho with rfl | ho2
    · exact ⟨t, by simp, rfl⟩
    · obtain ⟨v, hv, he⟩ := ih o ho2
      exact ⟨v, List.mem_cons_of_mem _ hv, he⟩

/-- C5: `normalize` is idempotent on its own corrected output: for every
query `q`, `normalize(normalize(q).corrected).corrected` equals
`normalize(q).corrected`.  The spell checker is abstract here, so the proof
assumes its contract (`SpellerOK`: accepted corrections are alphabetic
words the normalizer keeps, e.g. lower-case dictionary words) and the
corresponding fact for the shortcut expansions (`ShortcutsOK`). -/
theorem normalize_idempotent (st : NormState) (hsp : SpellerOK st)
    (hsc : ShortcutsOK st) (q : String) :
    (normalizeQ st (normalizeQ st q).corrected).corrected =
      (normalizeQ st q).corrected := by
  by_cases h0 : collapseWS q.data = []
  · have h1 : normalizeQ st q = ⟨q, q, false, []⟩ := by
      rw [normalizeQ]
      dsimp only
      rw [if_pos h0]
    rw [h1]
    dsimp only
    rw [h1]
  · set outs := (processTokens st (findTokens (ncc (collapseWS q.data)))).1
      with houts
    have htoksOK : ∀ u ∈ findTokens (ncc (collapseWS q.data)),
        tokOK u = true := findTokens_tokOK_aux _ _ (le_refl _)
    have houtsOK : ∀ u ∈ outs, tokOK u = true := by
      intro u hu
      rw [houts] at hu
      obtain ⟨v, hv, he⟩ := processTokens_fst_mem st _ u hu
      rw [he]
      exact processOne_tokOK st hsp v (htoksOK v hv)
    have houtsKeeps : ∀ u ∈ outs,
        isAlphaTok u = false ∨ keepsWord st (lowerL u) := by
      intro u hu
      rw [houts] at hu
      obtain ⟨v, hv, he⟩ := processTokens_fst_mem st _ u hu
      rw [he]
      exact processOne_out_keeps st hsp hsc v
    have hTOK : ∀ u ∈ nccTok outs, tokOK u = true :=
      nccTok_tokOK outs.length outs (le_refl _) houtsOK
    have hTkeeps : ∀ u ∈ nccTok outs,
        isAlphaTok u = false ∨ keepsWord st (lowerL u) := by
      intro u hu
      obtain ⟨v, hv, he⟩ := nccTok_lower_mem outs.length outs (le_refl _) u hu
      rcases houtsKeeps v hv with hva | hvk
      · exact Or.inl (by rw [isAlphaTok_eq_of_lowerL he]; exact hva)
      · exact Or.inr (he ▸ hvk)
    have hidem : nccTok (nccTok outs) = nccTok outs :=
      nccTok_idem_aux outs.length outs (le_refl _) houtsOK
    have hc : (normalizeQ st q).corrected = ⟨joinTokens (nccTok outs)⟩ := by
      rw [normalizeQ]
      dsimp only
      rw [if_neg h0]
      dsimp only
      rw [← houts, ncc_joinTokens outs houtsOK,
        collapseWS_joinTokens _ hTOK]
    rw [hc]
    by_cases hT0 : collapseWS (joinTokens (nccTok outs)) = []
    · rw [normalizeQ]
      dsimp only
      rw [if_pos hT0]
    · rw [normalizeQ]
      dsimp only
      rw [if_neg hT0]
      dsimp only
      rw [collapseWS_joinTokens _ hTOK,
        ncc_joinTokens (nccTok outs) hTOK, hidem,
        findTokens_joinTokens (nccTok outs) hTOK,
        processTokens_id st (nccTok outs) hTkeeps]
      dsimp only
      rw [ncc_joinTokens (nccTok outs) hTOK, hidem,
        collapseWS_joinTokens _ hTOK]

theorem trivialState_spellerOK : SpellerOK trivialState := by
  intro w cand h
  exact absurd h (by simp [trivialState])

theorem trivialState_shortcutsOK : ShortcutsOK trivialState := by
  have h1 : ∀ kv ∈ SHORTCUTS,
      SHORTCUTS.find? (fun kv' => kv'.1.data = lowerL kv.2.data) = none := by
    decide
  intro kv hkv
  exact ⟨h1 kv hkv, Or.inr (Or.inr (Or.inr (fun cand h =>
    absurd h (by simp [trivialState]))))⟩

/-- C5 witness: the idempotence theorem applied at the concrete empty
spelling state and a concrete query containing a shortcut and a course
code. -/
theorem normalize_idempotent_witness :
    (normalizeQ trivialState
        (normalizeQ trivialState "whr is cmsc 201?").corrected).corrected =
      (normalizeQ trivialState "whr is cmsc 201?").corrected :=
  normalize_idempotent trivialState trivialState_spellerOK
    trivialState_shortcutsOK "whr is cmsc 201?"
